import Mathlib

/-!
Verification development for the osmfile repository (a Go downloader and
reader for OSM planet PBF files).  The Go sources are shallowly embedded:
byte slices become `List Nat` (each entry one byte), Go `uint64`/`uint32`
values become `Nat` with explicit `% 2 ^ 64` / `% 2 ^ 32` where the source
wraps, Go `int64`/`int` become `Int` reduced with `wrap64` where the source
can overflow, and Go runtime faults (out-of-range slice writes) become an
explicit `panic` outcome of the fold combinators.  Iteration with mutating
closures (`pbf.ForEachField`, `Field.ForEachPackedUint64`, ...) becomes
explicit state threading; a visitor returns its updated state together
with an optional error, matching how the Go closures mutate captured
variables before returning an error value.
-/

set_option maxHeartbeats 1000000

namespace Osm

/-- Error values produced by the embedded code, mirroring the distinct Go
error values (io.EOF, io.ErrUnexpectedEOF, os.ErrInvalid, errors.New
messages, ...). -/
inductive GoErr : Type where
  | eof
  | unexpectedEOF
  | invalid
  | badWireType
  | bufferTooSmall
  | overflow64
  | plainNodes
  | unsupportedField (n : Nat)
  | unsupportedGroupField (n : Nat)
  | sizeMismatch
  | corruptTooLarge
  | stopped
  | httpStatus (code : Nat)
  | parseErr
  | noNamesFound
  | other
  deriving DecidableEq, Repr

/-- Reduce an integer into the two's-complement int64 range, as Go int64
arithmetic does on overflow. -/
def wrap64 (z : Int) : Int :=
  ((z + 2 ^ 63) % 2 ^ 64) - 2 ^ 63

/-- Reinterpret a uint64 bit pattern as a Go int64 (two's complement). -/
def toInt64 (u : Nat) : Int :=
  if u < 2 ^ 63 then (u : Int) else (u : Int) - 2 ^ 64

/-- Little-endian value of a byte list (used for the 4- and 8-byte bodies
that binary.LittleEndian.Uint32 / Uint64 read). -/
def leUint : List Nat → Nat
  | [] => 0
  | b :: rest => b % 256 + 256 * leUint rest

/-- Big-endian uint32 of a 4-byte list (binary.BigEndian.Uint32). -/
def beUint32 (l : List Nat) : Nat :=
  l.getD 0 0 % 256 * 2 ^ 24 + l.getD 1 0 % 256 * 2 ^ 16 +
    l.getD 2 0 % 256 * 2 ^ 8 + l.getD 3 0 % 256

/-- Loop body of binary.Uvarint from encoding/binary: walks the bytes of
`buf` with current index `i`, shift `s` and accumulator `x`; returns the
decoded value and the number of bytes read (0 when the buffer ran out,
negative on a 64-bit overflow, exactly as the Go function reports). -/
def uvarintCore : List Nat → Nat → Nat → Nat → Nat × Int
  | [], _, _, _ => (0, 0)
  | b :: bs, i, s, x =>
    if i = 10 then (0, -((i : Int) + 1))
    else if b % 256 < 128 then
      if i = 9 ∧ b % 256 > 1 then (0, -((i : Int) + 1))
      else ((x ||| (b % 256) <<< s) % 2 ^ 64, (i : Int) + 1)
    else uvarintCore bs (i + 1) (s + 7) ((x ||| (b % 256 &&& 127) <<< s) % 2 ^ 64)

/-- binary.Uvarint. -/
def uvarint (buf : List Nat) : Nat × Int :=
  uvarintCore buf 0 0 0

/-- binary.Varint: unsigned decode followed by zig-zag decoding
(x := int64(ux >> 1); if ux is odd, x := complement x). -/
def varint (buf : List Nat) : Int × Int :=
  let p := uvarint buf
  let x : Int := (p.1 >>> 1 : Nat)
  (if p.1 &&& 1 ≠ 0 then -x - 1 else x, p.2)

/-- Reference varint encoder (7-bit groups, little endian, continuation
bit in the MSB), with fuel; fuel 10 covers every value below 2 ^ 64. -/
def encUvarintF : Nat → Nat → List Nat
  | 0, x => [x % 128]
  | fuel + 1, x => if x < 128 then [x] else (x % 128 + 128) :: encUvarintF fuel (x / 128)

/-- Reference varint encoder for uint64 values. -/
def encUvarint (x : Nat) : List Nat :=
  encUvarintF 10 x

/-- Reference zig-zag encoder mapping an int64 to its uint64 wire image. -/
def zigzagEnc (z : Int) : Nat :=
  if 0 ≤ z then (2 * z).toNat else (-2 * z - 1).toNat

/-- Reference packed encoding of a list of uint64 values. -/
def encPacked (xs : List Nat) : List Nat :=
  (xs.map encUvarint).flatten

/-- A protobuf field as produced by the pbf reader: number, wire type and
body bytes. -/
structure Field where
  num : Nat
  typ : Nat
  data : List Nat
  deriving DecidableEq, Repr

/-- Field.Uint64 from the source: little-endian value for the 32/64-bit
wire types, varint decode for wire type 0, otherwise 0. -/
def Field.Uint64 (f : Field) : Nat :=
  if f.typ = 5 then leUint f.data
  else if f.typ = 1 then leUint f.data
  else if f.typ = 0 then (uvarint f.data).1
  else 0

/-- Field.Int64 from the source: 32-bit bodies widen without sign, 64-bit
bodies reinterpret as two's complement, varints use zig-zag decoding. -/
def Field.Int64 (f : Field) : Int :=
  if f.typ = 5 then (leUint f.data : Int)
  else if f.typ = 1 then toInt64 (leUint f.data)
  else if f.typ = 0 then (varint f.data).1
  else 0

/-- reader.readField: one step of the pbf field reader.  Returns the field
and the remaining bytes, or the error the Go method records (io.EOF at a
clean end, os.ErrInvalid on a malformed varint, io.ErrUnexpectedEOF on a
short body, bad wire type otherwise). -/
def readField (ptr0 : List Nat) : Except GoErr (Field × List Nat) :=
  if ptr0 = [] then .error .eof
  else
    let p := uvarint ptr0
    if p.2 ≤ 0 then .error .invalid
    else
      let ptr1 := ptr0.drop p.2.toNat
      let num := p.1 >>> 3
      let typ := p.1 &&& 7
      if typ = 0 ∨ typ = 2 then
        let q := uvarint ptr1
        if q.2 ≤ 0 then .error .invalid
        else if ptr1.length < q.2.toNat then .error .unexpectedEOF
        else
          let dataV := ptr1.take q.2.toNat
          let ptr2 := ptr1.drop q.2.toNat
          if typ = 2 then
            if q.1 > ptr2.length then .error .unexpectedEOF
            else .ok (⟨num, typ, ptr2.take q.1⟩, ptr2.drop q.1)
          else .ok (⟨num, typ, dataV⟩, ptr2)
      else if typ = 1 then
        if ptr1.length < 8 then .error .unexpectedEOF
        else .ok (⟨num, typ, ptr1.take 8⟩, ptr1.drop 8)
      else if typ = 5 then
        if ptr1.length < 4 then .error .unexpectedEOF
        else .ok (⟨num, typ, ptr1.take 4⟩, ptr1.drop 4)
      else .error .badWireType

/-- Result of one visitor call: continue with the new state, stop with an
error (the state still carries the mutations made before returning the
error, as Go closures mutate captured variables in place), or a runtime
panic (out-of-range slice write). -/
inductive Vres (σ : Type) : Type where
  | cont : σ → Vres σ
  | err : σ → GoErr → Vres σ
  | panic : Vres σ
  deriving DecidableEq, Repr

/-- Result of a whole fold: normal completion, error with the state as
mutated so far, or a runtime panic. -/
inductive Fres (σ : Type) : Type where
  | ok : σ → Fres σ
  | err : σ → GoErr → Fres σ
  | panic : Fres σ
  deriving DecidableEq, Repr

/-- Fueled body of pbf.ForEachField: read fields one at a time and feed
them to the visitor; a clean io.EOF from the reader ends the iteration
successfully.  The fuel only serves totality; `foldFields` supplies more
fuel than the byte count, which can never run out because every parsed
field consumes at least one byte. -/
def foldFieldsF {σ : Type} : Nat → (σ → Field → Vres σ) → σ → List Nat → Fres σ
  | 0, _, _, _ => .panic
  | fuel + 1, visit, s, buf =>
    match readField buf with
    | .error e => if e = .eof then .ok s else .err s e
    | .ok (f, rest) =>
      match visit s f with
      | .cont s₁ => foldFieldsF fuel visit s₁ rest
      | .err s₁ e => .err s₁ e
      | .panic => .panic

/-- pbf.ForEachField with a state-threading visitor. -/
def foldFields {σ : Type} (visit : σ → Field → Vres σ) (s : σ) (buf : List Nat) : Fres σ :=
  foldFieldsF (buf.length + 1) visit s buf

/-- Fueled body of the packed-array iteration shared by
Field.ForEachPackedUint64 (`next = uvarint`) and Field.ForEachPackedInt64
(`next = varint`): decode consecutive varints and feed each to the
visitor; a varint read of zero bytes reports the buffer-too-small error
and a negative count the 64-bit overflow error, as in the source. -/
def foldPackedF {α σ : Type} : Nat → (List Nat → α × Int) → (σ → α → Vres σ) → σ → List Nat → Fres σ
  | 0, _, _, _, _ => .panic
  | _, _, _, s, [] => .ok s
  | fuel + 1, next, visit, s, buf =>
    let p := next buf
    if p.2 = 0 then .err s .bufferTooSmall
    else if p.2 < 0 then .err s .overflow64
    else
      match visit s p.1 with
      | .cont s₁ => foldPackedF fuel next visit s₁ (buf.drop p.2.toNat)
      | .err s₁ e => .err s₁ e
      | .panic => .panic

/-- Field.ForEachPackedUint64 / Int64, generic in the varint decoder. -/
def foldPacked {α σ : Type} (next : List Nat → α × Int) (visit : σ → α → Vres σ)
    (s : σ) (buf : List Nat) : Fres σ :=
  foldPackedF (buf.length + 1) next visit s buf

/-- The What filter selecting which work the block decoder performs. -/
inductive What : Type where
  | everything
  | dataKinds
  | strings
  | nodes
  | ways
  | relations
  deriving DecidableEq, Repr

/-- blockNode.  The source stores lat/lon as float64; here the exact
integer nano-degree value (latOffset + granularity * latAdder, with int64
wrapping) is kept and the final 1e-9 floating multiplication is not
modelled, since no claim depends on the float value. -/
structure BlockNode where
  id : Int := 0
  latNano : Int := 0
  lonNano : Int := 0
  sset : Nat := 0
  send : Nat := 0
  deriving DecidableEq, Repr, Inhabited

/-- blockWay. -/
structure BlockWay where
  id : Int := 0
  sset : Nat := 0
  send : Nat := 0
  rset : Nat := 0
  rend : Nat := 0
  deriving DecidableEq, Repr

/-- blockRelation. -/
structure BlockRelation where
  id : Int := 0
  sset : Nat := 0
  send : Nat := 0
  mset : Nat := 0
  mend : Nat := 0
  deriving DecidableEq, Repr

/-- Block.  Strings are byte lists; the unsafe one-arena optimization of
the source (stringsOne) is semantically the list of the string-table
entries in order, so only that list is kept. -/
structure Block where
  granularity : Int := 0
  latOffset : Int := 0
  lonOffset : Int := 0
  dateGranularity : Int := 0
  dataKind : Int := 0
  stringsCount : Nat := 0
  strings : List (List Nat) := []
  nodes : List BlockNode := []
  nodeStrings : List Nat := []
  ways : List BlockWay := []
  wayStrings : List Nat := []
  wayRefs : List Int := []
  relations : List BlockRelation := []
  relationStrings : List Nat := []
  relationMemberRoles : List Nat := []
  relationMemberRefs : List Int := []
  relationMemberTypes : List Nat := []
  deriving DecidableEq, Repr

/-- The zero value Block{} that the Go functions return beside an error. -/
def zeroBlock : Block := {}

/-- The initial block of procBlock, with the documented defaults. -/
def initBlock : Block :=
  { granularity := 100, latOffset := 0, lonOffset := 0, dateGranularity := 1000 }

/-- Go slice element assignment `l[i] = f l[i]`: in range it updates, out
of range it is a runtime panic, reported as none. -/
def setAt {α : Type} (l : List α) (i : Nat) (f : α → α) [Inhabited α] : Option (List α) :=
  if i < l.length then some (l.set i (f (l.getD i default))) else none

/-- onlyDetectPrimativeDataKind: scan the primitive group for the first
subfield in 2/3/4; the io.EOF sentinel returned by the visitor stops the
scan and is translated back to success, keeping the kind recorded just
before stopping. -/
def onlyDetectPrimativeDataKind (what : What) (data : List Nat) : Fres Int :=
  match foldFields
      (fun (k : Int) f =>
        if f.num = 2 then .err 0 .eof
        else if f.num = 3 then .err 1 .eof
        else if f.num = 4 then .err 2 .eof
        else .cont k)
      (-1) data with
  | .err k .eof => .ok k
  | r => r

/-- procStringTable: first pass counts the entries (and total length,
used only for preallocation); second pass collects each entry.  The
source ignores the second pass error value, keeping whatever was
appended. -/
def procStringTable (what : What) (data : List Nat) (block : Block) : Fres Block :=
  match foldFields (fun (p : Nat × Nat) f => .cont (p.1 + 1, p.2 + f.data.length)) (0, 0) data with
  | .err _ e => .err block e
  | .panic => .panic
  | .ok (count, _len) =>
    match foldFields (fun (ss : List (List Nat)) f => .cont (ss ++ [f.data])) [] data with
    | .ok ss => .ok { block with stringsCount := count, strings := ss }
    | .err ss _ => .ok { block with stringsCount := count, strings := ss }
    | .panic => .panic

/-- First pass of procDenseNodes: count the nodes from field 1 and the
non-terminator entries of field 10 (`which` flips on every counted entry,
a zero in key position is skipped). -/
def denseCountPass (data : List Nat) : Fres (Nat × Nat) :=
  foldFields
    (fun (c : Nat × Nat) f =>
      if f.num = 1 then
        match foldPacked varint (fun (n : Nat) _ => .cont (n + 1)) c.1 f.data with
        | .ok n => .cont (n, c.2)
        | .err n e => .err (n, c.2) e
        | .panic => .panic
      else if f.num = 10 then
        match foldPacked uvarint
            (fun (p : Nat × Bool) x =>
              if p.2 = false ∧ x = 0 then .cont p else .cont (p.1 + 1, !p.2))
            (c.2, false) f.data with
        | .ok p => .cont (c.1, p.1)
        | .err p e => .err (c.1, p.1) e
        | .panic => .panic
      else .cont c)
    (0, 0) data

/-- State of the second dense-nodes pass: the running delta adders of the
source closure plus the two preallocated arrays. -/
structure DenseS where
  idAdder : Int := 0
  latAdder : Int := 0
  lonAdder : Int := 0
  nodes : List BlockNode := []
  nodeStrings : List Nat := []
  deriving DecidableEq, Repr

/-- Per-field state of the field-10 (keys_vals) visitor of the second
dense-nodes pass: the uint32 write cursor, the node index, and the
`which` / `first` flags, beside the two arrays being filled. -/
structure DenseKV where
  nodes : List BlockNode
  nodeStrings : List Nat
  stringIdx : Nat := 0
  nodeIdx : Nat := 0
  which : Bool := false
  first : Bool := false
  deriving DecidableEq, Repr

/-- One step of the keys_vals decoding: a zero in key position ends the
current node and advances the node index; otherwise the entry is written
at the cursor, setting sset on the first write for a node and send after
every write.  Out-of-range writes are runtime panics. -/
def denseKeysValsStep (st : DenseKV) (x : Nat) : Vres DenseKV :=
  if st.which = false ∧ x = 0 then
    .cont { st with nodeIdx := st.nodeIdx + 1, first := false }
  else
    let step1 : Option (List BlockNode × Bool) :=
      if st.first = false then
        match setAt st.nodes st.nodeIdx (fun nd => { nd with sset := st.stringIdx }) with
        | some ns => some (ns, true)
        | none => none
      else some (st.nodes, st.first)
    match step1 with
    | none => .panic
    | some (nodes1, first1) =>
      if st.stringIdx < st.nodeStrings.length then
        let nodeStrings1 := st.nodeStrings.set st.stringIdx (x % 2 ^ 32)
        let stringIdx1 := (st.stringIdx + 1) % 2 ^ 32
        match setAt nodes1 st.nodeIdx (fun nd => { nd with send := stringIdx1 }) with
        | none => .panic
        | some nodes2 =>
          .cont { nodes := nodes2, nodeStrings := nodeStrings1, stringIdx := stringIdx1,
                  nodeIdx := st.nodeIdx, which := !st.which, first := first1 }
      else .panic

/-- Second pass of procDenseNodes: fill ids (field 1), nano coordinates
(fields 8/9, delta-decoded with the block offsets and granularity under
int64 wrapping) and the keys_vals windows (field 10).  The per-field
index i and the field-10 cursor state restart at every field, exactly as
the locals of the source visitor do. -/
def denseFillVisit (block : Block) (st : DenseS) (f : Field) : Vres DenseS :=
  (fun (st : DenseS) f =>
      if f.num = 1 then
        match foldPacked varint
            (fun (p : Int × List BlockNode × Nat) x =>
              let a := wrap64 (p.1 + x)
              match setAt p.2.1 p.2.2 (fun nd => { nd with id := a }) with
              | none => .panic
              | some ns => .cont (a, ns, p.2.2 + 1))
            (st.idAdder, st.nodes, 0) f.data with
        | .ok p => .cont { st with idAdder := p.1, nodes := p.2.1 }
        | .err p e => .err { st with idAdder := p.1, nodes := p.2.1 } e
        | .panic => .panic
      else if f.num = 8 then
        match foldPacked varint
            (fun (p : Int × List BlockNode × Nat) x =>
              let a := wrap64 (p.1 + x)
              let nano := wrap64 (block.latOffset + wrap64 (block.granularity * a))
              match setAt p.2.1 p.2.2 (fun nd => { nd with latNano := nano }) with
              | none => .panic
              | some ns => .cont (a, ns, p.2.2 + 1))
            (st.latAdder, st.nodes, 0) f.data with
        | .ok p => .cont { st with latAdder := p.1, nodes := p.2.1 }
        | .err p e => .err { st with latAdder := p.1, nodes := p.2.1 } e
        | .panic => .panic
      else if f.num = 9 then
        match foldPacked varint
            (fun (p : Int × List BlockNode × Nat) x =>
              let a := wrap64 (p.1 + x)
              let nano := wrap64 (block.lonOffset + wrap64 (block.granularity * a))
              match setAt p.2.1 p.2.2 (fun nd => { nd with lonNano := nano }) with
              | none => .panic
              | some ns => .cont (a, ns, p.2.2 + 1))
            (st.lonAdder, st.nodes, 0) f.data with
        | .ok p => .cont { st with lonAdder := p.1, nodes := p.2.1 }
        | .err p e => .err { st with lonAdder := p.1, nodes := p.2.1 } e
        | .panic => .panic
      else if f.num = 10 then
        match foldPacked uvarint denseKeysValsStep
            { nodes := st.nodes, nodeStrings := st.nodeStrings } f.data with
        | .ok kv => .cont { st with nodes := kv.nodes, nodeStrings := kv.nodeStrings }
        | .err kv e => .err { st with nodes := kv.nodes, nodeStrings := kv.nodeStrings } e
        | .panic => .panic
      else .cont st) st f

/-- Second pass of procDenseNodes, iterating denseFillVisit. -/
def denseFillPass (block : Block) (data : List Nat) (st0 : DenseS) : Fres DenseS :=
  foldFields (denseFillVisit block) st0 data

/-- procDenseNodes: count, allocate, fill, then append the local arrays
to the block.  Both passes must succeed for the block to be touched. -/
def procDenseNodes (what : What) (data : List Nat) (block : Block) : Fres Block :=
  match denseCountPass data with
  | .err _ e => .err block e
  | .panic => .panic
  | .ok (numNodes, numStrings) =>
    match denseFillPass block data
        { nodes := List.replicate numNodes {}, nodeStrings := List.replicate numStrings 0 } with
    | .err _ e => .err block e
    | .panic => .panic
    | .ok st =>
      .ok { block with nodes := block.nodes ++ st.nodes,
                       nodeStrings := block.nodeStrings ++ st.nodeStrings }

/-- Closure state of procWay: the block being mutated, the way under
construction and the running value-slot cursor strValIdx. -/
structure WayS where
  block : Block
  way : BlockWay
  strValIdx : Nat
  deriving DecidableEq, Repr

/-- The field visitor of procWay: id (1), keys appended as (k, 0) pairs
(2), vals written into the reserved slots (3, panics out of range as the
Go slice write does), refs delta-decoded (8); other fields ignored. -/
def procWayVisit (st : WayS) (f : Field) : Vres WayS :=
  if f.num = 1 then .cont { st with way := { st.way with id := toInt64 f.Uint64 } }
  else if f.num = 2 then
    match foldPacked uvarint
        (fun (b : Block) x => .cont { b with wayStrings := b.wayStrings ++ [x % 2 ^ 32, 0] })
        st.block f.data with
    | .ok b => .cont { st with block := b }
    | .err b e => .err { st with block := b } e
    | .panic => .panic
  else if f.num = 3 then
    match foldPacked uvarint
        (fun (p : Block × Nat) x =>
          if p.2 < p.1.wayStrings.length then
            .cont ({ p.1 with wayStrings := p.1.wayStrings.set p.2 (x % 2 ^ 32) }, p.2 + 2)
          else .panic)
        (st.block, st.strValIdx) f.data with
    | .ok p => .cont { st with block := p.1, strValIdx := p.2 }
    | .err p e => .err { st with block := p.1, strValIdx := p.2 } e
    | .panic => .panic
  else if f.num = 8 then
    match foldPacked varint
        (fun (p : Block × Int) x =>
          let r := wrap64 (p.2 + x)
          .cont ({ p.1 with wayRefs := p.1.wayRefs ++ [r] }, r))
        (st.block, 0) f.data with
    | .ok p => .cont { st with block := p.1 }
    | .err p e => .err { st with block := p.1 } e
    | .panic => .panic
  else .cont st

/-- procWay: record the window starts, iterate the fields, then close the
windows and append the way.  On error the block keeps the partial string
and ref appends but the way itself is not appended, as in the source. -/
def procWay (what : What) (data : List Nat) (block : Block) : Fres Block :=
  let st0 : WayS :=
    { block := block,
      way := { sset := block.wayStrings.length % 2 ^ 32, rset := block.wayRefs.length % 2 ^ 32 },
      strValIdx := block.wayStrings.length + 1 }
  match foldFields procWayVisit st0 data with
  | .ok st =>
    .ok { st.block with
          ways := st.block.ways ++
            [{ st.way with send := st.block.wayStrings.length % 2 ^ 32,
                           rend := st.block.wayRefs.length % 2 ^ 32 }] }
  | .err st e => .err st.block e
  | .panic => .panic

/-- Closure state of procRelation. -/
structure RelS where
  block : Block
  relation : BlockRelation
  strValIdx : Nat
  deriving DecidableEq, Repr

/-- The field visitor of procRelation: id (1), keys/vals as in ways
(2/3), member role string ids (8), delta-decoded member refs (9), member
types stored as bytes (10). -/
def procRelationVisit (st : RelS) (f : Field) : Vres RelS :=
  if f.num = 1 then .cont { st with relation := { st.relation with id := toInt64 f.Uint64 } }
  else if f.num = 2 then
    match foldPacked uvarint
        (fun (b : Block) x =>
          .cont { b with relationStrings := b.relationStrings ++ [x % 2 ^ 32, 0] })
        st.block f.data with
    | .ok b => .cont { st with block := b }
    | .err b e => .err { st with block := b } e
    | .panic => .panic
  else if f.num = 3 then
    match foldPacked uvarint
        (fun (p : Block × Nat) x =>
          if p.2 < p.1.relationStrings.length then
            .cont ({ p.1 with relationStrings := p.1.relationStrings.set p.2 (x % 2 ^ 32) },
              p.2 + 2)
          else .panic)
        (st.block, st.strValIdx) f.data with
    | .ok p => .cont { st with block := p.1, strValIdx := p.2 }
    | .err p e => .err { st with block := p.1, strValIdx := p.2 } e
    | .panic => .panic
  else if f.num = 8 then
    match foldPacked uvarint
        (fun (b : Block) x =>
          .cont { b with relationMemberRoles := b.relationMemberRoles ++ [x % 2 ^ 32] })
        st.block f.data with
    | .ok b => .cont { st with block := b }
    | .err b e => .err { st with block := b } e
    | .panic => .panic
  else if f.num = 9 then
    match foldPacked varint
        (fun (p : Block × Int) x =>
          let r := wrap64 (p.2 + x)
          .cont ({ p.1 with relationMemberRefs := p.1.relationMemberRefs ++ [r] }, r))
        (st.block, 0) f.data with
    | .ok p => .cont { st with block := p.1 }
    | .err p e => .err { st with block := p.1 } e
    | .panic => .panic
  else if f.num = 10 then
    match foldPacked uvarint
        (fun (b : Block) x =>
          .cont { b with relationMemberTypes := b.relationMemberTypes ++ [x % 256] })
        st.block f.data with
    | .ok b => .cont { st with block := b }
    | .err b e => .err { st with block := b } e
    | .panic => .panic
  else .cont st

/-- procRelation, analogous to procWay. -/
def procRelation (what : What) (data : List Nat) (block : Block) : Fres Block :=
  let st0 : RelS :=
    { block := block,
      relation := { sset := block.relationStrings.length % 2 ^ 32,
                    mset := block.relationMemberRefs.length % 2 ^ 32 },
      strValIdx := block.relationStrings.length + 1 }
  match foldFields procRelationVisit st0 data with
  | .ok st =>
    .ok { st.block with
          relations := st.block.relations ++
            [{ st.relation with send := st.block.relationStrings.length % 2 ^ 32,
                                mend := st.block.relationMemberRefs.length % 2 ^ 32 }] }
  | .err st e => .err st.block e
  | .panic => .panic

/-- procPrimativeGroup: field 1 (plain nodes) is an error, fields 2/3/4
set dataKind to 0/1/2 and, when selected by the filter, run the matching
decoder whose returned error the source discards (keeping the mutations
made so far), field 5 (changesets) is ignored, anything else is an
unsupported-field error. -/
def procGroupVisit (what : What) (b : Block) (f : Field) : Vres Block :=
  if f.num = 1 then .err b .plainNodes
  else if f.num = 2 then
    let b := { b with dataKind := 0 }
    if what = .everything ∨ what = .nodes then
      match procDenseNodes what f.data b with
      | .ok b₁ => .cont b₁
      | .err b₁ _ => .cont b₁
      | .panic => .panic
    else .cont b
  else if f.num = 3 then
    let b := { b with dataKind := 1 }
    if what = .everything ∨ what = .ways then
      match procWay what f.data b with
      | .ok b₁ => .cont b₁
      | .err b₁ _ => .cont b₁
      | .panic => .panic
    else .cont b
  else if f.num = 4 then
    let b := { b with dataKind := 2 }
    if what = .everything ∨ what = .relations then
      match procRelation what f.data b with
      | .ok b₁ => .cont b₁
      | .err b₁ _ => .cont b₁
      | .panic => .panic
    else .cont b
  else if f.num = 5 then .cont b
  else .err b (.unsupportedGroupField f.num)

def procPrimativeGroup (what : What) (data : List Nat) (block : Block) : Fres Block :=
  foldFields (procGroupVisit what) block data

/-- Sequential processing of the collected primitive groups; the first
group error aborts, as in procBlock. -/
def procGroups (what : What) : List (List Nat) → Block → Fres Block
  | [], b => .ok b
  | g :: gs, b =>
    match procPrimativeGroup what g b with
    | .ok b₁ => procGroups what gs b₁
    | .err b₁ e => .err b₁ e
    | .panic => .panic

/-- Closure state of the top-level field scan of procBlock. -/
structure PBState where
  block : Block
  stringTable : List Nat := []
  primativeGroups : List (List Nat) := []
  deriving DecidableEq, Repr

/-- procBlock: scan the top-level fields (remembering the string table
and the primitive groups, or quick-scanning the kind when the filter is
DataKinds), then build the string table and process the groups.  Any
error yields the zero Block beside the error, as the Go function returns
Block{}. -/
def procBlockVisit (what : What) (st : PBState) (f : Field) : Vres PBState :=
  if f.num = 1 then .cont { st with stringTable := f.data }
  else if f.num = 2 then
    if what = .dataKinds then
      match onlyDetectPrimativeDataKind what f.data with
      | .ok k => .cont { st with block := { st.block with dataKind := k } }
      | .err k e => .err { st with block := { st.block with dataKind := k } } e
      | .panic => .panic
    else if what ≠ .strings then
      .cont { st with primativeGroups := st.primativeGroups ++ [f.data] }
    else .cont st
  else if f.num = 17 then .cont { st with block := { st.block with granularity := f.Int64 } }
  else if f.num = 18 then
    .cont { st with block := { st.block with dateGranularity := f.Int64 } }
  else if f.num = 19 then .cont { st with block := { st.block with latOffset := f.Int64 } }
  else if f.num = 20 then .cont { st with block := { st.block with lonOffset := f.Int64 } }
  else .err st (.unsupportedField f.num)

def procBlock (what : What) (data : List Nat) : Fres Block :=
  match foldFields (procBlockVisit what) { block := initBlock } data with
  | .err _ e => .err zeroBlock e
  | .panic => .panic
  | .ok st =>
    if what ≠ .dataKinds then
      match procStringTable what st.stringTable st.block with
      | .err _ e => .err zeroBlock e
      | .panic => .panic
      | .ok b =>
        match procGroups what st.primativeGroups b with
        | .ok b₂ => .ok b₂
        | .err _ e => .err zeroBlock e
        | .panic => .panic
    else .ok st.block

/-- zlibInflateGo, with the external zlib decompressor abstracted as the
function argument z (compress/zlib is not part of this repository): run
the decompressor, then require the output length to equal the declared
uncompressed size. -/
def zlibInflateGo (z : List Nat → Except GoErr (List Nat)) (data : List Nat)
    (expected : Int) : Except GoErr (List Nat) :=
  match z data with
  | .error e => .error e
  | .ok out =>
    if (out.length : Int) ≠ expected then .error .sizeMismatch else .ok out

/-- Closure state of inflate: the declared raw size and the result bytes
(none models the nil Go slice the locals start from). -/
structure InflateS where
  rawSize : Int := 0
  data : Option (List Nat) := none
  deriving DecidableEq, Repr

/-- inflate from reader.go: field 1 stores the whole blob bytes as the
result (exactly as the source assigns bdata, not the field payload),
field 2 records raw_size, field 3 runs zlib; any other field number is
ignored by the switch.  Returns the data and error pair of the source. -/
def inflateVisit (z : List Nat → Except GoErr (List Nat)) (bdata : List Nat)
    (st : InflateS) (f : Field) : Vres InflateS :=
  if f.num = 1 then .cont { st with data := some bdata }
  else if f.num = 2 then .cont { st with rawSize := toInt64 f.Uint64 }
  else if f.num = 3 then
    match zlibInflateGo z f.data st.rawSize with
    | .ok out => .cont { st with data := some out }
    | .error e => .err { st with data := none } e
  else .cont st

def inflate (z : List Nat → Except GoErr (List Nat)) (bdata : List Nat) :
    Option (List Nat) × Option GoErr :=
  match foldFields (inflateVisit z bdata) {} bdata with
  | .ok st => (st.data, none)
  | .err st e => (st.data, some e)
  | .panic => (none, some .other)

/-- rawBlockReader state: the remaining input stream, the sticky error
and the cumulative byte position. -/
structure RawState where
  stream : List Nat
  err : Option GoErr := none
  pos : Int := 0
  deriving DecidableEq, Repr

/-- rawBlock. -/
structure RawBlock where
  type : List Nat := []
  data : List Nat := []
  deriving DecidableEq, Repr

/-- io.ReadFull of k bytes from the stream: io.EOF when nothing can be
read, io.ErrUnexpectedEOF on a partial read. -/
def readFull (k : Nat) (s : List Nat) : Except GoErr (List Nat × List Nat) :=
  if s.length < k then .error (if s.length = 0 then .eof else .unexpectedEOF)
  else .ok (s.take k, s.drop k)

/-- The bytes of the string OSMData. -/
def osmDataBytes : List Nat := [79, 83, 77, 68, 97, 116, 97]

/-- rawBlockReader.ReadBlock: 4-byte big-endian header length, header
bytes (type in field 1, datasize in field 3), then the blob payload.
Every error is recorded as sticky and returned beside a zero count.  A
negative datasize would make the Go slice allocation panic (none). -/
def rawReadBlock (s : RawState) : Option ((Nat × RawBlock × Option GoErr) × RawState) :=
  match s.err with
  | some e => some ((0, {}, some e), s)
  | none =>
    match readFull 4 s.stream with
    | .error e => some ((0, {}, some e), { s with err := some e })
    | .ok (buf, rest) =>
      let s := { s with stream := rest, pos := s.pos + 4 }
      let hdrLen := beUint32 buf
      match readFull hdrLen s.stream with
      | .error e => some ((0, {}, some e), { s with err := some e })
      | .ok (hdr, rest) =>
        let s := { s with stream := rest, pos := s.pos + hdrLen }
        match foldFields
            (fun (p : List Nat × Int) f =>
              if f.num = 1 then .cont (f.data, p.2)
              else if f.num = 3 then .cont (p.1, toInt64 f.Uint64)
              else .cont p)
            ([], 0) hdr with
        | .err _ e => some ((0, {}, some e), { s with err := some e })
        | .panic => none
        | .ok (btype, bsizeI) =>
          if bsizeI < 0 then none
          else
            match readFull bsizeI.toNat s.stream with
            | .error e => some ((0, {}, some e), { s with err := some e })
            | .ok (bdata, rest) =>
              let s := { s with stream := rest, pos := s.pos + bsizeI }
              some ((4 + hdrLen + bsizeI.toNat, ⟨btype, bdata⟩, none), s)

/-- Fueled loop of BlockReader.ReadBlock: read raw blocks, skipping every
non-OSMData block while accumulating the byte count, then inflate and
decode; every error path returns a zero count exactly as the source
writes `return 0, Block{}, err`. -/
def readBlockLoopF (z : List Nat → Except GoErr (List Nat)) :
    Nat → RawState → Nat → Option ((Nat × Block × Option GoErr) × RawState)
  | 0, _, _ => none
  | fuel + 1, s, acc =>
    match rawReadBlock s with
    | none => none
    | some ((_, _, some e), s₁) => some ((0, zeroBlock, some e), s₁)
    | some ((nn, rblock, none), s₁) =>
      let acc := acc + nn
      if rblock.type ≠ osmDataBytes then readBlockLoopF z fuel s₁ acc
      else
        match inflate z rblock.data with
        | (_, some e) => some ((0, zeroBlock, some e), s₁)
        | (d, none) =>
          match procBlock .everything (d.getD []) with
          | .err _ e => some ((0, zeroBlock, some e), s₁)
          | .panic => none
          | .ok b => some ((acc, b, none), s₁)

/-- BlockReader.ReadBlock.  The fuel bound of one loop iteration per
stream byte is never reached, because every successfully framed raw
block consumes at least four stream bytes. -/
def ReadBlock (z : List Nat → Except GoErr (List Nat)) (s : RawState) :
    Option ((Nat × Block × Option GoErr) × RawState) :=
  readBlockLoopF z (s.stream.length + 1) s 0

/-- Fueled loop of BlockReader.SkipBlock: like ReadBlock but without
decoding; error paths return a zero count. -/
def skipBlockLoopF : Nat → RawState → Nat → Option ((Nat × Option GoErr) × RawState)
  | 0, _, _ => none
  | fuel + 1, s, acc =>
    match rawReadBlock s with
    | none => none
    | some ((_, _, some e), s₁) => some ((0, some e), s₁)
    | some ((nn, rblock, none), s₁) =>
      let acc := acc + nn
      if rblock.type ≠ osmDataBytes then skipBlockLoopF fuel s₁ acc
      else some ((acc, none), s₁)

/-- BlockReader.SkipBlock. -/
def SkipBlock (s : RawState) : Option ((Nat × Option GoErr) × RawState) :=
  skipBlockLoopF (s.stream.length + 1) s 0

/-- An HTTP response as seen by the downloader: status code, parsed
Content-Length header (none when parsing fails) and the body as the
sequence of chunk reads, each a byte chunk beside the optional error
returned with it. -/
structure HttpResp where
  status : Nat
  contentLength : Option Int := none
  body : List (List Nat × Option GoErr) := []
  deriving DecidableEq, Repr

/-- The body-read loop of download: each chunk is length-checked against
the declared size before being appended to the file; the recorded
downloader error dlErr is consulted at every chunk boundary; io.EOF ends
the loop, failing UnexpectedEnd unless exactly size bytes were written.
An exhausted trace without a final error stands for a body that never
terminates; it is reported as a plain error for totality. -/
def downloadBody (dlErr : Option GoErr) :
    List (List Nat × Option GoErr) → Int → Int → List Nat → Except GoErr (List Nat)
  | [], _, _, _ => .error .other
  | (chunk, cerr) :: rest, size, written, file =>
    let n := chunk.length
    if n > 0 then
      let written₁ := written + n
      if written₁ > size then .error .corruptTooLarge
      else
        match dlErr with
        | some e => .error e
        | none =>
          let file₁ := file ++ chunk
          match cerr with
          | some .eof => if written₁ ≠ size then .error .unexpectedEOF else .ok file₁
          | some e => .error e
          | none => downloadBody dlErr rest size written₁ file₁
    else
      match cerr with
      | some .eof => if written ≠ size then .error .unexpectedEOF else .ok file
      | some e => .error e
      | none => downloadBody dlErr rest size written file

/-- The download function: HEAD the effective URL and require status 200;
parse Content-Length as the size; compare with the existing file length;
then issue the range GET.  The source re-checks the status of the stored
HEAD response res before performing the GET (a dead check, since that
status is already known to be 200) and never examines the status of the
GET response, whose body is streamed unconditionally; this definition
mirrors that literally. -/
def download (head : HttpResp) (get : HttpResp) (fileInit : List Nat)
    (dlErr : Option GoErr) : Except GoErr (List Nat) :=
  if head.status ≠ 200 then .error (.httpStatus head.status)
  else
    match head.contentLength with
    | none => .error .parseErr
    | some size =>
      let start : Int := fileInit.length
      if start > size then .error .corruptTooLarge
      else if start = size then .ok fileInit
      else
        if head.status ≠ 206 ∧ head.status ≠ 200 then .error (.httpStatus head.status)
        else downloadBody dlErr get.body size start fileInit

/-- A snapshot of the shared downloader state as read under the lock by
dlReader.Read (only err and size are consulted there). -/
structure DlSnap where
  derr : Option GoErr := none
  size : Int := 0
  deriving DecidableEq, Repr

/-- dlReader.Read: each trace entry is one underlying file read (count
and error) beside the downloader snapshot observed under the lock.  The
loop returns the pair the Go method returns, beside the final running
read total; an exhausted trace (none) is the blocked state in which the
method waits on the condition variable and retries. -/
def dlRead : Int → List ((Nat × Option GoErr) × DlSnap) → Option ((Nat × Option GoErr) × Int)
  | _, [] => none
  | readTotal, ((n, ferr), snap) :: rest =>
    let readTotal := if n > 0 then readTotal + n else readTotal
    match snap.derr with
    | some e => some ((n, some e), readTotal)
    | none =>
      if ferr = some .eof then
        if n > 0 then
          if readTotal < snap.size then some ((n, none), readTotal)
          else some ((n, some .eof), readTotal)
        else if readTotal > snap.size then some ((n, some .corruptTooLarge), readTotal)
        else if readTotal = snap.size then some ((n, some .eof), readTotal)
        else dlRead readTotal rest
      else some ((n, ferr), readTotal)

/-- Decimal digit test used by the Atoi model. -/
def isDigitCh (c : Char) : Bool :=
  decide ('0' ≤ c) && decide (c ≤ '9')

/-- strconv.Atoi success predicate for short strings: nonempty, an
optional leading sign, then at least one digit and nothing else.  (The
overflow failure of Atoi needs at least 19 characters and validBaseName
also requires length 6, so it cannot change any validBaseName result.) -/
def atoiOK : List Char → Bool
  | [] => false
  | c :: rest =>
    let digits := if c = '+' ∨ c = '-' then rest else c :: rest
    decide (digits ≠ []) && digits.all isDigitCh

/-- strings.Split with a one-character separator. -/
def splitOnCh (sep : Char) : List Char → List (List Char)
  | [] => [[]]
  | a :: rest =>
    match splitOnCh sep rest with
    | [] => [[a]]
    | h :: t => if a = sep then [] :: h :: t else (a :: h) :: t

/-- validBaseName: the latest-planet literal, or a name splitting on
dots into three parts ending in osm and pbf whose first part splits on a
dash into exactly two parts, the second being 6 characters accepted by
Atoi.  The source never compares the part before the dash with planet. -/
def validBaseName (name : List Char) : Bool :=
  if name = "planet-latest.osm.pbf".toList then true
  else
    let parts := splitOnCh '.' name
    if parts.length ≠ 3 ∨ parts.getD 1 [] ≠ "osm".toList ∨ parts.getD 2 [] ≠ "pbf".toList then
      false
    else
      let parts2 := splitOnCh '-' (parts.getD 0 [])
      if parts2.length ≠ 2 then false
      else atoiOK (parts2.getD 1 []) && decide ((parts2.getD 1 []).length = 6)

/-- Modelled from the spec (refinement reference only): the planet
filename grammar, either the literal planet-latest.osm.pbf or
planet-DDDDDD.osm.pbf with exactly six decimal digits. -/
def planetNameGrammar (name : List Char) : Bool :=
  name = "planet-latest.osm.pbf".toList ||
    (decide (name.length = 21) && decide (name.take 7 = "planet-".toList) &&
      ((name.drop 7).take 6).all isDigitCh && decide (name.drop 13 = ".osm.pbf".toList))

/-! ## Concrete inputs and observers used by the claim theorems -/

/-- Dense-nodes message bytes: field 1 holds the packed zig-zag deltas
[1, 1, 1] (three nodes) and field 10 the packed keys_vals
[4, 5, 0, 0, 7, 8, 0]. -/
def c1data : List Nat := [10, 3, 2, 2, 2, 82, 7, 4, 5, 0, 0, 7, 8, 0]

/-- OSMData bytes holding two primitive groups: the first with an empty
dense-nodes subfield (kind 0), the second with an empty ways subfield
(kind 1). -/
def c3bytes : List Nat := [18, 2, 18, 0, 18, 2, 26, 0]

/-- The first primitive group of c3bytes alone: one dense-nodes
subfield. -/
def c3group1 : List Nat := [18, 0]

/-- The dataKind of a successfully decoded block. -/
def fresDataKind : Fres Block → Option Int
  | .ok b => some b.dataKind
  | _ => none

/-- A zlib stand-in that always fails; the claims that use it never reach
the zlib path, so any function would do. -/
def zNever : List Nat → Except GoErr (List Nat) := fun _ => .error .other

/-- A Blob whose only field is 4 (lzma_data, with a 1-byte payload). -/
def c4lzmaBlob : List Nat := [34, 1, 0]

/-- A Blob whose only field is 5 (the deprecated bzip2 data). -/
def c4bzipBlob : List Nat := [42, 1, 0]

/-- The field numbers of a buffer, in order, collected through the same
field fold the decoders use. -/
def fieldNumsVisit (ns : List Nat) (f : Field) : Vres (List Nat) :=
  .cont (ns ++ [f.num])

def fieldNums (data : List Nat) : Fres (List Nat) :=
  foldFields fieldNumsVisit [] data

/-- A Way message holding a single packed vals entry (field 3) and no
keys. -/
def c5valsOnly : List Nat := [26, 1, 7]

/-- The values of a packed uint64 field in order, collected through
Field.ForEachPackedUint64. -/
def packedU64Dec (data : List Nat) : Fres (List Nat) :=
  foldPacked uvarint (fun (acc : List Nat) x => .cont (acc ++ [x])) [] data

/-- The values of a packed int64 field in order, collected through
Field.ForEachPackedInt64. -/
def packedI64Dec (data : List Nat) : Fres (List Int) :=
  foldPacked varint (fun (acc : List Int) x => .cont (acc ++ [x])) [] data

/-- The interleaved way-strings image of a keys list and a vals list:
each key k is stored as the pair (k mod 2 ^ 32, v) with v the matching
val reduced mod 2 ^ 32, or 0 when the vals ran out. -/
def interleaveKV : List Nat → List Nat → List Nat
  | [], _ => []
  | k :: ks, [] => k % 2 ^ 32 :: 0 :: interleaveKV ks []
  | k :: ks, v :: vs => k % 2 ^ 32 :: v % 2 ^ 32 :: interleaveKV ks vs

/-- Encoded bytes of one LENGTH field with the given number and
payload. -/
def fieldBytes (num : Nat) (payload : List Nat) : List Nat :=
  encUvarint (num * 8 + 2) ++ encUvarint payload.length ++ payload

/-- Encoded bytes of a Way message carrying packed keys (field 2) and
packed vals (field 3). -/
def wayMsgBytes (ks vs : List Nat) : List Nat :=
  fieldBytes 2 (encPacked ks) ++ fieldBytes 3 (encPacked vs)

/-- The kinds (0/1/2) of the kind-bearing subfields of a primitive
group, in order of appearance. -/
def groupKindsVisit (ks : List Int) (f : Field) : Vres (List Int) :=
  if f.num = 2 then .cont (ks ++ [0])
  else if f.num = 3 then .cont (ks ++ [1])
  else if f.num = 4 then .cont (ks ++ [2])
  else .cont ks

def groupKinds (data : List Nat) : Fres (List Int) :=
  foldFields groupKindsVisit [] data

/-- A name accepted by validBaseName although its prefix is not
planet. -/
def c9name1 : List Char := "x-123456.osm.pbf".toList

/-- A name accepted by validBaseName although its six characters carry a
sign. -/
def c9name2 : List Char := "planet-+12345.osm.pbf".toList

/-- HEAD response of the C2 scenario: status 200, Content-Length 4. -/
def c2head : HttpResp := { status := 200, contentLength := some 4 }

/-- GET response of the C2 scenario: status 404 with a 4-byte body ending
in a clean EOF. -/
def c2get : HttpResp := { status := 404, body := [([9, 9, 9, 9], some .eof)] }

/-- A stream holding one complete OSMHeader blob (17 bytes) and nothing
else: reading past it hits a clean EOF after bytes were consumed. -/
def c10stream : List Nat :=
  [0, 0, 0, 13, 10, 9, 79, 83, 77, 72, 101, 97, 100, 101, 114, 24, 0]

/-- The windows of every stored entity of a block stay inside the
parallel arrays they index: nodes against nodeStrings, ways against
wayStrings and wayRefs, relations against relationStrings and
relationMemberRefs. -/
def BlockWindowsOK (b : Block) : Prop :=
  (∀ nd ∈ b.nodes, nd.sset ≤ nd.send ∧ nd.send ≤ b.nodeStrings.length) ∧
  (∀ w ∈ b.ways, w.sset ≤ w.send ∧ w.send ≤ b.wayStrings.length ∧
    w.rset ≤ w.rend ∧ w.rend ≤ b.wayRefs.length) ∧
  (∀ r ∈ b.relations, r.sset ≤ r.send ∧ r.send ≤ b.relationStrings.length ∧
    r.mset ≤ r.mend ∧ r.mend ≤ b.relationMemberRefs.length)

instance (b : Block) : Decidable (BlockWindowsOK b) := by
  unfold BlockWindowsOK
  infer_instance

/-- The five index arrays only ever grow. -/
def lensLE (b b' : Block) : Prop :=
  b.nodeStrings.length ≤ b'.nodeStrings.length ∧
  b.wayStrings.length ≤ b'.wayStrings.length ∧
  b.wayRefs.length ≤ b'.wayRefs.length ∧
  b.relationStrings.length ≤ b'.relationStrings.length ∧
  b.relationMemberRefs.length ≤ b'.relationMemberRefs.length

/-- The five index arrays stay below 2 ^ 32 entries, so the uint32
window offsets stored beside them do not wrap. -/
def lensBound (b : Block) : Prop :=
  b.nodeStrings.length < 2 ^ 32 ∧
  b.wayStrings.length < 2 ^ 32 ∧
  b.wayRefs.length < 2 ^ 32 ∧
  b.relationStrings.length < 2 ^ 32 ∧
  b.relationMemberRefs.length < 2 ^ 32

instance (b : Block) : Decidable (lensBound b) := by
  unfold lensBound
  infer_instance

/-- What a primitive decoder leaves untouched of the block while it
runs: the data kind, the stored entity lists, and the index arrays can
only grow. -/
def coreRel (b b' : Block) : Prop :=
  b'.dataKind = b.dataKind ∧ b'.nodes = b.nodes ∧ b'.ways = b.ways ∧
  b'.relations = b.relations ∧ lensLE b b'

/-- Every node of the list has its key window in order and bounded by K. -/
def ndWindows (K : Nat) (ns : List BlockNode) : Prop :=
  ∀ nd ∈ ns, nd.sset ≤ nd.send ∧ nd.send ≤ K

/-- What one block-mutating decoder step guarantees: array growth and,
under the no-wrap bound on the result, window preservation. -/
def blockPres (b b₁ : Block) : Prop :=
  lensLE b b₁ ∧ (lensBound b₁ → BlockWindowsOK b → BlockWindowsOK b₁)

/-- OSMData bytes used as the C6 witness: one group with three dense
nodes and tags, one group with a way (two keys, one val, two refs), one
group with a relation (one key/val, two members). -/
def c6data : List Nat :=
  [18, 16, 18, 14, 10, 3, 2, 2, 2, 82, 7, 4, 5, 0, 0, 7, 8, 0] ++
  [18, 13, 26, 11, 18, 2, 3, 4, 26, 1, 9, 66, 2, 2, 4] ++
  [18, 20, 34, 18, 18, 1, 3, 26, 1, 9, 66, 2, 1, 2, 74, 2, 2, 4, 82, 2, 0, 1]

/-- The block that procBlock produces from c6data (used to discharge the
C6 witness). -/
def c6block : Block :=
  { granularity := 100, latOffset := 0, lonOffset := 0, dateGranularity := 1000,
    dataKind := 2, stringsCount := 0, strings := [],
    nodes := [{ id := 1, sset := 0, send := 2 }, { id := 2 }, { id := 3, sset := 2, send := 4 }],
    nodeStrings := [4, 5, 7, 8],
    ways := [{ id := 0, sset := 0, send := 4, rset := 0, rend := 2 }],
    wayStrings := [3, 9, 4, 0],
    wayRefs := [1, 3],
    relations := [{ id := 0, sset := 0, send := 2, mset := 0, mend := 2 }],
    relationStrings := [3, 9],
    relationMemberRoles := [1, 2],
    relationMemberRefs := [1, 3],
    relationMemberTypes := [0, 1] }

/-! ## Generic facts about the fold combinators -/

/-- Every successfully parsed field consumes at least one input byte. -/
theorem readField_length_lt {buf : List Nat} {f : Field} {rest : List Nat}
    (h : readField buf = .ok (f, rest)) : rest.length < buf.length := by
  unfold readField at h
  split at h
  · simp at h
  · rename_i hne
    have hpos : 0 < buf.length := by
      cases buf with
      | nil => exact absurd rfl hne
      | cons a l => simp
    dsimp only at h
    split at h
    · simp at h
    · rename_i hp
      have h1 : 1 ≤ (uvarint buf).2.toNat := by omega
      split at h
      · split at h
        · simp at h
        · split at h
          · simp at h
          · split at h
            · split at h
              · simp at h
              · simp only [Except.ok.injEq, Prod.mk.injEq] at h
                obtain ⟨-, h2⟩ := h
                subst h2
                simp only [List.length_drop]
                omega
            · simp only [Except.ok.injEq, Prod.mk.injEq] at h
              obtain ⟨-, h2⟩ := h
              subst h2
              simp only [List.length_drop]
              omega
      · split at h
        · split at h
          · simp at h
          · simp only [Except.ok.injEq, Prod.mk.injEq] at h
            obtain ⟨-, h2⟩ := h
            subst h2
            simp only [List.length_drop]
            omega
        · split at h
          · split at h
            · simp at h
            · simp only [Except.ok.injEq, Prod.mk.injEq] at h
              obtain ⟨-, h2⟩ := h
              subst h2
              simp only [List.length_drop]
              omega
          · simp at h

section FoldLemmas

variable {σ : Type} {visit : σ → Field → Vres σ} {R : σ → σ → Prop}

/-- The field fold only moves the state along any preorder that every
visitor step (continue or error) respects. -/
theorem foldFieldsF_rel
    (hrefl : ∀ s, R s s)
    (htrans : ∀ a b c, R a b → R b c → R a c)
    (hcont : ∀ s f s₁, visit s f = .cont s₁ → R s s₁)
    (herr : ∀ s f s₁ e, visit s f = .err s₁ e → R s s₁) :
    ∀ fuel (buf : List Nat) s, buf.length < fuel →
      (∀ s₁, foldFieldsF fuel visit s buf = .ok s₁ → R s s₁) ∧
      (∀ s₁ e, foldFieldsF fuel visit s buf = .err s₁ e → R s s₁) := by
  intro fuel
  induction fuel with
  | zero => intro buf s h; omega
  | succ fuel ih =>
    intro buf s hlen
    rcases hrf : readField buf with e | fr
    · constructor
      · intro s₁ hh
        simp only [foldFieldsF, hrf] at hh
        split at hh
        · simp only [Fres.ok.injEq] at hh
          subst hh; exact hrefl s
        · simp at hh
      · intro s₁ e₁ hh
        simp only [foldFieldsF, hrf] at hh
        split at hh
        · simp at hh
        · simp only [Fres.err.injEq] at hh
          obtain ⟨hh, -⟩ := hh
          subst hh; exact hrefl s
    · rcases fr with ⟨f, rest⟩
      have hrest : rest.length < fuel := by
        have := readField_length_lt hrf
        omega
      cases hv : visit s f with
      | cont s₁ =>
        have hR := hcont s f s₁ hv
        have ihr := ih rest s₁ hrest
        constructor
        · intro s₂ hh
          simp only [foldFieldsF, hrf, hv] at hh
          exact htrans _ _ _ hR (ihr.1 s₂ hh)
        · intro s₂ e₂ hh
          simp only [foldFieldsF, hrf, hv] at hh
          exact htrans _ _ _ hR (ihr.2 s₂ e₂ hh)
      | err s₁ e₁ =>
        constructor
        · intro s₂ hh
          simp [foldFieldsF, hrf, hv] at hh
        · intro s₂ e₂ hh
          simp only [foldFieldsF, hrf, hv, Fres.err.injEq] at hh
          obtain ⟨hh1, hh2⟩ := hh
          rw [← hh1]
          exact herr s f s₁ e₁ hv
      | panic =>
        constructor
        · intro s₂ hh
          simp [foldFieldsF, hrf, hv] at hh
        · intro s₂ e₂ hh
          simp [foldFieldsF, hrf, hv] at hh

/-- Invariant preservation through the field fold, where each step may
use a bound known only of the final state, provided the bound is
downward closed along the step preorder. -/
theorem foldFieldsF_inv (B Inv : σ → Prop)
    (hrefl : ∀ s, R s s)
    (htrans : ∀ a b c, R a b → R b c → R a c)
    (hcont : ∀ s f s₁, visit s f = .cont s₁ → R s s₁)
    (herr : ∀ s f s₁ e, visit s f = .err s₁ e → R s s₁)
    (hdown : ∀ s t, R s t → B t → B s)
    (hic : ∀ s f s₁, Inv s → B s₁ → visit s f = .cont s₁ → Inv s₁)
    (hie : ∀ s f s₁ e, Inv s → B s₁ → visit s f = .err s₁ e → Inv s₁) :
    ∀ fuel (buf : List Nat) s, buf.length < fuel → Inv s →
      (∀ s₁, foldFieldsF fuel visit s buf = .ok s₁ → B s₁ → Inv s₁) ∧
      (∀ s₁ e, foldFieldsF fuel visit s buf = .err s₁ e → B s₁ → Inv s₁) := by
  intro fuel
  induction fuel with
  | zero => intro buf s h; omega
  | succ fuel ih =>
    intro buf s hlen hInv
    rcases hrf : readField buf with e | fr
    · constructor
      · intro s₁ hh hB
        simp only [foldFieldsF, hrf] at hh
        split at hh
        · simp only [Fres.ok.injEq] at hh
          subst hh; exact hInv
        · simp at hh
      · intro s₁ e₁ hh hB
        simp only [foldFieldsF, hrf] at hh
        split at hh
        · simp at hh
        · simp only [Fres.err.injEq] at hh
          obtain ⟨hh, -⟩ := hh
          subst hh; exact hInv
    · rcases fr with ⟨f, rest⟩
      have hrest : rest.length < fuel := by
        have := readField_length_lt hrf
        omega
      cases hv : visit s f with
      | cont s₁ =>
        constructor
        · intro s₂ hh hB
          simp only [foldFieldsF, hrf, hv] at hh
          have hR₁₂ := (foldFieldsF_rel hrefl htrans hcont herr fuel rest s₁ hrest).1 s₂ hh
          have hB₁ : B s₁ := hdown _ _ hR₁₂ hB
          exact (ih rest s₁ hrest (hic s f s₁ hInv hB₁ hv)).1 s₂ hh hB
        · intro s₂ e₂ hh hB
          simp only [foldFieldsF, hrf, hv] at hh
          have hR₁₂ := (foldFieldsF_rel hrefl htrans hcont herr fuel rest s₁ hrest).2 s₂ e₂ hh
          have hB₁ : B s₁ := hdown _ _ hR₁₂ hB
          exact (ih rest s₁ hrest (hic s f s₁ hInv hB₁ hv)).2 s₂ e₂ hh hB
      | err s₁ e₁ =>
        constructor
        · intro s₂ hh hB
          simp [foldFieldsF, hrf, hv] at hh
        · intro s₂ e₂ hh hB
          simp only [foldFieldsF, hrf, hv, Fres.err.injEq] at hh
          obtain ⟨hh1, hh2⟩ := hh
          rw [← hh1] at hB ⊢
          exact hie s f s₁ e₁ hInv hB hv
      | panic =>
        constructor
        · intro s₂ hh hB
          simp [foldFieldsF, hrf, hv] at hh
        · intro s₂ e₂ hh hB
          simp [foldFieldsF, hrf, hv] at hh

end FoldLemmas

section PackedLemmas

variable {α σ : Type} {next : List Nat → α × Int} {visit : σ → α → Vres σ} {R : σ → σ → Prop}

/-- Unfolding of one packed-fold step on a nonempty buffer. -/
theorem foldPackedF_cons (fuel : Nat) (b : Nat) (bs : List Nat) (s : σ) :
    foldPackedF (fuel + 1) next visit s (b :: bs) =
      (if (next (b :: bs)).2 = 0 then .err s .bufferTooSmall
       else if (next (b :: bs)).2 < 0 then .err s .overflow64
       else
         match visit s (next (b :: bs)).1 with
         | .cont s₁ => foldPackedF fuel next visit s₁ ((b :: bs).drop (next (b :: bs)).2.toNat)
         | .err s₁ e => .err s₁ e
         | .panic => .panic) := rfl

/-- The packed fold only moves the state along any preorder that every
visitor step respects. -/
theorem foldPackedF_rel
    (hrefl : ∀ s, R s s)
    (htrans : ∀ a b c, R a b → R b c → R a c)
    (hcont : ∀ s x s₁, visit s x = .cont s₁ → R s s₁)
    (herr : ∀ s x s₁ e, visit s x = .err s₁ e → R s s₁) :
    ∀ fuel (buf : List Nat) s, buf.length < fuel →
      (∀ s₁, foldPackedF fuel next visit s buf = .ok s₁ → R s s₁) ∧
      (∀ s₁ e, foldPackedF fuel next visit s buf = .err s₁ e → R s s₁) := by
  intro fuel
  induction fuel with
  | zero => intro buf s h; omega
  | succ fuel ih =>
    intro buf s hlen
    cases buf with
    | nil =>
      constructor
      · intro s₁ hh
        simp only [foldPackedF, Fres.ok.injEq] at hh
        subst hh; exact hrefl s
      · intro s₁ e₁ hh
        simp [foldPackedF] at hh
    | cons b bs =>
      rw [foldPackedF_cons]
      by_cases h0 : (next (b :: bs)).2 = 0
      · rw [if_pos h0]
        constructor
        · intro s₁ hh
          simp at hh
        · intro s₁ e₁ hh
          simp only [Fres.err.injEq] at hh
          rw [← hh.1]
          exact hrefl s
      · rw [if_neg h0]
        by_cases hneg : (next (b :: bs)).2 < 0
        · rw [if_pos hneg]
          constructor
          · intro s₁ hh
            simp at hh
          · intro s₁ e₁ hh
            simp only [Fres.err.injEq] at hh
            rw [← hh.1]
            exact hrefl s
        · rw [if_neg hneg]
          have hdrop : ((b :: bs).drop (next (b :: bs)).2.toNat).length < fuel := by
            simp only [List.length_drop]
            have : 1 ≤ (next (b :: bs)).2.toNat := by omega
            simp only [List.length_cons] at hlen ⊢
            omega
          cases hv : visit s (next (b :: bs)).1 with
          | cont s₁ =>
            have hR := hcont s _ s₁ hv
            have ihr := ih _ s₁ hdrop
            constructor
            · intro s₂ hh
              exact htrans _ _ _ hR (ihr.1 s₂ hh)
            · intro s₂ e₂ hh
              exact htrans _ _ _ hR (ihr.2 s₂ e₂ hh)
          | err s₁ e₁ =>
            constructor
            · intro s₂ hh
              simp at hh
            · intro s₂ e₂ hh
              simp only [Fres.err.injEq] at hh
              rw [← hh.1]
              exact herr s _ s₁ e₁ hv
          | panic =>
            constructor
            · intro s₂ hh
              simp at hh
            · intro s₂ e₂ hh
              simp at hh

/-- Invariant preservation through the packed fold with a final-state
bound, as for the field fold. -/
theorem foldPackedF_inv (B Inv : σ → Prop)
    (hrefl : ∀ s, R s s)
    (htrans : ∀ a b c, R a b → R b c → R a c)
    (hcont : ∀ s x s₁, visit s x = .cont s₁ → R s s₁)
    (herr : ∀ s x s₁ e, visit s x = .err s₁ e → R s s₁)
    (hdown : ∀ s t, R s t → B t → B s)
    (hic : ∀ s x s₁, Inv s → B s₁ → visit s x = .cont s₁ → Inv s₁)
    (hie : ∀ s x s₁ e, Inv s → B s₁ → visit s x = .err s₁ e → Inv s₁) :
    ∀ fuel (buf : List Nat) s, buf.length < fuel → Inv s →
      (∀ s₁, foldPackedF fuel next visit s buf = .ok s₁ → B s₁ → Inv s₁) ∧
      (∀ s₁ e, foldPackedF fuel next visit s buf = .err s₁ e → B s₁ → Inv s₁) := by
  intro fuel
  induction fuel with
  | zero => intro buf s h; omega
  | succ fuel ih =>
    intro buf s hlen hInv
    cases buf with
    | nil =>
      constructor
      · intro s₁ hh hB
        simp only [foldPackedF, Fres.ok.injEq] at hh
        subst hh; exact hInv
      · intro s₁ e₁ hh hB
        simp [foldPackedF] at hh
    | cons b bs =>
      rw [foldPackedF_cons]
      by_cases h0 : (next (b :: bs)).2 = 0
      · rw [if_pos h0]
        constructor
        · intro s₁ hh hB
          simp at hh
        · intro s₁ e₁ hh hB
          simp only [Fres.err.injEq] at hh
          rw [← hh.1]
          exact hInv
      · rw [if_neg h0]
        by_cases hneg : (next (b :: bs)).2 < 0
        · rw [if_pos hneg]
          constructor
          · intro s₁ hh hB
            simp at hh
          · intro s₁ e₁ hh hB
            simp only [Fres.err.injEq] at hh
            rw [← hh.1]
            exact hInv
        · rw [if_neg hneg]
          have hdrop : ((b :: bs).drop (next (b :: bs)).2.toNat).length < fuel := by
            simp only [List.length_drop]
            have : 1 ≤ (next (b :: bs)).2.toNat := by omega
            simp only [List.length_cons] at hlen ⊢
            omega
          cases hv : visit s (next (b :: bs)).1 with
          | cont s₁ =>
            constructor
            · intro s₂ hh hB
              have hR₁₂ := (foldPackedF_rel hrefl htrans hcont herr fuel _ s₁ hdrop).1 s₂ hh
              have hB₁ : B s₁ := hdown _ _ hR₁₂ hB
              exact (ih _ s₁ hdrop (hic s _ s₁ hInv hB₁ hv)).1 s₂ hh hB
            · intro s₂ e₂ hh hB
              have hR₁₂ := (foldPackedF_rel hrefl htrans hcont herr fuel _ s₁ hdrop).2 s₂ e₂ hh
              have hB₁ : B s₁ := hdown _ _ hR₁₂ hB
              exact (ih _ s₁ hdrop (hic s _ s₁ hInv hB₁ hv)).2 s₂ e₂ hh hB
          | err s₁ e₁ =>
            constructor
            · intro s₂ hh hB
              simp at hh
            · intro s₂ e₂ hh hB
              simp only [Fres.err.injEq] at hh
              rw [← hh.1] at hB ⊢
              exact hie s _ s₁ e₁ hInv hB hv
          | panic =>
            constructor
            · intro s₂ hh hB
              simp at hh
            · intro s₂ e₂ hh hB
              simp at hh

end PackedLemmas

end Osm

namespace Osm

/-! ## Claim theorems: concrete evidence -/

/-- C1: decoding the dense keys_vals [4, 5, 0, 0, 7, 8, 0] for a 3-node
block gives node 0 the window (0, 2) into nodeStrings [4, 5, 7, 8] (the
single pair (4, 5)), node 1 the empty window (sset = send), node 2 the
window (2, 4) (the pair (7, 8)); and in general a 0 read in key position
(which = false) ends the current node and advances the node index,
leaving the arrays and the write cursor untouched, also as a leading
zero before any key. -/
theorem c1_dense_keys_vals_terminator :
    procDenseNodes .everything c1data initBlock =
      .ok { initBlock with
            nodes := [{ id := 1, sset := 0, send := 2 }, { id := 2 },
                      { id := 3, sset := 2, send := 4 }],
            nodeStrings := [4, 5, 7, 8] } ∧
    (∀ st : DenseKV, st.which = false →
      denseKeysValsStep st 0 = .cont { st with nodeIdx := st.nodeIdx + 1, first := false }) := by
  constructor
  · decide
  · intro st h
    simp [denseKeysValsStep, h]

/-- C1 witness: the terminator step applied at a concrete state with
which = false. -/
theorem c1_dense_keys_vals_terminator_witness :
    denseKeysValsStep { nodes := [{}], nodeStrings := [], which := false } 0 =
      .cont { nodes := [{}], nodeStrings := [], nodeIdx := 1, which := false, first := false } :=
  c1_dense_keys_vals_terminator.2 { nodes := [{}], nodeStrings := [], which := false } rfl

/-- C2: the download body-fetch step never checks the GET status: with a
200 HEAD of Content-Length 4, an empty local file and a 404 GET response
carrying a 4-byte body, download succeeds and writes the body to the
file instead of failing with an HttpStatus error. -/
theorem c2_get_status_unchecked :
    c2get.status = 404 ∧ download c2head c2get [] none = .ok [9, 9, 9, 9] := by
  constructor
  · rfl
  · rfl

/-- C3 counterexample: an OSMData block whose first (non-empty) primitive
group holds dense nodes (kind 0, as onlyDetect shows on that group) and
whose second group holds ways decodes under Everything to dataKind 1,
not 0 - the claim that data_kind comes from the first non-empty group is
false. -/
theorem c3_counterexample :
    fresDataKind (procBlock .everything c3bytes) = some 1 ∧
    onlyDetectPrimativeDataKind .everything c3group1 = .ok 0 := by
  constructor
  · decide
  · decide

/-- C4 counterexample: a Blob whose only field is 4 (lzma) or 5 (bzip2)
makes inflate return a nil byte slice with a nil error - no
UnsupportedCompression failure occurs. -/
theorem c4_counterexample :
    inflate zNever c4lzmaBlob = (none, none) ∧ inflate zNever c4bzipBlob = (none, none) := by
  constructor
  · decide
  · decide

/-- C5 counterexample: a Way message carrying one packed vals entry and
no keys makes procWay panic with an out-of-range slice write instead of
completing. -/
theorem c5_counterexample :
    procWay .everything c5valsOnly initBlock = .panic := by decide

/-- C7 counterexample: when the underlying file read returns (0, nil)
(as it does for an empty destination buffer) and no downloader error is
recorded, dlReader.Read returns the pair (0, nil). -/
theorem c7_counterexample :
    dlRead 0 [((0, none), { derr := none, size := 5 })] = some ((0, none), 0) := by decide

/-- C9 counterexample: validBaseName accepts x-123456.osm.pbf, a name
outside the planet-name grammar (its prefix before the dash is not
planet), because the prefix is never compared with planet. -/
theorem c9_counterexample :
    validBaseName c9name1 = true ∧ planetNameGrammar c9name1 = false := by
  constructor
  · decide
  · decide

end Osm

namespace Osm

/-! ## C10: error returns carry a zero byte count -/

/-- Every error return of the ReadBlock loop carries a zero count, at any
fuel and accumulator. -/
theorem readBlockLoopF_err_zero (z : List Nat → Except GoErr (List Nat)) :
    ∀ fuel (s : RawState) (acc n : Nat) (b : Block) (e : GoErr) (s₁ : RawState),
      readBlockLoopF z fuel s acc = some ((n, b, some e), s₁) → n = 0 := by
  intro fuel
  induction fuel with
  | zero =>
    intro s acc n b e s₁ h
    simp [readBlockLoopF] at h
  | succ fuel ih =>
    intro s acc n b e s₁ h
    cases hr : rawReadBlock s with
    | none => simp [readBlockLoopF, hr] at h
    | some r =>
      obtain ⟨⟨nn, rblock, oerr⟩, s₂⟩ := r
      cases oerr with
      | some e₂ =>
        simp only [readBlockLoopF, hr, Option.some.injEq, Prod.mk.injEq] at h
        exact h.1.1.symm
      | none =>
        by_cases ht : rblock.type ≠ osmDataBytes
        · simp only [readBlockLoopF, hr, if_pos ht] at h
          exact ih s₂ (acc + nn) n b e s₁ h
        · rcases hi : inflate z rblock.data with ⟨d, oe⟩
          cases oe with
          | some e₂ =>
            simp only [readBlockLoopF, hr, if_neg ht, hi, Option.some.injEq,
              Prod.mk.injEq] at h
            exact h.1.1.symm
          | none =>
            cases hp : procBlock .everything (d.getD []) with
            | ok b₂ =>
              simp only [readBlockLoopF, hr, if_neg ht, hi, hp, Option.some.injEq,
                Prod.mk.injEq] at h
              exact absurd h.1.2.2 (by simp)
            | err b₂ e₂ =>
              simp only [readBlockLoopF, hr, if_neg ht, hi, hp, Option.some.injEq,
                Prod.mk.injEq] at h
              exact h.1.1.symm
            | panic =>
              simp only [readBlockLoopF, hr, if_neg ht, hi, hp] at h
              simp at h

/-- Every error return of the SkipBlock loop carries a zero count. -/
theorem skipBlockLoopF_err_zero :
    ∀ fuel (s : RawState) (acc n : Nat) (e : GoErr) (s₁ : RawState),
      skipBlockLoopF fuel s acc = some ((n, some e), s₁) → n = 0 := by
  intro fuel
  induction fuel with
  | zero =>
    intro s acc n e s₁ h
    simp [skipBlockLoopF] at h
  | succ fuel ih =>
    intro s acc n e s₁ h
    cases hr : rawReadBlock s with
    | none => simp [skipBlockLoopF, hr] at h
    | some r =>
      obtain ⟨⟨nn, rblock, oerr⟩, s₂⟩ := r
      cases oerr with
      | some e₂ =>
        simp only [skipBlockLoopF, hr, Option.some.injEq, Prod.mk.injEq] at h
        exact h.1.1.symm
      | none =>
        by_cases ht : rblock.type ≠ osmDataBytes
        · simp only [skipBlockLoopF, hr, if_pos ht] at h
          exact ih s₂ (acc + nn) n e s₁ h
        · simp only [skipBlockLoopF, hr, if_neg ht, Option.some.injEq, Prod.mk.injEq] at h
          exact absurd h.1.2 (by simp)

/-- C10: whenever BlockReader.ReadBlock or BlockReader.SkipBlock returns
a non-nil error, the returned byte count is 0, even when the call
consumed bytes from the stream before failing (the bytes of skipped
OSMHeader frames are accumulated but discarded on the error paths). -/
theorem c10_error_byte_count_zero :
    (∀ (z : List Nat → Except GoErr (List Nat)) (s : RawState) (n : Nat) (b : Block)
      (e : GoErr) (s₁ : RawState), ReadBlock z s = some ((n, b, some e), s₁) → n = 0) ∧
    (∀ (s : RawState) (n : Nat) (e : GoErr) (s₁ : RawState),
      SkipBlock s = some ((n, some e), s₁) → n = 0) := by
  constructor
  · intro z s n b e s₁ h
    exact readBlockLoopF_err_zero z (s.stream.length + 1) s 0 n b e s₁ h
  · intro s n e s₁ h
    exact skipBlockLoopF_err_zero (s.stream.length + 1) s 0 n e s₁ h

/-- C10 witness: on a stream holding one complete 17-byte OSMHeader blob,
ReadBlock and SkipBlock consume the frame, hit the clean end of the
stream, and return the error with a zero count. -/
theorem c10_error_byte_count_zero_witness :
    ReadBlock zNever { stream := c10stream } =
      some ((0, zeroBlock, some .eof), { stream := [], err := some .eof, pos := 17 }) ∧
    SkipBlock { stream := c10stream } =
      some ((0, some .eof), { stream := [], err := some .eof, pos := 17 }) ∧
    0 = 0 ∧ 0 = 0 := by
  refine ⟨by decide, by decide, ?_, ?_⟩
  · exact c10_error_byte_count_zero.1 zNever { stream := c10stream } 0 zeroBlock .eof
      { stream := [], err := some .eof, pos := 17 } (by decide)
  · exact c10_error_byte_count_zero.2 { stream := c10stream } 0 .eof
      { stream := [], err := some .eof, pos := 17 } (by decide)

end Osm

namespace Osm

/-! ## C7: classification of dlReader.Read returns -/

/-- C7 (amended): provided every underlying file read returns bytes or an
error, file reads never return the corrupt error themselves, and the
recorded downloader error is never io.EOF or the corrupt error, then for
any published size S constant along the trace: a return with nil error
carries n > 0 (so (0, nil) is never returned), an EOF return happens
only with the running total at or past S, the corrupt-too-large return
only with the total strictly past S, and a call that has not returned
(an exhausted trace) has consumed only empty EOF reads with no recorded
error, i.e. it blocks and retries. -/
theorem c7_read_classification :
    ∀ (tr : List ((Nat × Option GoErr) × DlSnap)) (S rt : Int),
      (∀ st ∈ tr, 0 < st.1.1 ∨ st.1.2 ≠ none) →
      (∀ st ∈ tr, st.1.2 ≠ some GoErr.corruptTooLarge) →
      (∀ st ∈ tr, st.2.derr ≠ some GoErr.eof ∧ st.2.derr ≠ some GoErr.corruptTooLarge) →
      (∀ st ∈ tr, st.2.size = S) →
      (∀ n e rt₁, dlRead rt tr = some ((n, e), rt₁) →
        (e = none → 0 < n) ∧
        (e = some GoErr.eof → S ≤ rt₁) ∧
        (e = some GoErr.corruptTooLarge → S < rt₁)) ∧
      (dlRead rt tr = none →
        ∀ st ∈ tr, st.1.1 = 0 ∧ st.1.2 = some GoErr.eof ∧ st.2.derr = none) := by
  intro tr
  induction tr with
  | nil =>
    intro S rt h1 h2 h3 h4
    constructor
    · intro n e rt₁ h
      simp [dlRead] at h
    · intro h st hst
      simp at hst
  | cons hd tl ih =>
    intro S rt h1 h2 h3 h4
    obtain ⟨⟨n, ferr⟩, snap⟩ := hd
    have hd1 := h1 _ (List.mem_cons_self _ _)
    have hd2 := h2 _ (List.mem_cons_self _ _)
    have hd3 := h3 _ (List.mem_cons_self _ _)
    have hd4 := h4 _ (List.mem_cons_self _ _)
    simp only at hd1 hd2 hd3 hd4
    have t1 : ∀ st ∈ tl, 0 < st.1.1 ∨ st.1.2 ≠ none := fun st h => h1 st (List.mem_cons_of_mem _ h)
    have t2 : ∀ st ∈ tl, st.1.2 ≠ some GoErr.corruptTooLarge :=
      fun st h => h2 st (List.mem_cons_of_mem _ h)
    have t3 : ∀ st ∈ tl, st.2.derr ≠ some GoErr.eof ∧ st.2.derr ≠ some GoErr.corruptTooLarge :=
      fun st h => h3 st (List.mem_cons_of_mem _ h)
    have t4 : ∀ st ∈ tl, st.2.size = S := fun st h => h4 st (List.mem_cons_of_mem _ h)
    cases hderr : snap.derr with
    | some e₀ =>
      constructor
      · intro n₁ e₁ rt₁ h
        simp only [dlRead, hderr, Option.some.injEq, Prod.mk.injEq] at h
        obtain ⟨⟨hn, he⟩, -⟩ := h
        refine ⟨?_, ?_, ?_⟩
        · intro hnone; rw [← he] at hnone; simp at hnone
        · intro heof
          rw [← he, Option.some.injEq] at heof
          rw [heof] at hderr
          exact absurd hderr hd3.1
        · intro hcor
          rw [← he, Option.some.injEq] at hcor
          rw [hcor] at hderr
          exact absurd hderr hd3.2
      · intro h
        simp only [dlRead, hderr] at h
        simp at h
    | none =>
      by_cases hf : ferr = some GoErr.eof
      · by_cases hn : n > 0
        · by_cases hlt : rt + (n : Int) < snap.size
          · constructor
            · intro n₁ e₁ rt₁ h
              simp only [dlRead, hderr, hf, hn, hlt, ite_true, Option.some.injEq,
                Prod.mk.injEq] at h
              obtain ⟨⟨hn₁, he⟩, -⟩ := h
              refine ⟨fun _ => by omega, fun heof => ?_, fun hcor => ?_⟩
              · rw [← he] at heof; simp at heof
              · rw [← he] at hcor; simp at hcor
            · intro h
              simp only [dlRead, hderr, hf, hn, hlt, ite_true] at h
              simp at h
          · constructor
            · intro n₁ e₁ rt₁ h
              simp only [dlRead, hderr, hf, hn, hlt, ite_true, ite_false,
                Option.some.injEq, Prod.mk.injEq] at h
              obtain ⟨⟨hn₁, he⟩, hrt⟩ := h
              refine ⟨fun hnone => ?_, fun _ => ?_, fun hcor => ?_⟩
              · rw [← he] at hnone; simp at hnone
              · omega
              · rw [← he] at hcor; simp at hcor
            · intro h
              simp only [dlRead, hderr, hf, hn, hlt, ite_true, ite_false] at h
              simp at h
        · have hn0 : n = 0 := by omega
          subst hn0
          by_cases hgt : rt > snap.size
          · constructor
            · intro n₁ e₁ rt₁ h
              simp only [dlRead, hderr, hf, hgt, ite_true, ite_false, lt_irrefl,
                Option.some.injEq, Prod.mk.injEq] at h
              obtain ⟨⟨hn₁, he⟩, hrt⟩ := h
              refine ⟨fun hnone => ?_, fun heof => ?_, fun _ => ?_⟩
              · rw [← he] at hnone; simp at hnone
              · rw [← he] at heof; simp at heof
              · omega
            · intro h
              simp only [dlRead, hderr, hf, hgt, ite_true, ite_false, lt_irrefl] at h
              simp at h
          · by_cases heq : rt = snap.size
            · constructor
              · intro n₁ e₁ rt₁ h
                simp only [dlRead, hderr, hf, hgt, heq, ite_true, ite_false, lt_irrefl,
                  Option.some.injEq, Prod.mk.injEq] at h
                obtain ⟨⟨hn₁, he⟩, hrt⟩ := h
                refine ⟨fun hnone => ?_, fun _ => ?_, fun hcor => ?_⟩
                · rw [← he] at hnone; simp at hnone
                · omega
                · rw [← he] at hcor; simp at hcor
              · intro h
                simp only [dlRead, hderr, hf, hgt, heq, ite_true, ite_false, lt_irrefl] at h
                simp at h
            · have hrec : dlRead rt ((((0 : Nat), ferr), snap) :: tl) = dlRead rt tl := by
                simp only [dlRead, hderr, hf, hgt, heq, ite_true, ite_false, lt_irrefl]
              have ihr := ih S rt t1 t2 t3 t4
              constructor
              · intro n₁ e₁ rt₁ h
                rw [hrec] at h
                exact ihr.1 n₁ e₁ rt₁ h
              · intro h st hst
                rw [hrec] at h
                rcases List.mem_cons.mp hst with hh | hh
                · subst hh
                  exact ⟨rfl, hf, hderr⟩
                · exact ihr.2 h st hh
      · constructor
        · intro n₁ e₁ rt₁ h
          simp only [dlRead, hderr, hf, ite_false, Option.some.injEq, Prod.mk.injEq] at h
          obtain ⟨⟨hn₁, he⟩, -⟩ := h
          refine ⟨fun hnone => ?_, fun heof => ?_, fun hcor => ?_⟩
          · rw [← he] at hnone
            rcases hd1 with hp | hp
            · omega
            · exact absurd hnone hp
          · rw [← he] at heof
            exact absurd heof hf
          · rw [← he] at hcor
            exact absurd hcor hd2
        · intro h
          simp only [dlRead, hderr, hf, ite_false] at h
          simp at h

/-- C7 witness: a trace whose first read is an empty EOF below the size
(the reader waits) and whose second read delivers three bytes: the call
returns (3, nil). -/
theorem c7_read_classification_witness :
    dlRead 0 [((0, some .eof), { derr := none, size := 3 }),
              ((3, none), { derr := none, size := 3 })] = some ((3, none), 3) ∧
    (0 : Nat) < 3 :=
  ⟨by decide,
   ((c7_read_classification
      [((0, some .eof), { derr := none, size := 3 }), ((3, none), { derr := none, size := 3 })]
      3 0 (by decide) (by decide) (by decide) (by decide)).1 3 none 3 (by decide)).1 rfl⟩

end Osm

namespace Osm

/-! ## C8: varint round trip -/

/-- Disjoint or is addition: or-ing a value below 2 ^ s with a value
shifted left by s adds them. -/
theorem lor_shiftLeft_eq_add {a s : Nat} (b : Nat) (h : a < 2 ^ s) :
    a ||| b <<< s = a + b <<< s := by
  rw [Nat.shiftLeft_eq, Nat.lor_comm, show b * 2 ^ s = 2 ^ s * b from by ring,
    ← Nat.mul_add_lt_is_or h b]
  ring

/-- Values below 128 encode as a single byte at any fuel. -/
theorem encUvarintF_small {fuel x : Nat} (h : x < 128) : encUvarintF fuel x = [x] := by
  cases fuel with
  | zero => simp [encUvarintF, Nat.mod_eq_of_lt h]
  | succ fuel => simp [encUvarintF, h]

/-- Values of 128 and above produce a continuation byte and recurse. -/
theorem encUvarintF_large {fuel x : Nat} (h : ¬x < 128) :
    encUvarintF (fuel + 1) x = (x % 128 + 128) :: encUvarintF fuel (x / 128) := by
  simp [encUvarintF, h]

/-- One decoding step of uvarintCore on a terminal byte below 128. -/
theorem uvarintCore_small {x i acc : Nat} (rest : List Nat) (h128 : x < 128)
    (hx : x < 2 ^ (64 - 7 * i)) (hi : i ≤ 9) (hacc : acc < 2 ^ (7 * i)) :
    uvarintCore (x :: rest) i (7 * i) acc = (acc + x * 2 ^ (7 * i), (i : Int) + 1) := by
  have hi10 : ¬i = 10 := by omega
  have hmod : x % 256 = x := Nat.mod_eq_of_lt (by omega)
  have hno : ¬(i = 9 ∧ x > 1) := by
    rintro ⟨h9, hgt⟩
    subst h9
    have : x < 2 := by simpa using hx
    omega
  have hbound : acc + x * 2 ^ (7 * i) < 2 ^ 64 := by
    have e : (x + 1) * 2 ^ (7 * i) = x * 2 ^ (7 * i) + 2 ^ (7 * i) := by ring
    have h2 : (x + 1) * 2 ^ (7 * i) ≤ 2 ^ (64 - 7 * i) * 2 ^ (7 * i) :=
      Nat.mul_le_mul_right _ hx
    rw [← pow_add] at h2
    have h3 : 64 - 7 * i + 7 * i = 64 := by omega
    rw [h3] at h2
    omega
  simp only [uvarintCore, hi10, hmod, ite_false, if_neg, h128, ite_true, if_pos]
  rw [if_neg hno, lor_shiftLeft_eq_add x hacc, Nat.shiftLeft_eq, Nat.mod_eq_of_lt hbound]

/-- Decoding the reference encoding of x appended to any suffix, started
at index i with a small accumulator, yields the accumulator extended by
x at position 7 i and consumes exactly the encoding. -/
theorem uvarintCore_enc :
    ∀ fuel x i acc (rest : List Nat),
      x < 2 ^ (64 - 7 * i) → i ≤ 9 → acc < 2 ^ (7 * i) → x < 2 ^ (7 * fuel + 7) →
      uvarintCore (encUvarintF fuel x ++ rest) i (7 * i) acc =
        (acc + x * 2 ^ (7 * i), (i : Int) + ((encUvarintF fuel x).length : Int)) := by
  intro fuel
  induction fuel with
  | zero =>
    intro x i acc rest hx hi hacc hfuel
    have h128 : x < 128 := by simpa using hfuel
    rw [encUvarintF_small h128]
    simp only [List.cons_append, List.nil_append, List.length_cons, List.length_nil]
    rw [uvarintCore_small rest h128 hx hi hacc]
    norm_num
  | succ fuel ih =>
    intro x i acc rest hx hi hacc hfuel
    by_cases h128 : x < 128
    · rw [encUvarintF_small h128]
      simp only [List.cons_append, List.nil_append, List.length_cons, List.length_nil]
      rw [uvarintCore_small rest h128 hx hi hacc]
      norm_num
    · have hi8 : i ≤ 8 := by
        by_contra hgt
        have h9 : i = 9 := by omega
        subst h9
        have : x < 2 := by simpa using hx
        omega
      rw [encUvarintF_large h128]
      have hble : x % 128 + 128 < 256 := by
        have := Nat.mod_lt x (y := 128) (by omega)
        omega
      have hbmod : (x % 128 + 128) % 256 = x % 128 + 128 := Nat.mod_eq_of_lt hble
      have hblt : ¬x % 128 + 128 < 128 := by omega
      have hi10 : ¬i = 10 := by omega
      simp only [List.cons_append, uvarintCore, hi10, ite_false, if_neg, hbmod, hblt]
      have hand : (x % 128 + 128) &&& 127 = x % 128 := by
        have h7 : (127 : Nat) = 2 ^ 7 - 1 := by norm_num
        rw [h7, Nat.and_pow_two_sub_one_eq_mod]
        have h27 : (2 : Nat) ^ 7 = 128 := by norm_num
        rw [h27]
        omega
      have haccb : acc + x % 128 * 2 ^ (7 * i) < 2 ^ (7 * (i + 1)) := by
        have e : 7 * (i + 1) = 7 * i + 7 := by ring
        rw [e, pow_add]
        have hm : x % 128 < 128 := Nat.mod_lt x (by omega)
        have : x % 128 * 2 ^ (7 * i) ≤ 127 * 2 ^ (7 * i) :=
          Nat.mul_le_mul_right _ (by omega)
        have h27 : (2 : Nat) ^ 7 = 128 := by norm_num
        rw [h27]
        nlinarith [hacc]
      have hacc64 : acc + x % 128 * 2 ^ (7 * i) < 2 ^ 64 := by
        have h1 : (2 : Nat) ^ (7 * (i + 1)) ≤ 2 ^ 64 :=
          Nat.pow_le_pow_right (by omega) (by omega)
        omega
      rw [hand, lor_shiftLeft_eq_add _ hacc, Nat.shiftLeft_eq, Nat.mod_eq_of_lt hacc64]
      have hrec : 7 * i + 7 = 7 * (i + 1) := by ring
      rw [hrec]
      simp only [List.append_eq]
      have hxd : x / 128 < 2 ^ (64 - 7 * (i + 1)) := by
        rw [Nat.div_lt_iff_lt_mul (by omega)]
        have e2 : 64 - 7 * (i + 1) + 7 = 64 - 7 * i := by omega
        have e : 2 ^ (64 - 7 * (i + 1)) * 128 = 2 ^ (64 - 7 * i) := by
          have h27 : (128 : Nat) = 2 ^ 7 := by norm_num
          rw [h27, ← pow_add, e2]
        rw [e]
        exact hx
      have hxf : x / 128 < 2 ^ (7 * fuel + 7) := by
        rw [Nat.div_lt_iff_lt_mul (by omega)]
        have e2 : 7 * fuel + 7 + 7 = 7 * (fuel + 1) + 7 := by omega
        have e : 2 ^ (7 * fuel + 7) * 128 = 2 ^ (7 * (fuel + 1) + 7) := by
          have h27 : (128 : Nat) = 2 ^ 7 := by norm_num
          rw [h27, ← pow_add, e2]
        rw [e]
        exact hfuel
      rw [ih (x / 128) (i + 1) (acc + x % 128 * 2 ^ (7 * i)) rest hxd (by omega) haccb hxf]
      simp only [Prod.mk.injEq]
      constructor
      · have e : 7 * (i + 1) = 7 * i + 7 := by ring
        rw [e, pow_add]
        have hsplit : x % 128 + 128 * (x / 128) = x := Nat.mod_add_div x 128
        have h27 : (2 : Nat) ^ 7 = 128 := by norm_num
        rw [h27]
        nlinarith [hsplit]
      · simp only [List.length_cons]
        push_cast
        ring

/-- binary.Uvarint decodes the reference encoding of any uint64 value,
consuming exactly its bytes. -/
theorem uvarint_enc {x : Nat} (rest : List Nat) (hx : x < 2 ^ 64) :
    uvarint (encUvarint x ++ rest) = (x, ((encUvarint x).length : Int)) := by
  have h := uvarintCore_enc 10 x 0 0 rest (by simpa using hx) (by omega) (by simp)
    (lt_of_lt_of_le hx (Nat.pow_le_pow_right (by omega) (by omega)))
  simpa [uvarint, encUvarint] using h

end Osm

namespace Osm

/-- The reference encoder never produces an empty byte list. -/
theorem encUvarint_ne_nil (x : Nat) : encUvarint x ≠ [] := by
  unfold encUvarint encUvarintF
  split <;> simp

/-- Enough fuel makes the fuel amount irrelevant to the packed fold. -/
theorem foldPackedF_fuel_irrel {α σ : Type} {next : List Nat → α × Int}
    {visit : σ → α → Vres σ} :
    ∀ fuel fuel' (buf : List Nat) (s : σ), buf.length < fuel → buf.length < fuel' →
      foldPackedF fuel next visit s buf = foldPackedF fuel' next visit s buf := by
  intro fuel
  induction fuel with
  | zero => intro fuel' buf s h; omega
  | succ fuel ih =>
    intro fuel' buf s hlen hlen'
    cases fuel' with
    | zero => omega
    | succ fuel₂ =>
      cases buf with
      | nil => rfl
      | cons b bs =>
        rw [foldPackedF_cons, foldPackedF_cons]
        by_cases h0 : (next (b :: bs)).2 = 0
        · rw [if_pos h0, if_pos h0]
        · rw [if_neg h0, if_neg h0]
          by_cases hneg : (next (b :: bs)).2 < 0
          · rw [if_pos hneg, if_pos hneg]
          · rw [if_neg hneg, if_neg hneg]
            cases hv : visit s (next (b :: bs)).1 with
            | cont s₁ =>
              dsimp only
              have hd : ((b :: bs).drop (next (b :: bs)).2.toNat).length < fuel := by
                simp only [List.length_drop]
                have : 1 ≤ (next (b :: bs)).2.toNat := by omega
                simp only [List.length_cons] at hlen ⊢
                omega
              have hd₂ : ((b :: bs).drop (next (b :: bs)).2.toNat).length < fuel₂ := by
                simp only [List.length_drop]
                have : 1 ≤ (next (b :: bs)).2.toNat := by omega
                simp only [List.length_cons] at hlen' ⊢
                omega
              exact ih fuel₂ _ s₁ hd hd₂
            | err s₁ e₁ => rfl
            | panic => rfl

/-- Fuel above the buffer length computes the canonical foldPacked. -/
theorem foldPackedF_canon {α σ : Type} {next : List Nat → α × Int} {visit : σ → α → Vres σ}
    (fuel : Nat) (buf : List Nat) (s : σ) (h : buf.length < fuel) :
    foldPackedF fuel next visit s buf = foldPacked next visit s buf :=
  foldPackedF_fuel_irrel fuel (buf.length + 1) buf s h (by omega)

/-- Processing an encoded value at the head of a packed buffer runs the
visitor once on that value and continues on the suffix. -/
theorem foldPacked_enc_cons {α σ : Type} {next : List Nat → α × Int} (v : σ → α → Vres σ)
    (s : σ) (val : α) (enc rest : List Nat) (hne : enc ≠ [])
    (hnext : next (enc ++ rest) = (val, (enc.length : Int))) :
    foldPacked next v s (enc ++ rest) =
      match v s val with
      | .cont s₁ => foldPacked next v s₁ rest
      | .err s₁ e => .err s₁ e
      | .panic => .panic := by
  cases enc with
  | nil => exact absurd rfl hne
  | cons b bs =>
    rw [List.cons_append] at hnext ⊢
    rw [foldPacked, foldPackedF_cons]
    have h2 : (next (b :: (bs ++ rest))).2 = ((bs.length + 1 : Nat) : Int) := by
      rw [hnext]
      simp
    have h1 : (next (b :: (bs ++ rest))).1 = val := by rw [hnext]
    have hn0 : ¬(next (b :: (bs ++ rest))).2 = 0 := by rw [h2]; omega
    have hnn : ¬(next (b :: (bs ++ rest))).2 < 0 := by rw [h2]; omega
    rw [if_neg hn0, if_neg hnn, h1]
    have hdrop : (b :: (bs ++ rest)).drop (next (b :: (bs ++ rest))).2.toNat = rest := by
      rw [h2]
      have ht : ((bs.length + 1 : Nat) : Int).toNat = bs.length + 1 := by omega
      rw [ht]
      have e : b :: (bs ++ rest) = (b :: bs) ++ rest := rfl
      rw [e]
      have e₂ : bs.length + 1 = (b :: bs).length := rfl
      rw [e₂, List.drop_left]
    cases hv : v s val with
    | cont s₁ =>
      dsimp only
      rw [hdrop]
      apply foldPackedF_canon
      simp only [List.length_cons, List.length_append]
      omega
    | err s₁ e₁ => rfl
    | panic => rfl

end Osm

namespace Osm

/-- The zig-zag image of an int64-range value fits in a uint64. -/
theorem zigzagEnc_lt (z : Int) (h1 : -2 ^ 63 ≤ z) (h2 : z < 2 ^ 63) :
    zigzagEnc z < 2 ^ 64 := by
  unfold zigzagEnc
  split <;> omega

/-- binary.Varint decodes the reference zig-zag encoding of any
int64-range value, consuming exactly its bytes. -/
theorem varint_enc {z : Int} (rest : List Nat) (h1 : -2 ^ 63 ≤ z) (h2 : z < 2 ^ 63) :
    varint (encUvarint (zigzagEnc z) ++ rest) =
      (z, ((encUvarint (zigzagEnc z)).length : Int)) := by
  have hu := uvarint_enc (x := zigzagEnc z) rest (zigzagEnc_lt z h1 h2)
  unfold varint
  rw [hu]
  simp only [Nat.and_one_is_mod]
  have hsr : zigzagEnc z >>> 1 = zigzagEnc z / 2 := by
    rw [Nat.shiftRight_eq_div_pow]
  rw [hsr]
  by_cases hz : 0 ≤ z
  · have he : zigzagEnc z = (2 * z).toNat := by simp [zigzagEnc, hz]
    have hmod : zigzagEnc z % 2 = 0 := by omega
    rw [hmod]
    simp only [ne_eq, not_true_eq_false, ite_false]
    have : ((zigzagEnc z / 2 : Nat) : Int) = z := by omega
    rw [this]
  · have he : zigzagEnc z = (-2 * z - 1).toNat := by simp [zigzagEnc, hz]
    have hmod : zigzagEnc z % 2 = 1 := by omega
    rw [hmod]
    simp only [ne_eq, one_ne_zero, not_false_eq_true, ite_true]
    have hval : ((zigzagEnc z / 2 : Nat) : Int) = -z - 1 := by omega
    rw [hval]
    have hfin : -(-z - 1) - 1 = z := by ring
    rw [hfin]

/-- C8: the packed-varint decoders invert the reference encoders: for
every uint64 value x, ForEachPackedUint64 over the varint encoding of x
yields exactly [x]; for every int64-range z (INT64_MIN and -1 included),
ForEachPackedInt64 over the varint encoding of the zig-zag image of z
yields exactly [z]. -/
theorem c8_varint_round_trip :
    (∀ x : Nat, x < 2 ^ 64 → packedU64Dec (encUvarint x) = .ok [x]) ∧
    (∀ z : Int, -2 ^ 63 ≤ z → z < 2 ^ 63 → packedI64Dec (encUvarint (zigzagEnc z)) = .ok [z]) := by
  constructor
  · intro x hx
    have hys : encUvarint x = encUvarint x ++ [] := by simp
    rw [packedU64Dec, hys,
      foldPacked_enc_cons _ [] x (encUvarint x) [] (encUvarint_ne_nil x)
        (by exact (List.append_nil (encUvarint x)).symm ▸ uvarint_enc [] hx)]
    rfl
  · intro z hz1 hz2
    have hys : encUvarint (zigzagEnc z) = encUvarint (zigzagEnc z) ++ [] := by simp
    rw [packedI64Dec, hys,
      foldPacked_enc_cons _ [] z (encUvarint (zigzagEnc z)) [] (encUvarint_ne_nil _)
        (by exact (List.append_nil (encUvarint (zigzagEnc z))).symm ▸ varint_enc [] hz1 hz2)]
    rfl

/-- C8 witness: the round trip evaluated at the maximal uint64 value, at
INT64_MIN and at -1. -/
theorem c8_varint_round_trip_witness :
    (2 ^ 64 - 1 < 2 ^ 64 ∧ packedU64Dec (encUvarint (2 ^ 64 - 1)) = .ok [2 ^ 64 - 1]) ∧
    (packedI64Dec (encUvarint (zigzagEnc (-2 ^ 63))) = .ok [-2 ^ 63]) ∧
    (packedI64Dec (encUvarint (zigzagEnc (-1))) = .ok [-1]) :=
  ⟨⟨by omega, c8_varint_round_trip.1 (2 ^ 64 - 1) (by omega)⟩,
   c8_varint_round_trip.2 (-2 ^ 63) (by omega) (by omega),
   c8_varint_round_trip.2 (-1) (by omega) (by omega)⟩

end Osm


namespace Osm

/-! ## C4: unknown Blob fields are ignored -/

/-- When the collected field numbers of a buffer all avoid 1, 2 and 3,
the inflate visitor never fires, so its fold leaves the state unchanged;
the collector extends its accumulator by the numbers of the buffer. -/
theorem inflate_fold_skips (z : List Nat → Except GoErr (List Nat)) (bdata : List Nat) :
    ∀ fuel (buf : List Nat) (acc ns : List Nat) (st : InflateS),
      buf.length < fuel →
      foldFieldsF fuel fieldNumsVisit acc buf = .ok ns →
      (∀ n ∈ ns, n ≠ 1 ∧ n ≠ 2 ∧ n ≠ 3) →
      (∃ tail, ns = acc ++ tail) ∧
        foldFieldsF fuel (inflateVisit z bdata) st buf = .ok st := by
  intro fuel
  induction fuel with
  | zero => intro buf acc ns st h; omega
  | succ fuel ih =>
    intro buf acc ns st hlen hnum hP
    rcases hrf : readField buf with e | fr
    · simp only [foldFieldsF, hrf] at hnum ⊢
      split at hnum
      · rename_i he
        simp only [Fres.ok.injEq] at hnum
        subst hnum
        refine ⟨⟨[], by simp⟩, ?_⟩
        simp [he]
      · simp at hnum
    · rcases fr with ⟨f, rest⟩
      have hrest : rest.length < fuel := by
        have := readField_length_lt hrf
        omega
      simp only [foldFieldsF, hrf, fieldNumsVisit] at hnum
      obtain ⟨⟨tail, htail⟩, hfold⟩ := ih rest (acc ++ [f.num]) ns st hrest hnum hP
      have hmem : f.num ∈ ns := by
        rw [htail]
        simp
      have hPf := hP f.num hmem
      have hvis : inflateVisit z bdata st f = .cont st := by
        simp only [inflateVisit, if_neg hPf.1, if_neg hPf.2.1, if_neg hPf.2.2]
      refine ⟨⟨[f.num] ++ tail, by rw [htail]; simp⟩, ?_⟩
      simp only [foldFieldsF, hrf, hvis]
      exact hfold

/-- C4 (amended): inflate ignores fields outside 1, 2 and 3 entirely: a
Blob all of whose fields (such as lzma_data at 4 or bzip2 at 5) lie
outside that set decodes to a nil byte slice with a nil error, rather
than failing with an UnsupportedCompression error. -/
theorem c4_unknown_fields_ignored (z : List Nat → Except GoErr (List Nat))
    (bdata ns : List Nat) (hnum : fieldNums bdata = .ok ns)
    (hP : ∀ n ∈ ns, n ≠ 1 ∧ n ≠ 2 ∧ n ≠ 3) :
    inflate z bdata = (none, none) := by
  have h := (inflate_fold_skips z bdata (bdata.length + 1) bdata [] ns {}
    (by omega) hnum hP).2
  rw [inflate, foldFields, h]

/-- C4 witness: the ignore theorem applied to the lzma-only and the
bzip2-only blobs. -/
theorem c4_unknown_fields_ignored_witness :
    (fieldNums c4lzmaBlob = .ok [4] ∧ inflate zNever c4lzmaBlob = (none, none)) ∧
    (fieldNums c4bzipBlob = .ok [5] ∧ inflate zNever c4bzipBlob = (none, none)) :=
  ⟨⟨by decide, c4_unknown_fields_ignored zNever c4lzmaBlob [4] (by decide) (by decide)⟩,
   ⟨by decide, c4_unknown_fields_ignored zNever c4bzipBlob [5] (by decide) (by decide)⟩⟩

end Osm

namespace Osm

/-! ## Preservation facts about the primitive decoders -/

theorem lensLE_refl (b : Block) : lensLE b b := by
  unfold lensLE
  omega

theorem lensLE_trans {a b c : Block} (h1 : lensLE a b) (h2 : lensLE b c) : lensLE a c := by
  unfold lensLE at h1 h2 ⊢
  omega

theorem coreRel_refl (b : Block) : coreRel b b :=
  ⟨rfl, rfl, rfl, rfl, lensLE_refl b⟩

theorem coreRel_trans {a b c : Block} (h1 : coreRel a b) (h2 : coreRel b c) : coreRel a c :=
  ⟨h2.1.trans h1.1, h2.2.1.trans h1.2.1, h2.2.2.1.trans h1.2.2.1,
   h2.2.2.2.1.trans h1.2.2.2.1, lensLE_trans h1.2.2.2.2 h2.2.2.2.2⟩

/-- Windows stay in bounds when the entity lists are unchanged and the
index arrays only grew. -/
theorem windowsOK_of_coreRel {b b' : Block} (h : coreRel b b') (hw : BlockWindowsOK b) :
    BlockWindowsOK b' := by
  obtain ⟨-, hn, hwy, hr, hl⟩ := h
  obtain ⟨l1, l2, l3, l4, l5⟩ := hl
  refine ⟨?_, ?_, ?_⟩
  · intro nd hnd
    rw [hn] at hnd
    have := hw.1 nd hnd
    omega
  · intro w hwmem
    rw [hwy] at hwmem
    have := hw.2.1 w hwmem
    omega
  · intro r hrmem
    rw [hr] at hrmem
    have := hw.2.2 r hrmem
    omega

/-- setAt characterization: success means the index was in range and
the list is the pointwise update. -/
theorem setAt_some {α : Type} [Inhabited α] {l : List α} {i : Nat} {f : α → α} {l' : List α}
    (h : setAt l i f = some l') :
    i < l.length ∧ l' = l.set i (f (l.getD i default)) := by
  unfold setAt at h
  split at h
  · rename_i hi
    simp only [Option.some.injEq] at h
    exact ⟨hi, h.symm⟩
  · simp at h

/-- Canonical-fuel versions of the generic fold lemmas. -/
theorem foldPacked_rel {α σ : Type} {next : List Nat → α × Int} {visit : σ → α → Vres σ}
    {R : σ → σ → Prop}
    (hrefl : ∀ s, R s s) (htrans : ∀ a b c, R a b → R b c → R a c)
    (hcont : ∀ s x s₁, visit s x = .cont s₁ → R s s₁)
    (herr : ∀ s x s₁ e, visit s x = .err s₁ e → R s s₁) (buf : List Nat) (s : σ) :
    (∀ s₁, foldPacked next visit s buf = .ok s₁ → R s s₁) ∧
    (∀ s₁ e, foldPacked next visit s buf = .err s₁ e → R s s₁) :=
  foldPackedF_rel hrefl htrans hcont herr (buf.length + 1) buf s (by omega)

theorem foldFields_rel {σ : Type} {visit : σ → Field → Vres σ} {R : σ → σ → Prop}
    (hrefl : ∀ s, R s s) (htrans : ∀ a b c, R a b → R b c → R a c)
    (hcont : ∀ s f s₁, visit s f = .cont s₁ → R s s₁)
    (herr : ∀ s f s₁ e, visit s f = .err s₁ e → R s s₁) (buf : List Nat) (s : σ) :
    (∀ s₁, foldFields visit s buf = .ok s₁ → R s s₁) ∧
    (∀ s₁ e, foldFields visit s buf = .err s₁ e → R s s₁) :=
  foldFieldsF_rel hrefl htrans hcont herr (buf.length + 1) buf s (by omega)

theorem foldPacked_inv {α σ : Type} {next : List Nat → α × Int} {visit : σ → α → Vres σ}
    {R : σ → σ → Prop} (B Inv : σ → Prop)
    (hrefl : ∀ s, R s s) (htrans : ∀ a b c, R a b → R b c → R a c)
    (hcont : ∀ s x s₁, visit s x = .cont s₁ → R s s₁)
    (herr : ∀ s x s₁ e, visit s x = .err s₁ e → R s s₁)
    (hdown : ∀ s t, R s t → B t → B s)
    (hic : ∀ s x s₁, Inv s → B s₁ → visit s x = .cont s₁ → Inv s₁)
    (hie : ∀ s x s₁ e, Inv s → B s₁ → visit s x = .err s₁ e → Inv s₁)
    (buf : List Nat) (s : σ) (h : Inv s) :
    (∀ s₁, foldPacked next visit s buf = .ok s₁ → B s₁ → Inv s₁) ∧
    (∀ s₁ e, foldPacked next visit s buf = .err s₁ e → B s₁ → Inv s₁) :=
  foldPackedF_inv B Inv hrefl htrans hcont herr hdown hic hie (buf.length + 1) buf s (by omega) h

theorem foldFields_inv {σ : Type} {visit : σ → Field → Vres σ}
    {R : σ → σ → Prop} (B Inv : σ → Prop)
    (hrefl : ∀ s, R s s) (htrans : ∀ a b c, R a b → R b c → R a c)
    (hcont : ∀ s f s₁, visit s f = .cont s₁ → R s s₁)
    (herr : ∀ s f s₁ e, visit s f = .err s₁ e → R s s₁)
    (hdown : ∀ s t, R s t → B t → B s)
    (hic : ∀ s f s₁, Inv s → B s₁ → visit s f = .cont s₁ → Inv s₁)
    (hie : ∀ s f s₁ e, Inv s → B s₁ → visit s f = .err s₁ e → Inv s₁)
    (buf : List Nat) (s : σ) (h : Inv s) :
    (∀ s₁, foldFields visit s buf = .ok s₁ → B s₁ → Inv s₁) ∧
    (∀ s₁ e, foldFields visit s buf = .err s₁ e → B s₁ → Inv s₁) :=
  foldFieldsF_inv B Inv hrefl htrans hcont herr hdown hic hie (buf.length + 1) buf s (by omega) h

end Osm



namespace Osm

/-- coreRel transitivity in fully applied form. -/
theorem coreRel_trans3 : ∀ a b c : Block, coreRel a b → coreRel b c → coreRel a c :=
  fun _ _ _ h1 h2 => coreRel_trans h1 h2

/-- The way-keys inner fold (field 2 of a Way) respects coreRel. -/
theorem wayKeys_fold_rel (b₀ : Block) (d : List Nat) :
    (∀ b₁, foldPacked uvarint
        (fun (b : Block) x => Vres.cont { b with wayStrings := b.wayStrings ++ [x % 2 ^ 32, 0] })
        b₀ d = .ok b₁ → coreRel b₀ b₁) ∧
    (∀ b₁ e, foldPacked uvarint
        (fun (b : Block) x => Vres.cont { b with wayStrings := b.wayStrings ++ [x % 2 ^ 32, 0] })
        b₀ d = .err b₁ e → coreRel b₀ b₁) := by
  apply foldPacked_rel coreRel_refl coreRel_trans3
  · intro bb x bb₁ hstep
    simp only [Vres.cont.injEq] at hstep
    subst hstep
    refine ⟨rfl, rfl, rfl, rfl, ?_⟩
    unfold lensLE
    simp only [List.length_append, List.length_cons, List.length_nil]
    omega
  · intro bb x bb₁ e hstep
    simp at hstep

/-- The way-vals inner fold (field 3 of a Way) respects coreRel. -/
theorem wayVals_fold_rel (b₀ : Block) (i₀ : Nat) (d : List Nat) :
    (∀ p₁, foldPacked uvarint
        (fun (p : Block × Nat) x =>
          if p.2 < p.1.wayStrings.length then
            Vres.cont ({ p.1 with wayStrings := p.1.wayStrings.set p.2 (x % 2 ^ 32) }, p.2 + 2)
          else Vres.panic)
        (b₀, i₀) d = .ok p₁ → coreRel b₀ p₁.1) ∧
    (∀ p₁ e, foldPacked uvarint
        (fun (p : Block × Nat) x =>
          if p.2 < p.1.wayStrings.length then
            Vres.cont ({ p.1 with wayStrings := p.1.wayStrings.set p.2 (x % 2 ^ 32) }, p.2 + 2)
          else Vres.panic)
        (b₀, i₀) d = .err p₁ e → coreRel b₀ p₁.1) := by
  apply foldPacked_rel (R := fun (p p₁ : Block × Nat) => coreRel p.1 p₁.1)
    (fun p => coreRel_refl p.1) (fun _ _ _ hh1 hh2 => coreRel_trans hh1 hh2)
  · intro pp x pp₁ hstep
    by_cases hlt : pp.2 < pp.1.wayStrings.length
    · simp only [hlt, ite_true, Vres.cont.injEq] at hstep
      subst hstep
      refine ⟨rfl, rfl, rfl, rfl, ?_⟩
      unfold lensLE
      simp only [List.length_set]
      omega
    · simp [hlt] at hstep
  · intro pp x pp₁ e hstep
    by_cases hlt : pp.2 < pp.1.wayStrings.length <;> simp [hlt] at hstep

/-- The way-refs inner fold (field 8 of a Way) respects coreRel. -/
theorem wayRefs_fold_rel (b₀ : Block) (r₀ : Int) (d : List Nat) :
    (∀ p₁, foldPacked varint
        (fun (p : Block × Int) x =>
          Vres.cont ({ p.1 with wayRefs := p.1.wayRefs ++ [wrap64 (p.2 + x)] }, wrap64 (p.2 + x)))
        (b₀, r₀) d = .ok p₁ → coreRel b₀ p₁.1) ∧
    (∀ p₁ e, foldPacked varint
        (fun (p : Block × Int) x =>
          Vres.cont ({ p.1 with wayRefs := p.1.wayRefs ++ [wrap64 (p.2 + x)] }, wrap64 (p.2 + x)))
        (b₀, r₀) d = .err p₁ e → coreRel b₀ p₁.1) := by
  apply foldPacked_rel (R := fun (p p₁ : Block × Int) => coreRel p.1 p₁.1)
    (fun p => coreRel_refl p.1) (fun _ _ _ hh1 hh2 => coreRel_trans hh1 hh2)
  · intro pp x pp₁ hstep
    simp only [Vres.cont.injEq] at hstep
    subst hstep
    refine ⟨rfl, rfl, rfl, rfl, ?_⟩
    unfold lensLE
    simp only [List.length_append, List.length_cons, List.length_nil]
    omega
  · intro pp x pp₁ e hstep
    simp at hstep

/-- Each procWay visitor step keeps the block core relation and the way
window starts. -/
theorem procWayVisit_rel :
    ∀ (s : WayS) (f : Field) (s₁ : WayS),
      (procWayVisit s f = .cont s₁ ∨ ∃ e, procWayVisit s f = .err s₁ e) →
      coreRel s.block s₁.block ∧ s₁.way.sset = s.way.sset ∧ s₁.way.rset = s.way.rset := by
  intro s f s₁ hv
  unfold procWayVisit at hv
  by_cases h1 : f.num = 1
  · rw [if_pos h1] at hv
    rcases hv with hv | ⟨e, hv⟩
    · simp only [Vres.cont.injEq] at hv
      subst hv
      exact ⟨coreRel_refl _, rfl, rfl⟩
    · simp at hv
  · rw [if_neg h1] at hv
    by_cases h2 : f.num = 2
    · rw [if_pos h2] at hv
      rcases hv with hv | ⟨e, hv⟩
      · split at hv
        · rename_i b heq
          simp only [Vres.cont.injEq] at hv
          subst hv
          exact ⟨(wayKeys_fold_rel s.block f.data).1 b heq, rfl, rfl⟩
        · simp at hv
        · simp at hv
      · split at hv
        · simp at hv
        · rename_i b e₁ heq
          simp only [Vres.err.injEq] at hv
          obtain ⟨hv1, -⟩ := hv
          subst hv1
          exact ⟨(wayKeys_fold_rel s.block f.data).2 b e₁ heq, rfl, rfl⟩
        · simp at hv
    · rw [if_neg h2] at hv
      by_cases h3 : f.num = 3
      · rw [if_pos h3] at hv
        rcases hv with hv | ⟨e, hv⟩
        · split at hv
          · rename_i p heq
            simp only [Vres.cont.injEq] at hv
            subst hv
            exact ⟨(wayVals_fold_rel s.block s.strValIdx f.data).1 p heq, rfl, rfl⟩
          · simp at hv
          · simp at hv
        · split at hv
          · simp at hv
          · rename_i p e₁ heq
            simp only [Vres.err.injEq] at hv
            obtain ⟨hv1, -⟩ := hv
            subst hv1
            exact ⟨(wayVals_fold_rel s.block s.strValIdx f.data).2 p e₁ heq, rfl, rfl⟩
          · simp at hv
      · rw [if_neg h3] at hv
        by_cases h8 : f.num = 8
        · rw [if_pos h8] at hv
          rcases hv with hv | ⟨e, hv⟩
          · split at hv
            · rename_i p heq
              simp only [Vres.cont.injEq] at hv
              subst hv
              exact ⟨(wayRefs_fold_rel s.block 0 f.data).1 p heq, rfl, rfl⟩
            · simp at hv
            · simp at hv
          · split at hv
            · simp at hv
            · rename_i p e₁ heq
              simp only [Vres.err.injEq] at hv
              obtain ⟨hv1, -⟩ := hv
              subst hv1
              exact ⟨(wayRefs_fold_rel s.block 0 f.data).2 p e₁ heq, rfl, rfl⟩
            · simp at hv
        · rw [if_neg h8] at hv
          rcases hv with hv | ⟨e, hv⟩
          · simp only [Vres.cont.injEq] at hv
            subst hv
            exact ⟨coreRel_refl _, rfl, rfl⟩
          · simp at hv

end Osm

namespace Osm

/-- Projections of a ways-only record update of a Block. -/
theorem setWays_nodes (b : Block) (ws : List BlockWay) :
    ({ b with ways := ws } : Block).nodes = b.nodes := rfl

theorem setWays_nodeStrings (b : Block) (ws : List BlockWay) :
    ({ b with ways := ws } : Block).nodeStrings = b.nodeStrings := rfl

theorem setWays_ways (b : Block) (ws : List BlockWay) :
    ({ b with ways := ws } : Block).ways = ws := rfl

theorem setWays_wayStrings (b : Block) (ws : List BlockWay) :
    ({ b with ways := ws } : Block).wayStrings = b.wayStrings := rfl

theorem setWays_wayRefs (b : Block) (ws : List BlockWay) :
    ({ b with ways := ws } : Block).wayRefs = b.wayRefs := rfl

theorem setWays_relations (b : Block) (ws : List BlockWay) :
    ({ b with ways := ws } : Block).relations = b.relations := rfl

theorem setWays_relationStrings (b : Block) (ws : List BlockWay) :
    ({ b with ways := ws } : Block).relationStrings = b.relationStrings := rfl

theorem setWays_relationMemberRefs (b : Block) (ws : List BlockWay) :
    ({ b with ways := ws } : Block).relationMemberRefs = b.relationMemberRefs := rfl

/-- Projections of the appended way literal. -/
theorem waySetEnds_sset (w : BlockWay) (x y : Nat) :
    ({ w with send := x, rend := y } : BlockWay).sset = w.sset := rfl

theorem waySetEnds_send (w : BlockWay) (x y : Nat) :
    ({ w with send := x, rend := y } : BlockWay).send = x := rfl

theorem waySetEnds_rset (w : BlockWay) (x y : Nat) :
    ({ w with send := x, rend := y } : BlockWay).rset = w.rset := rfl

theorem waySetEnds_rend (w : BlockWay) (x y : Nat) :
    ({ w with send := x, rend := y } : BlockWay).rend = y := rfl

/-- Projections of the initial closure state literal of procWay. -/
theorem wayS_init_way (b : Block) (w : BlockWay) (n : Nat) :
    ({ block := b, way := w, strValIdx := n } : WayS).way = w := rfl

theorem wayS_init_block (b : Block) (w : BlockWay) (n : Nat) :
    ({ block := b, way := w, strValIdx := n } : WayS).block = b := rfl

theorem wayInit_sset (a c : Nat) : ({ sset := a, rset := c } : BlockWay).sset = a := rfl

theorem wayInit_rset (a c : Nat) : ({ sset := a, rset := c } : BlockWay).rset = c := rfl

/-- procWay preserves the data kind, grows the arrays monotonically and
keeps every stored window in bounds (given the final arrays are below
the uint32 wrap), on both its success and its error exits. -/
theorem procWay_pres (what : What) (d : List Nat) (b : Block) :
    (∀ b₁, procWay what d b = .ok b₁ →
      b₁.dataKind = b.dataKind ∧ lensLE b b₁ ∧
      (BlockWindowsOK b → lensBound b₁ → BlockWindowsOK b₁)) ∧
    (∀ b₁ e, procWay what d b = .err b₁ e →
      b₁.dataKind = b.dataKind ∧ lensLE b b₁ ∧
      (BlockWindowsOK b → lensBound b₁ → BlockWindowsOK b₁)) := by
  have hrel := foldFields_rel
    (R := fun (s s' : WayS) =>
      coreRel s.block s'.block ∧ s'.way.sset = s.way.sset ∧ s'.way.rset = s.way.rset)
    (fun s => ⟨coreRel_refl _, rfl, rfl⟩)
    (fun a c e h1 h2 => ⟨coreRel_trans h1.1 h2.1, h2.2.1.trans h1.2.1, h2.2.2.trans h1.2.2⟩)
    (fun s f s₁ h => procWayVisit_rel s f s₁ (Or.inl h))
    (fun s f s₁ e h => procWayVisit_rel s f s₁ (Or.inr ⟨e, h⟩))
    d
    { block := b,
      way := { sset := b.wayStrings.length % 2 ^ 32, rset := b.wayRefs.length % 2 ^ 32 },
      strValIdx := b.wayStrings.length + 1 }
  constructor
  · intro b₁ h
    unfold procWay at h
    dsimp only at h
    split at h
    · rename_i st heq
      have hst := hrel.1 st heq
      obtain ⟨⟨hdk, hnd, hwy, hrl, hlen⟩, hsset, hrset⟩ := hst
      dsimp only at hsset hrset
      simp only [wayS_init_block] at hdk hnd hwy hrl hlen
      simp only [Fres.ok.injEq] at h
      subst h
      refine ⟨hdk, hlen, ?_⟩
      intro hw hbound
      obtain ⟨hb1, hb2, hb3, hb4, hb5⟩ := hbound
      obtain ⟨l1, l2, l3, l4, l5⟩ := hlen
      simp only [setWays_nodeStrings, setWays_wayStrings, setWays_wayRefs,
        setWays_relationStrings, setWays_relationMemberRefs] at hb1 hb2 hb3 hb4 hb5
      refine ⟨?_, ?_, ?_⟩
      · intro nd hmem
        rw [setWays_nodes, hnd] at hmem
        rw [setWays_nodeStrings]
        have := hw.1 nd hmem
        omega
      · intro w hmem
        rw [setWays_ways, hwy] at hmem
        rw [setWays_wayStrings, setWays_wayRefs]
        rcases List.mem_append.mp hmem with hold | hnew
        · have := hw.2.1 w hold
          omega
        · rw [List.mem_singleton] at hnew
          subst hnew
          simp only [waySetEnds_sset, waySetEnds_send, waySetEnds_rset, waySetEnds_rend]
          omega
      · intro r hmem
        rw [setWays_relations, hrl] at hmem
        rw [setWays_relationStrings, setWays_relationMemberRefs]
        have := hw.2.2 r hmem
        omega
    · rename_i st e heq
      simp at h
    · simp at h
  · intro b₁ e h
    unfold procWay at h
    dsimp only at h
    split at h
    · simp at h
    · rename_i st e₁ heq
      have hst := hrel.2 st e₁ heq
      obtain ⟨⟨hdk, hnd, hwy, hrl, hlen⟩, hsset, hrset⟩ := hst
      simp only [Fres.err.injEq] at h
      obtain ⟨h1, -⟩ := h
      subst h1
      refine ⟨hdk, hlen, ?_⟩
      intro hw hbound
      exact windowsOK_of_coreRel ⟨hdk, hnd, hwy, hrl, hlen⟩ hw
    · simp at h

end Osm

namespace Osm

/-- The relation-keys inner fold (field 2 of a Relation) respects coreRel. -/
theorem relKeys_fold_rel (b₀ : Block) (d : List Nat) :
    (∀ b₁, foldPacked uvarint
        (fun (b : Block) x =>
          Vres.cont { b with relationStrings := b.relationStrings ++ [x % 2 ^ 32, 0] })
        b₀ d = .ok b₁ → coreRel b₀ b₁) ∧
    (∀ b₁ e, foldPacked uvarint
        (fun (b : Block) x =>
          Vres.cont { b with relationStrings := b.relationStrings ++ [x % 2 ^ 32, 0] })
        b₀ d = .err b₁ e → coreRel b₀ b₁) := by
  apply foldPacked_rel coreRel_refl coreRel_trans3
  · intro bb x bb₁ hstep
    simp only [Vres.cont.injEq] at hstep
    subst hstep
    refine ⟨rfl, rfl, rfl, rfl, ?_⟩
    unfold lensLE
    simp only [List.length_append, List.length_cons, List.length_nil]
    omega
  · intro bb x bb₁ e hstep
    simp at hstep

/-- The relation-vals inner fold (field 3 of a Relation) respects coreRel. -/
theorem relVals_fold_rel (b₀ : Block) (i₀ : Nat) (d : List Nat) :
    (∀ p₁, foldPacked uvarint
        (fun (p : Block × Nat) x =>
          if p.2 < p.1.relationStrings.length then
            Vres.cont ({ p.1 with relationStrings := p.1.relationStrings.set p.2 (x % 2 ^ 32) },
              p.2 + 2)
          else Vres.panic)
        (b₀, i₀) d = .ok p₁ → coreRel b₀ p₁.1) ∧
    (∀ p₁ e, foldPacked uvarint
        (fun (p : Block × Nat) x =>
          if p.2 < p.1.relationStrings.length then
            Vres.cont ({ p.1 with relationStrings := p.1.relationStrings.set p.2 (x % 2 ^ 32) },
              p.2 + 2)
          else Vres.panic)
        (b₀, i₀) d = .err p₁ e → coreRel b₀ p₁.1) := by
  apply foldPacked_rel (R := fun (p p₁ : Block × Nat) => coreRel p.1 p₁.1)
    (fun p => coreRel_refl p.1) (fun _ _ _ hh1 hh2 => coreRel_trans hh1 hh2)
  · intro pp x pp₁ hstep
    by_cases hlt : pp.2 < pp.1.relationStrings.length
    · simp only [hlt, ite_true, Vres.cont.injEq] at hstep
      subst hstep
      refine ⟨rfl, rfl, rfl, rfl, ?_⟩
      unfold lensLE
      simp only [List.length_set]
      omega
    · simp [hlt] at hstep
  · intro pp x pp₁ e hstep
    by_cases hlt : pp.2 < pp.1.relationStrings.length <;> simp [hlt] at hstep

/-- The member-roles inner fold (field 8 of a Relation) respects coreRel. -/
theorem relRoles_fold_rel (b₀ : Block) (d : List Nat) :
    (∀ b₁, foldPacked uvarint
        (fun (b : Block) x =>
          Vres.cont { b with relationMemberRoles := b.relationMemberRoles ++ [x % 2 ^ 32] })
        b₀ d = .ok b₁ → coreRel b₀ b₁) ∧
    (∀ b₁ e, foldPacked uvarint
        (fun (b : Block) x =>
          Vres.cont { b with relationMemberRoles := b.relationMemberRoles ++ [x % 2 ^ 32] })
        b₀ d = .err b₁ e → coreRel b₀ b₁) := by
  apply foldPacked_rel coreRel_refl coreRel_trans3
  · intro bb x bb₁ hstep
    simp only [Vres.cont.injEq] at hstep
    subst hstep
    refine ⟨rfl, rfl, rfl, rfl, ?_⟩
    unfold lensLE
    simp only [List.length_append, List.length_cons, List.length_nil]
    omega
  · intro bb x bb₁ e hstep
    simp at hstep

/-- The member-refs inner fold (field 9 of a Relation) respects coreRel. -/
theorem relRefs_fold_rel (b₀ : Block) (r₀ : Int) (d : List Nat) :
    (∀ p₁, foldPacked varint
        (fun (p : Block × Int) x =>
          Vres.cont ({ p.1 with
            relationMemberRefs := p.1.relationMemberRefs ++ [wrap64 (p.2 + x)] },
            wrap64 (p.2 + x)))
        (b₀, r₀) d = .ok p₁ → coreRel b₀ p₁.1) ∧
    (∀ p₁ e, foldPacked varint
        (fun (p : Block × Int) x =>
          Vres.cont ({ p.1 with
            relationMemberRefs := p.1.relationMemberRefs ++ [wrap64 (p.2 + x)] },
            wrap64 (p.2 + x)))
        (b₀, r₀) d = .err p₁ e → coreRel b₀ p₁.1) := by
  apply foldPacked_rel (R := fun (p p₁ : Block × Int) => coreRel p.1 p₁.1)
    (fun p => coreRel_refl p.1) (fun _ _ _ hh1 hh2 => coreRel_trans hh1 hh2)
  · intro pp x pp₁ hstep
    simp only [Vres.cont.injEq] at hstep
    subst hstep
    refine ⟨rfl, rfl, rfl, rfl, ?_⟩
    unfold lensLE
    simp only [List.length_append, List.length_cons, List.length_nil]
    omega
  · intro pp x pp₁ e hstep
    simp at hstep

/-- The member-types inner fold (field 10 of a Relation) respects coreRel. -/
theorem relTypes_fold_rel (b₀ : Block) (d : List Nat) :
    (∀ b₁, foldPacked uvarint
        (fun (b : Block) x =>
          Vres.cont { b with relationMemberTypes := b.relationMemberTypes ++ [x % 256] })
        b₀ d = .ok b₁ → coreRel b₀ b₁) ∧
    (∀ b₁ e, foldPacked uvarint
        (fun (b : Block) x =>
          Vres.cont { b with relationMemberTypes := b.relationMemberTypes ++ [x % 256] })
        b₀ d = .err b₁ e → coreRel b₀ b₁) := by
  apply foldPacked_rel coreRel_refl coreRel_trans3
  · intro bb x bb₁ hstep
    simp only [Vres.cont.injEq] at hstep
    subst hstep
    refine ⟨rfl, rfl, rfl, rfl, ?_⟩
    unfold lensLE
    simp only [List.length_append, List.length_cons, List.length_nil]
    omega
  · intro bb x bb₁ e hstep
    simp at hstep

end Osm

namespace Osm

/-- Each procRelation visitor step keeps the block core relation and the
relation window starts. -/
theorem procRelationVisit_rel :
    ∀ (s : RelS) (f : Field) (s₁ : RelS),
      (procRelationVisit s f = .cont s₁ ∨ ∃ e, procRelationVisit s f = .err s₁ e) →
      coreRel s.block s₁.block ∧
        s₁.relation.sset = s.relation.sset ∧ s₁.relation.mset = s.relation.mset := by
  intro s f s₁ hv
  unfold procRelationVisit at hv
  by_cases h1 : f.num = 1
  · rw [if_pos h1] at hv
    rcases hv with hv | ⟨e, hv⟩
    · simp only [Vres.cont.injEq] at hv
      subst hv
      exact ⟨coreRel_refl _, rfl, rfl⟩
    · simp at hv
  · rw [if_neg h1] at hv
    by_cases h2 : f.num = 2
    · rw [if_pos h2] at hv
      rcases hv with hv | ⟨e, hv⟩
      · split at hv
        · rename_i b heq
          simp only [Vres.cont.injEq] at hv
          subst hv
          exact ⟨(relKeys_fold_rel s.block f.data).1 b heq, rfl, rfl⟩
        · simp at hv
        · simp at hv
      · split at hv
        · simp at hv
        · rename_i b e₁ heq
          simp only [Vres.err.injEq] at hv
          obtain ⟨hv1, -⟩ := hv
          subst hv1
          exact ⟨(relKeys_fold_rel s.block f.data).2 b e₁ heq, rfl, rfl⟩
        · simp at hv
    · rw [if_neg h2] at hv
      by_cases h3 : f.num = 3
      · rw [if_pos h3] at hv
        rcases hv with hv | ⟨e, hv⟩
        · split at hv
          · rename_i p heq
            simp only [Vres.cont.injEq] at hv
            subst hv
            exact ⟨(relVals_fold_rel s.block s.strValIdx f.data).1 p heq, rfl, rfl⟩
          · simp at hv
          · simp at hv
        · split at hv
          · simp at hv
          · rename_i p e₁ heq
            simp only [Vres.err.injEq] at hv
            obtain ⟨hv1, -⟩ := hv
            subst hv1
            exact ⟨(relVals_fold_rel s.block s.strValIdx f.data).2 p e₁ heq, rfl, rfl⟩
          · simp at hv
      · rw [if_neg h3] at hv
        by_cases h8 : f.num = 8
        · rw [if_pos h8] at hv
          rcases hv with hv | ⟨e, hv⟩
          · split at hv
            · rename_i b heq
              simp only [Vres.cont.injEq] at hv
              subst hv
              exact ⟨(relRoles_fold_rel s.block f.data).1 b heq, rfl, rfl⟩
            · simp at hv
            · simp at hv
          · split at hv
            · simp at hv
            · rename_i b e₁ heq
              simp only [Vres.err.injEq] at hv
              obtain ⟨hv1, -⟩ := hv
              subst hv1
              exact ⟨(relRoles_fold_rel s.block f.data).2 b e₁ heq, rfl, rfl⟩
            · simp at hv
        · rw [if_neg h8] at hv
          by_cases h9 : f.num = 9
          · rw [if_pos h9] at hv
            rcases hv with hv | ⟨e, hv⟩
            · split at hv
              · rename_i p heq
                simp only [Vres.cont.injEq] at hv
                subst hv
                exact ⟨(relRefs_fold_rel s.block 0 f.data).1 p heq, rfl, rfl⟩
              · simp at hv
              · simp at hv
            · split at hv
              · simp at hv
              · rename_i p e₁ heq
                simp only [Vres.err.injEq] at hv
                obtain ⟨hv1, -⟩ := hv
                subst hv1
                exact ⟨(relRefs_fold_rel s.block 0 f.data).2 p e₁ heq, rfl, rfl⟩
              · simp at hv
          · rw [if_neg h9] at hv
            by_cases h10 : f.num = 10
            · rw [if_pos h10] at hv
              rcases hv with hv | ⟨e, hv⟩
              · split at hv
                · rename_i b heq
                  simp only [Vres.cont.injEq] at hv
                  subst hv
                  exact ⟨(relTypes_fold_rel s.block f.data).1 b heq, rfl, rfl⟩
                · simp at hv
                · simp at hv
              · split at hv
                · simp at hv
                · rename_i b e₁ heq
                  simp only [Vres.err.injEq] at hv
                  obtain ⟨hv1, -⟩ := hv
                  subst hv1
                  exact ⟨(relTypes_fold_rel s.block f.data).2 b e₁ heq, rfl, rfl⟩
                · simp at hv
            · rw [if_neg h10] at hv
              rcases hv with hv | ⟨e, hv⟩
              · simp only [Vres.cont.injEq] at hv
                subst hv
                exact ⟨coreRel_refl _, rfl, rfl⟩
              · simp at hv

end Osm

namespace Osm

/-- Projections of a relations-only record update of a Block. -/
theorem setRels_nodes (b : Block) (rs : List BlockRelation) :
    ({ b with relations := rs } : Block).nodes = b.nodes := rfl

theorem setRels_nodeStrings (b : Block) (rs : List BlockRelation) :
    ({ b with relations := rs } : Block).nodeStrings = b.nodeStrings := rfl

theorem setRels_ways (b : Block) (rs : List BlockRelation) :
    ({ b with relations := rs } : Block).ways = b.ways := rfl

theorem setRels_wayStrings (b : Block) (rs : List BlockRelation) :
    ({ b with relations := rs } : Block).wayStrings = b.wayStrings := rfl

theorem setRels_wayRefs (b : Block) (rs : List BlockRelation) :
    ({ b with relations := rs } : Block).wayRefs = b.wayRefs := rfl

theorem setRels_relations (b : Block) (rs : List BlockRelation) :
    ({ b with relations := rs } : Block).relations = rs := rfl

theorem setRels_relationStrings (b : Block) (rs : List BlockRelation) :
    ({ b with relations := rs } : Block).relationStrings = b.relationStrings := rfl

theorem setRels_relationMemberRefs (b : Block) (rs : List BlockRelation) :
    ({ b with relations := rs } : Block).relationMemberRefs = b.relationMemberRefs := rfl

/-- Projections of the appended relation literal. -/
theorem relSetEnds_sset (r : BlockRelation) (x y : Nat) :
    ({ r with send := x, mend := y } : BlockRelation).sset = r.sset := rfl

theorem relSetEnds_send (r : BlockRelation) (x y : Nat) :
    ({ r with send := x, mend := y } : BlockRelation).send = x := rfl

theorem relSetEnds_mset (r : BlockRelation) (x y : Nat) :
    ({ r with send := x, mend := y } : BlockRelation).mset = r.mset := rfl

theorem relSetEnds_mend (r : BlockRelation) (x y : Nat) :
    ({ r with send := x, mend := y } : BlockRelation).mend = y := rfl

/-- Projection of the initial closure state literal of procRelation. -/
theorem relS_init_block (b : Block) (r : BlockRelation) (n : Nat) :
    ({ block := b, relation := r, strValIdx := n } : RelS).block = b := rfl

/-- procRelation preserves the data kind, grows the arrays monotonically
and keeps every stored window in bounds (given the final arrays are
below the uint32 wrap), on both its success and its error exits. -/
theorem procRelation_pres (what : What) (d : List Nat) (b : Block) :
    (∀ b₁, procRelation what d b = .ok b₁ →
      b₁.dataKind = b.dataKind ∧ lensLE b b₁ ∧
      (BlockWindowsOK b → lensBound b₁ → BlockWindowsOK b₁)) ∧
    (∀ b₁ e, procRelation what d b = .err b₁ e →
      b₁.dataKind = b.dataKind ∧ lensLE b b₁ ∧
      (BlockWindowsOK b → lensBound b₁ → BlockWindowsOK b₁)) := by
  have hrel := foldFields_rel
    (R := fun (s s' : RelS) =>
      coreRel s.block s'.block ∧
        s'.relation.sset = s.relation.sset ∧ s'.relation.mset = s.relation.mset)
    (fun s => ⟨coreRel_refl _, rfl, rfl⟩)
    (fun a c e h1 h2 => ⟨coreRel_trans h1.1 h2.1, h2.2.1.trans h1.2.1, h2.2.2.trans h1.2.2⟩)
    (fun s f s₁ h => procRelationVisit_rel s f s₁ (Or.inl h))
    (fun s f s₁ e h => procRelationVisit_rel s f s₁ (Or.inr ⟨e, h⟩))
    d
    { block := b,
      relation := { sset := b.relationStrings.length % 2 ^ 32,
                    mset := b.relationMemberRefs.length % 2 ^ 32 },
      strValIdx := b.relationStrings.length + 1 }
  constructor
  · intro b₁ h
    unfold procRelation at h
    dsimp only at h
    split at h
    · rename_i st heq
      have hst := hrel.1 st heq
      obtain ⟨⟨hdk, hnd, hwy, hrl, hlen⟩, hsset, hmset⟩ := hst
      dsimp only at hsset hmset
      simp only [relS_init_block] at hdk hnd hwy hrl hlen
      simp only [Fres.ok.injEq] at h
      subst h
      refine ⟨hdk, hlen, ?_⟩
      intro hw hbound
      obtain ⟨hb1, hb2, hb3, hb4, hb5⟩ := hbound
      obtain ⟨l1, l2, l3, l4, l5⟩ := hlen
      simp only [setRels_nodeStrings, setRels_wayStrings, setRels_wayRefs,
        setRels_relationStrings, setRels_relationMemberRefs] at hb1 hb2 hb3 hb4 hb5
      refine ⟨?_, ?_, ?_⟩
      · intro nd hmem
        rw [setRels_nodes, hnd] at hmem
        rw [setRels_nodeStrings]
        have := hw.1 nd hmem
        omega
      · intro w hmem
        rw [setRels_ways, hwy] at hmem
        rw [setRels_wayStrings, setRels_wayRefs]
        have := hw.2.1 w hmem
        omega
      · intro r hmem
        rw [setRels_relations, hrl] at hmem
        rw [setRels_relationStrings, setRels_relationMemberRefs]
        rcases List.mem_append.mp hmem with hold | hnew
        · have := hw.2.2 r hold
          omega
        · rw [List.mem_singleton] at hnew
          subst hnew
          simp only [relSetEnds_sset, relSetEnds_send, relSetEnds_mset, relSetEnds_mend]
          omega
    · rename_i st e heq
      simp at h
    · simp at h
  · intro b₁ e h
    unfold procRelation at h
    dsimp only at h
    split at h
    · simp at h
    · rename_i st e₁ heq
      have hst := hrel.2 st e₁ heq
      obtain ⟨⟨hdk, hnd, hwy, hrl, hlen⟩, hsset, hmset⟩ := hst
      simp only [Fres.err.injEq] at h
      obtain ⟨h1, -⟩ := h
      subst h1
      refine ⟨hdk, hlen, ?_⟩
      intro hw hbound
      exact windowsOK_of_coreRel ⟨hdk, hnd, hwy, hrl, hlen⟩ hw
    · simp at h

end Osm

namespace Osm

/-- lensBound is closed downward along lensLE. -/
theorem lensBound_of_le {b b₁ : Block} (h : lensLE b b₁) (hb : lensBound b₁) :
    lensBound b := by
  obtain ⟨h1, h2, h3, h4, h5⟩ := h
  obtain ⟨g1, g2, g3, g4, g5⟩ := hb
  exact ⟨by omega, by omega, by omega, by omega, by omega⟩

theorem blockPres_refl (b : Block) : blockPres b b :=
  ⟨lensLE_refl b, fun _ h => h⟩

theorem blockPres_trans {a b c : Block} (h1 : blockPres a b) (h2 : blockPres b c) :
    blockPres a c :=
  ⟨lensLE_trans h1.1 h2.1,
   fun hb hw => h2.2 hb (h1.2 (lensBound_of_le h2.1 hb) hw)⟩

theorem blockPres_trans3 : ∀ a b c : Block, blockPres a b → blockPres b c → blockPres a c :=
  fun _ _ _ h1 h2 => blockPres_trans h1 h2

end Osm

namespace Osm

/-- Window projections of the BlockNode updates of the dense fill pass. -/
theorem ndSetId_sset (nd : BlockNode) (a : Int) :
    ({ nd with id := a } : BlockNode).sset = nd.sset := rfl

theorem ndSetId_send (nd : BlockNode) (a : Int) :
    ({ nd with id := a } : BlockNode).send = nd.send := rfl

theorem ndSetLat_sset (nd : BlockNode) (a : Int) :
    ({ nd with latNano := a } : BlockNode).sset = nd.sset := rfl

theorem ndSetLat_send (nd : BlockNode) (a : Int) :
    ({ nd with latNano := a } : BlockNode).send = nd.send := rfl

theorem ndSetLon_sset (nd : BlockNode) (a : Int) :
    ({ nd with lonNano := a } : BlockNode).sset = nd.sset := rfl

theorem ndSetLon_send (nd : BlockNode) (a : Int) :
    ({ nd with lonNano := a } : BlockNode).send = nd.send := rfl

theorem ndSetSset_sset (nd : BlockNode) (a : Nat) :
    ({ nd with sset := a } : BlockNode).sset = a := rfl

theorem ndSetSset_send (nd : BlockNode) (a : Nat) :
    ({ nd with sset := a } : BlockNode).send = nd.send := rfl

theorem ndSetSend_sset (nd : BlockNode) (a : Nat) :
    ({ nd with send := a } : BlockNode).sset = nd.sset := rfl

theorem ndSetSend_send (nd : BlockNode) (a : Nat) :
    ({ nd with send := a } : BlockNode).send = a := rfl

/-- A setAt step that does not touch the windows keeps ndWindows. -/
theorem ndWindows_setAt {ns ns₁ : List BlockNode} {i : Nat} {g : BlockNode → BlockNode}
    (hset : setAt ns i g = some ns₁)
    (hg : ∀ nd, (g nd).sset = nd.sset ∧ (g nd).send = nd.send) :
    ∀ K, ndWindows K ns → ndWindows K ns₁ := by
  intro K hK nd hmem
  obtain ⟨hi, hns⟩ := setAt_some hset
  subst hns
  rcases List.mem_or_eq_of_mem_set hmem with hmem' | hnd
  · exact hK nd hmem'
  · subst hnd
    have hold : ns.getD i default ∈ ns := by
      rw [List.getD_eq_getElem ns default hi]
      exact List.getElem_mem hi
    have := hK _ hold
    rw [(hg _).1, (hg _).2]
    exact this

/-- The dense-id inner fold (field 1) keeps the node windows. -/
theorem denseIds_fold_rel (p₀ : Int × List BlockNode × Nat) (d : List Nat) :
    (∀ p₁, foldPacked varint
        (fun (p : Int × List BlockNode × Nat) x =>
          let a := wrap64 (p.1 + x)
          match setAt p.2.1 p.2.2 (fun nd => { nd with id := a }) with
          | none => .panic
          | some ns => .cont (a, ns, p.2.2 + 1))
        p₀ d = .ok p₁ → ∀ K, ndWindows K p₀.2.1 → ndWindows K p₁.2.1) ∧
    (∀ p₁ e, foldPacked varint
        (fun (p : Int × List BlockNode × Nat) x =>
          let a := wrap64 (p.1 + x)
          match setAt p.2.1 p.2.2 (fun nd => { nd with id := a }) with
          | none => .panic
          | some ns => .cont (a, ns, p.2.2 + 1))
        p₀ d = .err p₁ e → ∀ K, ndWindows K p₀.2.1 → ndWindows K p₁.2.1) := by
  apply foldPacked_rel
    (R := fun (p p₁ : Int × List BlockNode × Nat) => ∀ K, ndWindows K p.2.1 → ndWindows K p₁.2.1)
    (fun p K h => h) (fun _ _ _ h1 h2 K h => h2 K (h1 K h))
  · intro pp x pp₁ hstep
    dsimp only at hstep
    split at hstep
    · simp at hstep
    · rename_i ns hset
      simp only [Vres.cont.injEq] at hstep
      subst hstep
      exact ndWindows_setAt hset (fun nd => ⟨ndSetId_sset nd _, ndSetId_send nd _⟩)
  · intro pp x pp₁ e hstep
    dsimp only at hstep
    split at hstep <;> simp at hstep

end Osm

namespace Osm

/-- The dense-lat inner fold (field 8) keeps the node windows. -/
theorem denseLats_fold_rel (block : Block) (p₀ : Int × List BlockNode × Nat) (d : List Nat) :
    (∀ p₁, foldPacked varint
        (fun (p : Int × List BlockNode × Nat) x =>
          let a := wrap64 (p.1 + x)
          let nano := wrap64 (block.latOffset + wrap64 (block.granularity * a))
          match setAt p.2.1 p.2.2 (fun nd => { nd with latNano := nano }) with
          | none => .panic
          | some ns => .cont (a, ns, p.2.2 + 1))
        p₀ d = .ok p₁ → ∀ K, ndWindows K p₀.2.1 → ndWindows K p₁.2.1) ∧
    (∀ p₁ e, foldPacked varint
        (fun (p : Int × List BlockNode × Nat) x =>
          let a := wrap64 (p.1 + x)
          let nano := wrap64 (block.latOffset + wrap64 (block.granularity * a))
          match setAt p.2.1 p.2.2 (fun nd => { nd with latNano := nano }) with
          | none => .panic
          | some ns => .cont (a, ns, p.2.2 + 1))
        p₀ d = .err p₁ e → ∀ K, ndWindows K p₀.2.1 → ndWindows K p₁.2.1) := by
  apply foldPacked_rel
    (R := fun (p p₁ : Int × List BlockNode × Nat) => ∀ K, ndWindows K p.2.1 → ndWindows K p₁.2.1)
    (fun p K h => h) (fun _ _ _ h1 h2 K h => h2 K (h1 K h))
  · intro pp x pp₁ hstep
    dsimp only at hstep
    split at hstep
    · simp at hstep
    · rename_i ns hset
      simp only [Vres.cont.injEq] at hstep
      subst hstep
      exact ndWindows_setAt hset (fun nd => ⟨ndSetLat_sset nd _, ndSetLat_send nd _⟩)
  · intro pp x pp₁ e hstep
    dsimp only at hstep
    split at hstep <;> simp at hstep

/-- The dense-lon inner fold (field 9) keeps the node windows. -/
theorem denseLons_fold_rel (block : Block) (p₀ : Int × List BlockNode × Nat) (d : List Nat) :
    (∀ p₁, foldPacked varint
        (fun (p : Int × List BlockNode × Nat) x =>
          let a := wrap64 (p.1 + x)
          let nano := wrap64 (block.lonOffset + wrap64 (block.granularity * a))
          match setAt p.2.1 p.2.2 (fun nd => { nd with lonNano := nano }) with
          | none => .panic
          | some ns => .cont (a, ns, p.2.2 + 1))
        p₀ d = .ok p₁ → ∀ K, ndWindows K p₀.2.1 → ndWindows K p₁.2.1) ∧
    (∀ p₁ e, foldPacked varint
        (fun (p : Int × List BlockNode × Nat) x =>
          let a := wrap64 (p.1 + x)
          let nano := wrap64 (block.lonOffset + wrap64 (block.granularity * a))
          match setAt p.2.1 p.2.2 (fun nd => { nd with lonNano := nano }) with
          | none => .panic
          | some ns => .cont (a, ns, p.2.2 + 1))
        p₀ d = .err p₁ e → ∀ K, ndWindows K p₀.2.1 → ndWindows K p₁.2.1) := by
  apply foldPacked_rel
    (R := fun (p p₁ : Int × List BlockNode × Nat) => ∀ K, ndWindows K p.2.1 → ndWindows K p₁.2.1)
    (fun p K h => h) (fun _ _ _ h1 h2 K h => h2 K (h1 K h))
  · intro pp x pp₁ hstep
    dsimp only at hstep
    split at hstep
    · simp at hstep
    · rename_i ns hset
      simp only [Vres.cont.injEq] at hstep
      subst hstep
      exact ndWindows_setAt hset (fun nd => ⟨ndSetLon_sset nd _, ndSetLon_send nd _⟩)
  · intro pp x pp₁ e hstep
    dsimp only at hstep
    split at hstep <;> simp at hstep

end Osm

namespace Osm

/-- getD of a list at the index just set. -/
theorem getD_set_self {α : Type} [Inhabited α] (l : List α) (i : Nat) (v : α)
    (h : i < l.length) : (l.set i v).getD i default = v := by
  rw [List.getD_eq_getElem _ default (by simpa using h)]
  rw [List.getElem_set_self]

/-- Projections of the terminator update of the keys_vals cursor state. -/
theorem kvTerm_nodes (s : DenseKV) :
    ({ s with nodeIdx := s.nodeIdx + 1, first := false } : DenseKV).nodes = s.nodes := rfl

theorem kvTerm_nodeStrings (s : DenseKV) :
    ({ s with nodeIdx := s.nodeIdx + 1, first := false } : DenseKV).nodeStrings =
      s.nodeStrings := rfl

theorem kvTerm_stringIdx (s : DenseKV) :
    ({ s with nodeIdx := s.nodeIdx + 1, first := false } : DenseKV).stringIdx =
      s.stringIdx := rfl

theorem kvTerm_first (s : DenseKV) :
    ({ s with nodeIdx := s.nodeIdx + 1, first := false } : DenseKV).first = false := rfl

/-- Projections of the write update of the keys_vals cursor state. -/
theorem kvFill_nodes (a : List BlockNode) (b : List Nat) (c d : Nat) (e f : Bool) :
    ({ nodes := a, nodeStrings := b, stringIdx := c, nodeIdx := d, which := e, first := f } :
      DenseKV).nodes = a := rfl

theorem kvFill_nodeStrings (a : List BlockNode) (b : List Nat) (c d : Nat) (e f : Bool) :
    ({ nodes := a, nodeStrings := b, stringIdx := c, nodeIdx := d, which := e, first := f } :
      DenseKV).nodeStrings = b := rfl

theorem kvFill_stringIdx (a : List BlockNode) (b : List Nat) (c d : Nat) (e f : Bool) :
    ({ nodes := a, nodeStrings := b, stringIdx := c, nodeIdx := d, which := e, first := f } :
      DenseKV).stringIdx = c := rfl

theorem kvFill_nodeIdx (a : List BlockNode) (b : List Nat) (c d : Nat) (e f : Bool) :
    ({ nodes := a, nodeStrings := b, stringIdx := c, nodeIdx := d, which := e, first := f } :
      DenseKV).nodeIdx = d := rfl

theorem kvFill_first (a : List BlockNode) (b : List Nat) (c d : Nat) (e f : Bool) :
    ({ nodes := a, nodeStrings := b, stringIdx := c, nodeIdx := d, which := e, first := f } :
      DenseKV).first = f := rfl

/-- One keys_vals step never reports an error. -/
theorem denseKV_step_noerr (s s₁ : DenseKV) (x : Nat) (e : GoErr) :
    denseKeysValsStep s x ≠ .err s₁ e := by
  intro h
  unfold denseKeysValsStep at h
  split at h
  · simp at h
  · dsimp only at h
    rcases hset : (if s.first = false then
        match setAt s.nodes s.nodeIdx (fun nd => { nd with sset := s.stringIdx }) with
        | some ns => some (ns, true)
        | none => none
      else some (s.nodes, s.first)) with - | p
    · rw [hset] at h
      simp at h
    · rw [hset] at h
      dsimp only at h
      split at h
      · split at h
        · simp at h
        · simp at h
      · simp at h

/-- One keys_vals step keeps the length of the string array. -/
theorem denseKV_step_len (s s₁ : DenseKV) (x : Nat)
    (h : denseKeysValsStep s x = .cont s₁) :
    s₁.nodeStrings.length = s.nodeStrings.length := by
  unfold denseKeysValsStep at h
  split at h
  · simp only [Vres.cont.injEq] at h
    subst h
    rw [kvTerm_nodeStrings]
  · dsimp only at h
    rcases hset : (if s.first = false then
        match setAt s.nodes s.nodeIdx (fun nd => { nd with sset := s.stringIdx }) with
        | some ns => some (ns, true)
        | none => none
      else some (s.nodes, s.first)) with - | p
    · rw [hset] at h
      simp at h
    · rw [hset] at h
      dsimp only at h
      split at h
      · split at h
        · simp at h
        · rename_i hlt nodes2 hset2
          simp only [Vres.cont.injEq] at h
          subst h
          rw [kvFill_nodeStrings, List.length_set]
      · simp at h

end Osm

namespace Osm

/-- One keys_vals step preserves the cursor invariant: the write cursor
stays within the string array, every node window is ordered and bounded,
and while `first` is set the current node's window start is at most the
cursor.  The no-wrap bound is taken from the post state. -/
theorem denseKV_step_inv (s s₁ : DenseKV) (x : Nat)
    (hInv : s.stringIdx ≤ s.nodeStrings.length ∧
      ndWindows s.nodeStrings.length s.nodes ∧
      (s.first = true → s.nodeIdx < s.nodes.length ∧
        (s.nodes.getD s.nodeIdx default).sset ≤ s.stringIdx))
    (hB : s₁.nodeStrings.length < 2 ^ 32)
    (h : denseKeysValsStep s x = .cont s₁) :
    s₁.stringIdx ≤ s₁.nodeStrings.length ∧
      ndWindows s₁.nodeStrings.length s₁.nodes ∧
      (s₁.first = true → s₁.nodeIdx < s₁.nodes.length ∧
        (s₁.nodes.getD s₁.nodeIdx default).sset ≤ s₁.stringIdx) := by
  obtain ⟨h1, h2, h3⟩ := hInv
  unfold denseKeysValsStep at h
  split at h
  · simp only [Vres.cont.injEq] at h
    subst h
    refine ⟨?_, ?_, ?_⟩
    · rw [kvTerm_stringIdx, kvTerm_nodeStrings]
      exact h1
    · rw [kvTerm_nodeStrings, kvTerm_nodes]
      exact h2
    · rw [kvTerm_first]
      intro hc
      exact absurd hc (by simp)
  · dsimp only at h
    by_cases hf : s.first = false
    · rw [if_pos hf] at h
      rcases hset : setAt s.nodes s.nodeIdx (fun nd => { nd with sset := s.stringIdx })
        with - | ns
      · rw [hset] at h
        simp at h
      · rw [hset] at h
        dsimp only at h
        split at h
        · split at h
          · simp at h
          · rename_i hlt nodes2 hset2
            simp only [Vres.cont.injEq] at h
            subst h
            obtain ⟨hIdx, hns⟩ := setAt_some hset
            obtain ⟨hIdx2, hn2⟩ := setAt_some hset2
            subst hns
            have hgd : (s.nodes.set s.nodeIdx
                { s.nodes.getD s.nodeIdx default with sset := s.stringIdx }).getD
                s.nodeIdx default =
                { s.nodes.getD s.nodeIdx default with sset := s.stringIdx } :=
              getD_set_self _ _ _ hIdx
            rw [hgd, List.set_set] at hn2
            rw [kvFill_nodeStrings] at hB
            rw [List.length_set] at hB
            have hmod : (s.stringIdx + 1) % 2 ^ 32 = s.stringIdx + 1 :=
              Nat.mod_eq_of_lt (by omega)
            refine ⟨?_, ?_, ?_⟩
            · rw [kvFill_stringIdx, kvFill_nodeStrings, List.length_set, hmod]
              omega
            · rw [kvFill_nodeStrings, kvFill_nodes, List.length_set]
              intro nd hmem
              rw [hn2] at hmem
              rcases List.mem_or_eq_of_mem_set hmem with hmem' | hnd
              · exact h2 nd hmem'
              · subst hnd
                rw [ndSetSend_sset, ndSetSset_sset, ndSetSend_send, hmod]
                omega
            · rw [kvFill_first]
              intro _
              rw [kvFill_nodes, kvFill_nodeIdx, kvFill_stringIdx, hn2]
              constructor
              · rw [List.length_set]
                exact hIdx
              · rw [getD_set_self _ _ _ (by rwa [List.length_set] at hIdx2)]
                rw [ndSetSend_sset, ndSetSset_sset, hmod]
                omega
        · simp at h
    · rw [if_neg hf] at h
      dsimp only at h
      split at h
      · split at h
        · simp at h
        · rename_i hlt nodes2 hset2
          simp only [Vres.cont.injEq] at h
          subst h
          have hft : s.first = true := by
            cases hfv : s.first
            · exact absurd hfv hf
            · rfl
          obtain ⟨hIdx, hss⟩ := h3 hft
          obtain ⟨hIdx2, hn2⟩ := setAt_some hset2
          rw [kvFill_nodeStrings] at hB
          rw [List.length_set] at hB
          have hmod : (s.stringIdx + 1) % 2 ^ 32 = s.stringIdx + 1 :=
            Nat.mod_eq_of_lt (by omega)
          refine ⟨?_, ?_, ?_⟩
          · rw [kvFill_stringIdx, kvFill_nodeStrings, List.length_set, hmod]
            omega
          · rw [kvFill_nodeStrings, kvFill_nodes, List.length_set]
            intro nd hmem
            rw [hn2] at hmem
            rcases List.mem_or_eq_of_mem_set hmem with hmem' | hnd
            · exact h2 nd hmem'
            · subst hnd
              have hold : s.nodes.getD s.nodeIdx default ∈ s.nodes := by
                rw [List.getD_eq_getElem s.nodes default hIdx]
                exact List.getElem_mem hIdx
              have := h2 _ hold
              rw [ndSetSend_sset, ndSetSend_send, hmod]
              omega
          · rw [kvFill_first]
            intro _
            rw [kvFill_nodes, kvFill_nodeIdx, kvFill_stringIdx, hn2]
            constructor
            · rw [List.length_set]
              exact hIdx
            · rw [getD_set_self _ _ _ hIdx2]
              rw [ndSetSend_sset, hmod]
              omega
      · simp at h

end Osm

namespace Osm

/-- Projections of the DenseS updates of the dense fill pass. -/
theorem dsSet1_nodeStrings (s : DenseS) (a : Int) (ns : List BlockNode) :
    ({ s with idAdder := a, nodes := ns } : DenseS).nodeStrings = s.nodeStrings := rfl

theorem dsSet1_nodes (s : DenseS) (a : Int) (ns : List BlockNode) :
    ({ s with idAdder := a, nodes := ns } : DenseS).nodes = ns := rfl

theorem dsSet8_nodeStrings (s : DenseS) (a : Int) (ns : List BlockNode) :
    ({ s with latAdder := a, nodes := ns } : DenseS).nodeStrings = s.nodeStrings := rfl

theorem dsSet8_nodes (s : DenseS) (a : Int) (ns : List BlockNode) :
    ({ s with latAdder := a, nodes := ns } : DenseS).nodes = ns := rfl

theorem dsSet9_nodeStrings (s : DenseS) (a : Int) (ns : List BlockNode) :
    ({ s with lonAdder := a, nodes := ns } : DenseS).nodeStrings = s.nodeStrings := rfl

theorem dsSet9_nodes (s : DenseS) (a : Int) (ns : List BlockNode) :
    ({ s with lonAdder := a, nodes := ns } : DenseS).nodes = ns := rfl

theorem dsSet10_nodeStrings (s : DenseS) (ns : List BlockNode) (ss : List Nat) :
    ({ s with nodes := ns, nodeStrings := ss } : DenseS).nodeStrings = ss := rfl

theorem dsSet10_nodes (s : DenseS) (ns : List BlockNode) (ss : List Nat) :
    ({ s with nodes := ns, nodeStrings := ss } : DenseS).nodes = ns := rfl

/-- Projections of the initial keys_vals cursor state. -/
theorem kvInit_nodes (a : List BlockNode) (b : List Nat) :
    ({ nodes := a, nodeStrings := b } : DenseKV).nodes = a := rfl

theorem kvInit_nodeStrings (a : List BlockNode) (b : List Nat) :
    ({ nodes := a, nodeStrings := b } : DenseKV).nodeStrings = b := rfl

theorem kvInit_stringIdx (a : List BlockNode) (b : List Nat) :
    ({ nodes := a, nodeStrings := b } : DenseKV).stringIdx = 0 := rfl

theorem kvInit_first (a : List BlockNode) (b : List Nat) :
    ({ nodes := a, nodeStrings := b } : DenseKV).first = false := rfl

/-- Each dense fill visitor step keeps the length of the string array,
on its cont and err exits. -/
theorem denseFillVisit_len (block : Block) (s : DenseS) (f : Field) (s₁ : DenseS)
    (hv : denseFillVisit block s f = .cont s₁ ∨ ∃ e, denseFillVisit block s f = .err s₁ e) :
    s₁.nodeStrings.length = s.nodeStrings.length := by
  unfold denseFillVisit at hv
  dsimp only at hv
  by_cases h1 : f.num = 1
  · rw [if_pos h1] at hv
    rcases hv with hv | ⟨e, hv⟩
    · split at hv
      · rename_i p heq
        simp only [Vres.cont.injEq] at hv
        subst hv
        rw [dsSet1_nodeStrings]
      · simp at hv
      · simp at hv
    · split at hv
      · simp at hv
      · rename_i p e₁ heq
        simp only [Vres.err.injEq] at hv
        obtain ⟨hv1, -⟩ := hv
        subst hv1
        rw [dsSet1_nodeStrings]
      · simp at hv
  · rw [if_neg h1] at hv
    by_cases h8 : f.num = 8
    · rw [if_pos h8] at hv
      rcases hv with hv | ⟨e, hv⟩
      · split at hv
        · rename_i p heq
          simp only [Vres.cont.injEq] at hv
          subst hv
          rw [dsSet8_nodeStrings]
        · simp at hv
        · simp at hv
      · split at hv
        · simp at hv
        · rename_i p e₁ heq
          simp only [Vres.err.injEq] at hv
          obtain ⟨hv1, -⟩ := hv
          subst hv1
          rw [dsSet8_nodeStrings]
        · simp at hv
    · rw [if_neg h8] at hv
      by_cases h9 : f.num = 9
      · rw [if_pos h9] at hv
        rcases hv with hv | ⟨e, hv⟩
        · split at hv
          · rename_i p heq
            simp only [Vres.cont.injEq] at hv
            subst hv
            rw [dsSet9_nodeStrings]
          · simp at hv
          · simp at hv
        · split at hv
          · simp at hv
          · rename_i p e₁ heq
            simp only [Vres.err.injEq] at hv
            obtain ⟨hv1, -⟩ := hv
            subst hv1
            rw [dsSet9_nodeStrings]
          · simp at hv
      · rw [if_neg h9] at hv
        by_cases h10 : f.num = 10
        · rw [if_pos h10] at hv
          have hkv := @foldPacked_rel Nat DenseKV uvarint denseKeysValsStep
            (fun a a₁ => a₁.nodeStrings.length = a.nodeStrings.length)
            (fun a => rfl) (fun a c e hh1 hh2 => hh2.trans hh1)
            (fun a x a₁ hh => denseKV_step_len a a₁ x hh)
            (fun a x a₁ e hh => absurd hh (denseKV_step_noerr a a₁ x e))
            f.data { nodes := s.nodes, nodeStrings := s.nodeStrings }
          rcases hv with hv | ⟨e, hv⟩
          · split at hv
            · rename_i kv heq
              simp only [Vres.cont.injEq] at hv
              subst hv
              rw [dsSet10_nodeStrings]
              rw [hkv.1 kv heq, kvInit_nodeStrings]
            · simp at hv
            · simp at hv
          · split at hv
            · simp at hv
            · rename_i kv e₁ heq
              simp only [Vres.err.injEq] at hv
              obtain ⟨hv1, -⟩ := hv
              subst hv1
              rw [dsSet10_nodeStrings]
              rw [hkv.2 kv e₁ heq, kvInit_nodeStrings]
            · simp at hv
        · rw [if_neg h10] at hv
          rcases hv with hv | ⟨e, hv⟩
          · simp only [Vres.cont.injEq] at hv
            subst hv
            rfl
          · simp at hv

end Osm

namespace Osm

/-- Each dense fill visitor step keeps every node window ordered and
bounded by the string array length (the no-wrap bound is taken from the
post state), on its cont and err exits. -/
theorem denseFillVisit_inv (block : Block) (s : DenseS) (f : Field) (s₁ : DenseS)
    (hInv : ndWindows s.nodeStrings.length s.nodes)
    (hB : s₁.nodeStrings.length < 2 ^ 32)
    (hv : denseFillVisit block s f = .cont s₁ ∨ ∃ e, denseFillVisit block s f = .err s₁ e) :
    ndWindows s₁.nodeStrings.length s₁.nodes := by
  unfold denseFillVisit at hv
  dsimp only at hv
  by_cases h1 : f.num = 1
  · rw [if_pos h1] at hv
    rcases hv with hv | ⟨e, hv⟩
    · split at hv
      · rename_i p heq
        simp only [Vres.cont.injEq] at hv
        subst hv
        rw [dsSet1_nodeStrings, dsSet1_nodes]
        exact (denseIds_fold_rel (s.idAdder, s.nodes, 0) f.data).1 p heq
          s.nodeStrings.length hInv
      · simp at hv
      · simp at hv
    · split at hv
      · simp at hv
      · rename_i p e₁ heq
        simp only [Vres.err.injEq] at hv
        obtain ⟨hv1, -⟩ := hv
        subst hv1
        rw [dsSet1_nodeStrings, dsSet1_nodes]
        exact (denseIds_fold_rel (s.idAdder, s.nodes, 0) f.data).2 p e₁ heq
          s.nodeStrings.length hInv
      · simp at hv
  · rw [if_neg h1] at hv
    by_cases h8 : f.num = 8
    · rw [if_pos h8] at hv
      rcases hv with hv | ⟨e, hv⟩
      · split at hv
        · rename_i p heq
          simp only [Vres.cont.injEq] at hv
          subst hv
          rw [dsSet8_nodeStrings, dsSet8_nodes]
          exact (denseLats_fold_rel block (s.latAdder, s.nodes, 0) f.data).1 p heq
            s.nodeStrings.length hInv
        · simp at hv
        · simp at hv
      · split at hv
        · simp at hv
        · rename_i p e₁ heq
          simp only [Vres.err.injEq] at hv
          obtain ⟨hv1, -⟩ := hv
          subst hv1
          rw [dsSet8_nodeStrings, dsSet8_nodes]
          exact (denseLats_fold_rel block (s.latAdder, s.nodes, 0) f.data).2 p e₁ heq
            s.nodeStrings.length hInv
        · simp at hv
    · rw [if_neg h8] at hv
      by_cases h9 : f.num = 9
      · rw [if_pos h9] at hv
        rcases hv with hv | ⟨e, hv⟩
        · split at hv
          · rename_i p heq
            simp only [Vres.cont.injEq] at hv
            subst hv
            rw [dsSet9_nodeStrings, dsSet9_nodes]
            exact (denseLons_fold_rel block (s.lonAdder, s.nodes, 0) f.data).1 p heq
              s.nodeStrings.length hInv
          · simp at hv
          · simp at hv
        · split at hv
          · simp at hv
          · rename_i p e₁ heq
            simp only [Vres.err.injEq] at hv
            obtain ⟨hv1, -⟩ := hv
            subst hv1
            rw [dsSet9_nodeStrings, dsSet9_nodes]
            exact (denseLons_fold_rel block (s.lonAdder, s.nodes, 0) f.data).2 p e₁ heq
              s.nodeStrings.length hInv
          · simp at hv
      · rw [if_neg h9] at hv
        by_cases h10 : f.num = 10
        · rw [if_pos h10] at hv
          have hkv := @foldPacked_inv Nat DenseKV uvarint denseKeysValsStep
            (fun a a₁ => a₁.nodeStrings.length = a.nodeStrings.length)
            (fun a => a.nodeStrings.length < 2 ^ 32)
            (fun a => a.stringIdx ≤ a.nodeStrings.length ∧
              ndWindows a.nodeStrings.length a.nodes ∧
              (a.first = true → a.nodeIdx < a.nodes.length ∧
                (a.nodes.getD a.nodeIdx default).sset ≤ a.stringIdx))
            (fun a => rfl) (fun a c e hh1 hh2 => hh2.trans hh1)
            (fun a x a₁ hh => denseKV_step_len a a₁ x hh)
            (fun a x a₁ e hh => absurd hh (denseKV_step_noerr a a₁ x e))
            (fun a c hh hb => by omega)
            (fun a x a₁ hi hb hstep => denseKV_step_inv a a₁ x hi hb hstep)
            (fun a x a₁ e hi hb hstep => absurd hstep (denseKV_step_noerr a a₁ x e))
            f.data { nodes := s.nodes, nodeStrings := s.nodeStrings }
            ⟨by rw [kvInit_stringIdx]; exact Nat.zero_le _,
             by rw [kvInit_nodes, kvInit_nodeStrings]; exact hInv,
             by rw [kvInit_first]; intro hc; exact absurd hc (by simp)⟩
          rcases hv with hv | ⟨e, hv⟩
          · split at hv
            · rename_i kv heq
              simp only [Vres.cont.injEq] at hv
              subst hv
              rw [dsSet10_nodeStrings] at hB ⊢
              rw [dsSet10_nodes]
              exact (hkv.1 kv heq hB).2.1
            · simp at hv
            · simp at hv
          · split at hv
            · simp at hv
            · rename_i kv e₁ heq
              simp only [Vres.err.injEq] at hv
              obtain ⟨hv1, -⟩ := hv
              subst hv1
              rw [dsSet10_nodeStrings] at hB ⊢
              rw [dsSet10_nodes]
              exact (hkv.2 kv e₁ heq hB).2.1
            · simp at hv
        · rw [if_neg h10] at hv
          rcases hv with hv | ⟨e, hv⟩
          · simp only [Vres.cont.injEq] at hv
            subst hv
            exact hInv
          · simp at hv

end Osm

namespace Osm

/-- Projections of the node-arrays record update of a Block. -/
theorem setNs_dataKind (b : Block) (ns : List BlockNode) (ss : List Nat) :
    ({ b with nodes := ns, nodeStrings := ss } : Block).dataKind = b.dataKind := rfl

theorem setNs_nodes (b : Block) (ns : List BlockNode) (ss : List Nat) :
    ({ b with nodes := ns, nodeStrings := ss } : Block).nodes = ns := rfl

theorem setNs_nodeStrings (b : Block) (ns : List BlockNode) (ss : List Nat) :
    ({ b with nodes := ns, nodeStrings := ss } : Block).nodeStrings = ss := rfl

theorem setNs_ways (b : Block) (ns : List BlockNode) (ss : List Nat) :
    ({ b with nodes := ns, nodeStrings := ss } : Block).ways = b.ways := rfl

theorem setNs_wayStrings (b : Block) (ns : List BlockNode) (ss : List Nat) :
    ({ b with nodes := ns, nodeStrings := ss } : Block).wayStrings = b.wayStrings := rfl

theorem setNs_wayRefs (b : Block) (ns : List BlockNode) (ss : List Nat) :
    ({ b with nodes := ns, nodeStrings := ss } : Block).wayRefs = b.wayRefs := rfl

theorem setNs_relations (b : Block) (ns : List BlockNode) (ss : List Nat) :
    ({ b with nodes := ns, nodeStrings := ss } : Block).relations = b.relations := rfl

theorem setNs_relationStrings (b : Block) (ns : List BlockNode) (ss : List Nat) :
    ({ b with nodes := ns, nodeStrings := ss } : Block).relationStrings = b.relationStrings := rfl

theorem setNs_relationMemberRefs (b : Block) (ns : List BlockNode) (ss : List Nat) :
    ({ b with nodes := ns, nodeStrings := ss } : Block).relationMemberRefs =
      b.relationMemberRefs := rfl

/-- Projections of the initial dense fill state. -/
theorem dsInit_nodes (a : List BlockNode) (b : List Nat) :
    ({ nodes := a, nodeStrings := b } : DenseS).nodes = a := rfl

theorem dsInit_nodeStrings (a : List BlockNode) (b : List Nat) :
    ({ nodes := a, nodeStrings := b } : DenseS).nodeStrings = b := rfl

/-- procDenseNodes preserves the data kind, grows the arrays
monotonically and keeps every stored window in bounds (given the final
arrays are below the uint32 wrap), on both exits. -/
theorem procDenseNodes_pres (what : What) (d : List Nat) (b : Block) :
    (∀ b₁, procDenseNodes what d b = .ok b₁ →
      b₁.dataKind = b.dataKind ∧ lensLE b b₁ ∧
      (BlockWindowsOK b → lensBound b₁ → BlockWindowsOK b₁)) ∧
    (∀ b₁ e, procDenseNodes what d b = .err b₁ e →
      b₁.dataKind = b.dataKind ∧ lensLE b b₁ ∧
      (BlockWindowsOK b → lensBound b₁ → BlockWindowsOK b₁)) := by
  constructor
  · intro b₁ h
    unfold procDenseNodes at h
    split at h
    · simp at h
    · simp at h
    · rename_i numNodes numStrings hcount
      split at h
      · simp at h
      · simp at h
      · rename_i st hfill
        simp only [Fres.ok.injEq] at h
        subst h
        refine ⟨setNs_dataKind b _ _, ?_, ?_⟩
        · refine ⟨?_, ?_, ?_, ?_, ?_⟩
          · rw [setNs_nodeStrings, List.length_append]
            omega
          · rw [setNs_wayStrings]
          · rw [setNs_wayRefs]
          · rw [setNs_relationStrings]
          · rw [setNs_relationMemberRefs]
        · intro hw hbound
          obtain ⟨hb1, hb2, hb3, hb4, hb5⟩ := hbound
          rw [setNs_nodeStrings, List.length_append] at hb1
          have hBst : st.nodeStrings.length < 2 ^ 32 := by omega
          have hinv := foldFields_inv
            (R := fun (a a₁ : DenseS) => a₁.nodeStrings.length = a.nodeStrings.length)
            (fun a => a.nodeStrings.length < 2 ^ 32)
            (fun a => ndWindows a.nodeStrings.length a.nodes)
            (fun a => rfl) (fun a c e hh1 hh2 => hh2.trans hh1)
            (fun a f a₁ hh => denseFillVisit_len b a f a₁ (Or.inl hh))
            (fun a f a₁ e hh => denseFillVisit_len b a f a₁ (Or.inr ⟨e, hh⟩))
            (fun a c hh hbd => by omega)
            (fun a f a₁ hi hbd hh => denseFillVisit_inv b a f a₁ hi hbd (Or.inl hh))
            (fun a f a₁ e hi hbd hh => denseFillVisit_inv b a f a₁ hi hbd (Or.inr ⟨e, hh⟩))
            d { nodes := List.replicate numNodes {}, nodeStrings := List.replicate numStrings 0 }
            (by
              show ndWindows (List.replicate numStrings 0).length
                (List.replicate numNodes ({} : BlockNode))
              intro nd hmem
              have := List.eq_of_mem_replicate hmem
              subst this
              exact ⟨Nat.le_refl 0, Nat.zero_le _⟩)
          have hst := hinv.1 st hfill hBst
          refine ⟨?_, ?_, ?_⟩
          · intro nd hmem
            rw [setNs_nodes] at hmem
            rw [setNs_nodeStrings, List.length_append]
            rcases List.mem_append.mp hmem with hold | hnew
            · have := hw.1 nd hold
              omega
            · have := hst nd hnew
              omega
          · intro w hmem
            rw [setNs_ways] at hmem
            rw [setNs_wayStrings, setNs_wayRefs]
            exact hw.2.1 w hmem
          · intro r hmem
            rw [setNs_relations] at hmem
            rw [setNs_relationStrings, setNs_relationMemberRefs]
            exact hw.2.2 r hmem
  · intro b₁ e h
    unfold procDenseNodes at h
    split at h
    · simp only [Fres.err.injEq] at h
      obtain ⟨h1, -⟩ := h
      subst h1
      exact ⟨rfl, lensLE_refl b, fun hw _ => hw⟩
    · simp at h
    · rename_i numNodes numStrings hcount
      split at h
      · simp only [Fres.err.injEq] at h
        obtain ⟨h1, -⟩ := h
        subst h1
        exact ⟨rfl, lensLE_refl b, fun hw _ => hw⟩
      · simp at h
      · simp at h

end Osm

namespace Osm

/-- Setting only the data kind is a blockPres step. -/
theorem blockPres_setKind (b : Block) (k : Int) : blockPres b { b with dataKind := k } :=
  ⟨lensLE_refl b, fun _ hw => hw⟩

/-- Reshape the entity-decoder preservation triple into blockPres. -/
theorem blockPres_of_pres {b b₁ : Block}
    (h : b₁.dataKind = b.dataKind ∧ lensLE b b₁ ∧
      (BlockWindowsOK b → lensBound b₁ → BlockWindowsOK b₁)) :
    blockPres b b₁ :=
  ⟨h.2.1, fun hb hw => h.2.2 hw hb⟩

/-- Each primitive-group visitor step is a blockPres step, on its cont
and err exits. -/
theorem procGroupVisit_pres (what : What) (b : Block) (f : Field) (b₁ : Block)
    (hv : procGroupVisit what b f = .cont b₁ ∨ ∃ e, procGroupVisit what b f = .err b₁ e) :
    blockPres b b₁ := by
  unfold procGroupVisit at hv
  by_cases h1 : f.num = 1
  · rw [if_pos h1] at hv
    rcases hv with hv | ⟨e, hv⟩
    · simp at hv
    · simp only [Vres.err.injEq] at hv
      obtain ⟨hv1, -⟩ := hv
      subst hv1
      exact blockPres_refl b
  · rw [if_neg h1] at hv
    by_cases h2 : f.num = 2
    · rw [if_pos h2] at hv
      dsimp only at hv
      by_cases hwh : what = What.everything ∨ what = What.nodes
      · rw [if_pos hwh] at hv
        rcases hv with hv | ⟨e, hv⟩
        · split at hv
          · rename_i bb heq
            simp only [Vres.cont.injEq] at hv
            subst hv
            exact blockPres_trans (blockPres_setKind b 0)
              (blockPres_of_pres ((procDenseNodes_pres what f.data _).1 bb heq))
          · rename_i bb e₁ heq
            simp only [Vres.cont.injEq] at hv
            subst hv
            exact blockPres_trans (blockPres_setKind b 0)
              (blockPres_of_pres ((procDenseNodes_pres what f.data _).2 bb e₁ heq))
          · simp at hv
        · split at hv <;> simp at hv
      · rw [if_neg hwh] at hv
        rcases hv with hv | ⟨e, hv⟩
        · simp only [Vres.cont.injEq] at hv
          subst hv
          exact blockPres_setKind b 0
        · simp at hv
    · rw [if_neg h2] at hv
      by_cases h3 : f.num = 3
      · rw [if_pos h3] at hv
        dsimp only at hv
        by_cases hwh : what = What.everything ∨ what = What.ways
        · rw [if_pos hwh] at hv
          rcases hv with hv | ⟨e, hv⟩
          · split at hv
            · rename_i bb heq
              simp only [Vres.cont.injEq] at hv
              subst hv
              exact blockPres_trans (blockPres_setKind b 1)
                (blockPres_of_pres ((procWay_pres what f.data _).1 bb heq))
            · rename_i bb e₁ heq
              simp only [Vres.cont.injEq] at hv
              subst hv
              exact blockPres_trans (blockPres_setKind b 1)
                (blockPres_of_pres ((procWay_pres what f.data _).2 bb e₁ heq))
            · simp at hv
          · split at hv <;> simp at hv
        · rw [if_neg hwh] at hv
          rcases hv with hv | ⟨e, hv⟩
          · simp only [Vres.cont.injEq] at hv
            subst hv
            exact blockPres_setKind b 1
          · simp at hv
      · rw [if_neg h3] at hv
        by_cases h4 : f.num = 4
        · rw [if_pos h4] at hv
          dsimp only at hv
          by_cases hwh : what = What.everything ∨ what = What.relations
          · rw [if_pos hwh] at hv
            rcases hv with hv | ⟨e, hv⟩
            · split at hv
              · rename_i bb heq
                simp only [Vres.cont.injEq] at hv
                subst hv
                exact blockPres_trans (blockPres_setKind b 2)
                  (blockPres_of_pres ((procRelation_pres what f.data _).1 bb heq))
              · rename_i bb e₁ heq
                simp only [Vres.cont.injEq] at hv
                subst hv
                exact blockPres_trans (blockPres_setKind b 2)
                  (blockPres_of_pres ((procRelation_pres what f.data _).2 bb e₁ heq))
              · simp at hv
            · split at hv <;> simp at hv
          · rw [if_neg hwh] at hv
            rcases hv with hv | ⟨e, hv⟩
            · simp only [Vres.cont.injEq] at hv
              subst hv
              exact blockPres_setKind b 2
            · simp at hv
        · rw [if_neg h4] at hv
          by_cases h5 : f.num = 5
          · rw [if_pos h5] at hv
            rcases hv with hv | ⟨e, hv⟩
            · simp only [Vres.cont.injEq] at hv
              subst hv
              exact blockPres_refl b
            · simp at hv
          · rw [if_neg h5] at hv
            rcases hv with hv | ⟨e, hv⟩
            · simp at hv
            · simp only [Vres.err.injEq] at hv
              obtain ⟨hv1, -⟩ := hv
              subst hv1
              exact blockPres_refl b

/-- A whole primitive group is a blockPres step, on both exits. -/
theorem procPrimativeGroup_pres (what : What) (g : List Nat) (b : Block) :
    (∀ b₁, procPrimativeGroup what g b = .ok b₁ → blockPres b b₁) ∧
    (∀ b₁ e, procPrimativeGroup what g b = .err b₁ e → blockPres b b₁) :=
  foldFields_rel blockPres_refl blockPres_trans3
    (fun s f s₁ h => procGroupVisit_pres what s f s₁ (Or.inl h))
    (fun s f s₁ e h => procGroupVisit_pres what s f s₁ (Or.inr ⟨e, h⟩))
    g b

/-- The sequence of primitive groups is a blockPres step, on both exits. -/
theorem procGroups_pres (what : What) (gs : List (List Nat)) (b : Block) :
    (∀ b₁, procGroups what gs b = .ok b₁ → blockPres b b₁) ∧
    (∀ b₁ e, procGroups what gs b = .err b₁ e → blockPres b b₁) := by
  induction gs generalizing b with
  | nil =>
    constructor
    · intro b₁ h
      simp only [procGroups, Fres.ok.injEq] at h
      subst h
      exact blockPres_refl b
    · intro b₁ e h
      simp [procGroups] at h
  | cons g gs ih =>
    constructor
    · intro b₁ h
      unfold procGroups at h
      split at h
      · rename_i bb heq
        exact blockPres_trans ((procPrimativeGroup_pres what g b).1 bb heq)
          ((ih bb).1 b₁ h)
      · simp at h
      · simp at h
    · intro b₁ e h
      unfold procGroups at h
      split at h
      · rename_i bb heq
        exact blockPres_trans ((procPrimativeGroup_pres what g b).1 bb heq)
          ((ih bb).2 b₁ e h)
      · rename_i bb e₁ heq
        simp only [Fres.err.injEq] at h
        obtain ⟨h1, -⟩ := h
        subst h1
        exact (procPrimativeGroup_pres what g b).2 bb e₁ heq
      · simp at h

end Osm

namespace Osm

/-- The header-field updates of procBlock are blockPres steps. -/
theorem blockPres_setGran (b : Block) (k : Int) : blockPres b { b with granularity := k } :=
  ⟨lensLE_refl b, fun _ hw => hw⟩

theorem blockPres_setDateGran (b : Block) (k : Int) :
    blockPres b { b with dateGranularity := k } :=
  ⟨lensLE_refl b, fun _ hw => hw⟩

theorem blockPres_setLatOff (b : Block) (k : Int) : blockPres b { b with latOffset := k } :=
  ⟨lensLE_refl b, fun _ hw => hw⟩

theorem blockPres_setLonOff (b : Block) (k : Int) : blockPres b { b with lonOffset := k } :=
  ⟨lensLE_refl b, fun _ hw => hw⟩

/-- procStringTable only rewrites the string table fields: a blockPres
step on both exits. -/
theorem procStringTable_pres (what : What) (d : List Nat) (b : Block) :
    (∀ b₁, procStringTable what d b = .ok b₁ → blockPres b b₁) ∧
    (∀ b₁ e, procStringTable what d b = .err b₁ e → blockPres b b₁) := by
  constructor
  · intro b₁ h
    unfold procStringTable at h
    split at h
    · simp at h
    · simp at h
    · rename_i count len hcnt
      split at h
      · rename_i ss heq
        simp only [Fres.ok.injEq] at h
        subst h
        exact ⟨lensLE_refl b, fun _ hw => hw⟩
      · rename_i ss e heq
        simp only [Fres.ok.injEq] at h
        subst h
        exact ⟨lensLE_refl b, fun _ hw => hw⟩
      · simp at h
  · intro b₁ e h
    unfold procStringTable at h
    split at h
    · simp only [Fres.err.injEq] at h
      obtain ⟨h1, -⟩ := h
      subst h1
      exact blockPres_refl b
    · simp at h
    · rename_i count len hcnt
      split at h <;> simp at h

/-- Each top-level procBlock visitor step is a blockPres step on the
carried block, on its cont and err exits. -/
theorem procBlockVisit_pres (what : What) (st : PBState) (f : Field) (st₁ : PBState)
    (hv : procBlockVisit what st f = .cont st₁ ∨ ∃ e, procBlockVisit what st f = .err st₁ e) :
    blockPres st.block st₁.block := by
  unfold procBlockVisit at hv
  by_cases h1 : f.num = 1
  · rw [if_pos h1] at hv
    rcases hv with hv | ⟨e, hv⟩
    · simp only [Vres.cont.injEq] at hv
      subst hv
      exact blockPres_refl st.block
    · simp at hv
  · rw [if_neg h1] at hv
    by_cases h2 : f.num = 2
    · rw [if_pos h2] at hv
      by_cases hdk : what = What.dataKinds
      · rw [if_pos hdk] at hv
        rcases hv with hv | ⟨e, hv⟩
        · split at hv
          · rename_i k heq
            simp only [Vres.cont.injEq] at hv
            subst hv
            exact blockPres_setKind st.block k
          · simp at hv
          · simp at hv
        · split at hv
          · simp at hv
          · rename_i k e₁ heq
            simp only [Vres.err.injEq] at hv
            obtain ⟨hv1, -⟩ := hv
            subst hv1
            exact blockPres_setKind st.block k
          · simp at hv
      · rw [if_neg hdk] at hv
        by_cases hs : what ≠ What.strings
        · rw [if_pos hs] at hv
          rcases hv with hv | ⟨e, hv⟩
          · simp only [Vres.cont.injEq] at hv
            subst hv
            exact blockPres_refl st.block
          · simp at hv
        · rw [if_neg hs] at hv
          rcases hv with hv | ⟨e, hv⟩
          · simp only [Vres.cont.injEq] at hv
            subst hv
            exact blockPres_refl st.block
          · simp at hv
    · rw [if_neg h2] at hv
      by_cases h17 : f.num = 17
      · rw [if_pos h17] at hv
        rcases hv with hv | ⟨e, hv⟩
        · simp only [Vres.cont.injEq] at hv
          subst hv
          exact blockPres_setGran st.block _
        · simp at hv
      · rw [if_neg h17] at hv
        by_cases h18 : f.num = 18
        · rw [if_pos h18] at hv
          rcases hv with hv | ⟨e, hv⟩
          · simp only [Vres.cont.injEq] at hv
            subst hv
            exact blockPres_setDateGran st.block _
          · simp at hv
        · rw [if_neg h18] at hv
          by_cases h19 : f.num = 19
          · rw [if_pos h19] at hv
            rcases hv with hv | ⟨e, hv⟩
            · simp only [Vres.cont.injEq] at hv
              subst hv
              exact blockPres_setLatOff st.block _
            · simp at hv
          · rw [if_neg h19] at hv
            by_cases h20 : f.num = 20
            · rw [if_pos h20] at hv
              rcases hv with hv | ⟨e, hv⟩
              · simp only [Vres.cont.injEq] at hv
                subst hv
                exact blockPres_setLonOff st.block _
              · simp at hv
            · rw [if_neg h20] at hv
              rcases hv with hv | ⟨e, hv⟩
              · simp at hv
              · simp only [Vres.err.injEq] at hv
                obtain ⟨hv1, -⟩ := hv
                subst hv1
                exact blockPres_refl st.block

end Osm

namespace Osm

/-- C6: every block that procBlock (Everything) produces has all its
stored windows in order and within the parallel arrays they index, so
the accessor slicing of StringAt, RefAt and MemberAt stays in bounds;
proved under the side condition that the final arrays stay below 2^32
entries, so the uint32 offsets do not wrap. -/
theorem c6_windows_in_bounds (data : List Nat) (b : Block)
    (h : procBlock What.everything data = .ok b) (hb : lensBound b) :
    BlockWindowsOK b := by
  unfold procBlock at h
  split at h
  · simp at h
  · simp at h
  · rename_i st hscan
    split at h
    · rename_i hne
      split at h
      · simp at h
      · simp at h
      · rename_i b' hstr
        split at h
        · rename_i b₂ hgr
          simp only [Fres.ok.injEq] at h
          subst h
          have p1 := (foldFields_rel
            (R := fun (a a₁ : PBState) => blockPres a.block a₁.block)
            (fun a => blockPres_refl a.block)
            (fun a c e hh1 hh2 => blockPres_trans hh1 hh2)
            (fun a f a₁ hh => procBlockVisit_pres What.everything a f a₁ (Or.inl hh))
            (fun a f a₁ e hh => procBlockVisit_pres What.everything a f a₁ (Or.inr ⟨e, hh⟩))
            data { block := initBlock }).1 st hscan
          have p2 := (procStringTable_pres What.everything st.stringTable st.block).1 b' hstr
          have p3 := (procGroups_pres What.everything st.primativeGroups b').1 _ hgr
          have chain := blockPres_trans (blockPres_trans p1 p2) p3
          exact chain.2 hb (by decide)
        · simp at h
        · simp at h
    · rename_i hne
      exact absurd (by decide : What.everything ≠ What.dataKinds) hne

/-- C6 witness: the three-group OSMData message decodes to c6block,
whose arrays are tiny, and every window is in bounds. -/
theorem c6_windows_in_bounds_witness :
    procBlock What.everything c6data = .ok c6block ∧ lensBound c6block ∧
      BlockWindowsOK c6block :=
  ⟨by decide, by decide, c6_windows_in_bounds c6data c6block (by decide) (by decide)⟩

end Osm

namespace Osm

/-- What one Everything-filter group visitor step does to the data kind:
subfields 2/3/4 set it to their kind, all other continuing fields leave
it alone. -/
theorem procGroupVisit_kind (b : Block) (f : Field) (b' : Block)
    (hv : procGroupVisit What.everything b f = .cont b') :
    (f.num = 2 → b'.dataKind = 0) ∧ (f.num = 3 → b'.dataKind = 1) ∧
    (f.num = 4 → b'.dataKind = 2) ∧
    (f.num ≠ 2 → f.num ≠ 3 → f.num ≠ 4 → b'.dataKind = b.dataKind) := by
  unfold procGroupVisit at hv
  by_cases h1 : f.num = 1
  · rw [if_pos h1] at hv
    simp at hv
  · rw [if_neg h1] at hv
    by_cases h2 : f.num = 2
    · rw [if_pos h2] at hv
      dsimp only at hv
      rw [if_pos (Or.inl rfl)] at hv
      split at hv
      · rename_i bb heq
        simp only [Vres.cont.injEq] at hv
        subst hv
        have hdk := ((procDenseNodes_pres What.everything f.data _).1 bb heq).1
        refine ⟨fun _ => hdk.trans rfl, fun h3 => absurd (h2.symm.trans h3) (by simp),
          fun h4 => absurd (h2.symm.trans h4) (by simp), fun hc _ _ => absurd h2 hc⟩
      · rename_i bb e₁ heq
        simp only [Vres.cont.injEq] at hv
        subst hv
        have hdk := ((procDenseNodes_pres What.everything f.data _).2 bb e₁ heq).1
        refine ⟨fun _ => hdk.trans rfl, fun h3 => absurd (h2.symm.trans h3) (by simp),
          fun h4 => absurd (h2.symm.trans h4) (by simp), fun hc _ _ => absurd h2 hc⟩
      · simp at hv
    · rw [if_neg h2] at hv
      by_cases h3 : f.num = 3
      · rw [if_pos h3] at hv
        dsimp only at hv
        rw [if_pos (Or.inl rfl)] at hv
        split at hv
        · rename_i bb heq
          simp only [Vres.cont.injEq] at hv
          subst hv
          have hdk := ((procWay_pres What.everything f.data _).1 bb heq).1
          refine ⟨fun hc => absurd (h3.symm.trans hc) (by simp), fun _ => hdk.trans rfl,
            fun h4 => absurd (h3.symm.trans h4) (by simp), fun _ hc _ => absurd h3 hc⟩
        · rename_i bb e₁ heq
          simp only [Vres.cont.injEq] at hv
          subst hv
          have hdk := ((procWay_pres What.everything f.data _).2 bb e₁ heq).1
          refine ⟨fun hc => absurd (h3.symm.trans hc) (by simp), fun _ => hdk.trans rfl,
            fun h4 => absurd (h3.symm.trans h4) (by simp), fun _ hc _ => absurd h3 hc⟩
        · simp at hv
      · rw [if_neg h3] at hv
        by_cases h4 : f.num = 4
        · rw [if_pos h4] at hv
          dsimp only at hv
          rw [if_pos (Or.inl rfl)] at hv
          split at hv
          · rename_i bb heq
            simp only [Vres.cont.injEq] at hv
            subst hv
            have hdk := ((procRelation_pres What.everything f.data _).1 bb heq).1
            refine ⟨fun hc => absurd (h4.symm.trans hc) (by simp),
              fun hc => absurd (h4.symm.trans hc) (by simp), fun _ => hdk.trans rfl,
              fun _ _ hc => absurd h4 hc⟩
          · rename_i bb e₁ heq
            simp only [Vres.cont.injEq] at hv
            subst hv
            have hdk := ((procRelation_pres What.everything f.data _).2 bb e₁ heq).1
            refine ⟨fun hc => absurd (h4.symm.trans hc) (by simp),
              fun hc => absurd (h4.symm.trans hc) (by simp), fun _ => hdk.trans rfl,
              fun _ _ hc => absurd h4 hc⟩
          · simp at hv
        · rw [if_neg h4] at hv
          by_cases h5 : f.num = 5
          · rw [if_pos h5] at hv
            simp only [Vres.cont.injEq] at hv
            subst hv
            exact ⟨fun hc => absurd hc h2, fun hc => absurd hc h3, fun hc => absurd hc h4,
              fun _ _ _ => rfl⟩
          · rw [if_neg h5] at hv
            simp at hv

end Osm

namespace Osm

/-- Running the Everything-filter group fold and the kind-collecting fold
over the same bytes: the collected kinds append to the accumulator and
the final data kind is the last collected kind (defaulting to the
incoming one). -/
theorem groupKinds_pairF :
    ∀ (fuel : Nat) (buf : List Nat) (b : Block) (acc : List Int) (b₁ : Block) (ks : List Int),
      foldFieldsF fuel (procGroupVisit What.everything) b buf = .ok b₁ →
      foldFieldsF fuel groupKindsVisit acc buf = .ok ks →
      ∃ tail, ks = acc ++ tail ∧ b₁.dataKind = tail.getLastD b.dataKind := by
  intro fuel
  induction fuel with
  | zero =>
    intro buf b acc b₁ ks h1 h2
    simp [foldFieldsF] at h1
  | succ fuel ih =>
    intro buf b acc b₁ ks h1 h2
    rcases hrf : readField buf with e | fr
    · simp only [foldFieldsF, hrf] at h1 h2
      by_cases he : e = GoErr.eof
      · rw [if_pos he] at h1 h2
        simp only [Fres.ok.injEq] at h1 h2
        subst h1
        subst h2
        exact ⟨[], (List.append_nil acc).symm, rfl⟩
      · rw [if_neg he] at h1
        simp at h1
    · obtain ⟨f, rest⟩ := fr
      simp only [foldFieldsF, hrf] at h1 h2
      cases hv : procGroupVisit What.everything b f with
      | cont b' =>
        rw [hv] at h1
        dsimp only at h1
        have hk := procGroupVisit_kind b f b' hv
        by_cases h2n : f.num = 2
        · rw [show groupKindsVisit acc f = .cont (acc ++ [0]) from by
            unfold groupKindsVisit
            rw [if_pos h2n]] at h2
          dsimp only at h2
          obtain ⟨tail, htks, hdk⟩ := ih rest b' (acc ++ [0]) b₁ ks h1 h2
          refine ⟨0 :: tail, ?_, ?_⟩
          · rw [htks, List.append_assoc]
            rfl
          · rw [List.getLastD_cons, hdk, hk.1 h2n]
        · by_cases h3n : f.num = 3
          · rw [show groupKindsVisit acc f = .cont (acc ++ [1]) from by
              unfold groupKindsVisit
              rw [if_neg h2n, if_pos h3n]] at h2
            dsimp only at h2
            obtain ⟨tail, htks, hdk⟩ := ih rest b' (acc ++ [1]) b₁ ks h1 h2
            refine ⟨1 :: tail, ?_, ?_⟩
            · rw [htks, List.append_assoc]
              rfl
            · rw [List.getLastD_cons, hdk, hk.2.1 h3n]
          · by_cases h4n : f.num = 4
            · rw [show groupKindsVisit acc f = .cont (acc ++ [2]) from by
                unfold groupKindsVisit
                rw [if_neg h2n, if_neg h3n, if_pos h4n]] at h2
              dsimp only at h2
              obtain ⟨tail, htks, hdk⟩ := ih rest b' (acc ++ [2]) b₁ ks h1 h2
              refine ⟨2 :: tail, ?_, ?_⟩
              · rw [htks, List.append_assoc]
                rfl
              · rw [List.getLastD_cons, hdk, hk.2.2.1 h4n]
            · rw [show groupKindsVisit acc f = .cont acc from by
                unfold groupKindsVisit
                rw [if_neg h2n, if_neg h3n, if_neg h4n]] at h2
              dsimp only at h2
              obtain ⟨tail, htks, hdk⟩ := ih rest b' acc b₁ ks h1 h2
              refine ⟨tail, htks, ?_⟩
              rw [hdk, hk.2.2.2 h2n h3n h4n]
      | err b' e =>
        rw [hv] at h1
        simp at h1
      | panic =>
        rw [hv] at h1
        simp at h1

/-- C3 (amended): under the Everything filter a primitive group's final
data kind is the kind of the LAST kind-bearing subfield it contains
(2 dense nodes, 3 ways, 4 relations), defaulting to the incoming kind
when the group carries none. -/
theorem c3_last_kind_wins (g : List Nat) (b b₁ : Block) (ks : List Int)
    (h : procPrimativeGroup What.everything g b = .ok b₁)
    (hk : groupKinds g = .ok ks) :
    b₁.dataKind = ks.getLastD b.dataKind := by
  obtain ⟨tail, htks, hdk⟩ := groupKinds_pairF (g.length + 1) g b [] b₁ ks h hk
  rw [htks, List.nil_append]
  exact hdk

end Osm

namespace Osm

/-- C3 witness: a group holding an empty dense-nodes subfield and then an
empty ways subfield ends with data kind 1 (ways), the last collected
kind. -/
theorem c3_last_kind_wins_witness :
    procPrimativeGroup What.everything [18, 0, 26, 0] initBlock =
      .ok { granularity := 100, dateGranularity := 1000, dataKind := 1,
            ways := [{ id := 0, sset := 0, send := 0, rset := 0, rend := 0 }] } ∧
    groupKinds [18, 0, 26, 0] = .ok [0, 1] ∧
    ({ granularity := 100, dateGranularity := 1000, dataKind := 1,
       ways := [{ id := 0, sset := 0, send := 0, rset := 0, rend := 0 }] } : Block).dataKind =
      ([0, 1] : List Int).getLastD initBlock.dataKind :=
  ⟨by decide, by decide,
   c3_last_kind_wins [18, 0, 26, 0] initBlock _ [0, 1] (by decide) (by decide)⟩

end Osm

namespace Osm

/-- Enough fuel makes the fuel amount irrelevant to the field fold. -/
theorem foldFieldsF_fuel_irrel {σ : Type} {visit : σ → Field → Vres σ} :
    ∀ fuel fuel' (buf : List Nat) (s : σ), buf.length < fuel → buf.length < fuel' →
      foldFieldsF fuel visit s buf = foldFieldsF fuel' visit s buf := by
  intro fuel
  induction fuel with
  | zero => intro fuel' buf s h; omega
  | succ fuel ih =>
    intro fuel' buf s hlen hlen'
    cases fuel' with
    | zero => omega
    | succ fuel₂ =>
      rcases hrf : readField buf with e | fr
      · simp only [foldFieldsF, hrf]
      · obtain ⟨f, rest⟩ := fr
        simp only [foldFieldsF, hrf]
        cases hv : visit s f with
        | cont s₁ =>
          simp only [hv]
          have hd := readField_length_lt hrf
          exact ih fuel₂ rest s₁ (by omega) (by omega)
        | err s₁ e₁ => simp only [hv]
        | panic => simp only [hv]

/-- Fuel above the buffer length computes the canonical foldFields. -/
theorem foldFieldsF_canon {σ : Type} {visit : σ → Field → Vres σ}
    (fuel : Nat) (buf : List Nat) (s : σ) (h : buf.length < fuel) :
    foldFieldsF fuel visit s buf = foldFields visit s buf :=
  foldFieldsF_fuel_irrel fuel (buf.length + 1) buf s h (by omega)

end Osm

namespace Osm

/-- readField decodes one encoded LENGTH field at the head of the buffer,
returning its number, wire type 2 and payload, and the remaining bytes. -/
theorem readField_fieldBytes (num : Nat) (payload rest : List Nat)
    (hnum : num * 8 + 2 < 2 ^ 64) (hlen : payload.length < 2 ^ 64) :
    readField (fieldBytes num payload ++ rest) = .ok (⟨num, 2, payload⟩, rest) := by
  have hne1 := encUvarint_ne_nil (num * 8 + 2)
  have hne2 := encUvarint_ne_nil payload.length
  have hpos1 : 0 < (encUvarint (num * 8 + 2)).length := List.length_pos.mpr hne1
  have hpos2 : 0 < (encUvarint payload.length).length := List.length_pos.mpr hne2
  have h7 : (num * 8 + 2) &&& 7 = 2 := by
    have h := Nat.and_pow_two_sub_one_eq_mod (num * 8 + 2) 3
    norm_num at h
    rw [h]
    omega
  have hsr : (num * 8 + 2) >>> 3 = num := by
    rw [Nat.shiftRight_eq_div_pow]
    omega
  unfold readField fieldBytes
  rw [List.append_assoc, List.append_assoc]
  rw [if_neg (by simp [hne1])]
  dsimp only
  rw [uvarint_enc (encUvarint payload.length ++ (payload ++ rest)) hnum]
  dsimp only
  rw [if_neg (by omega)]
  rw [Int.toNat_ofNat, List.drop_left]
  rw [uvarint_enc (payload ++ rest) hlen]
  dsimp only
  rw [h7, hsr]
  rw [if_pos (Or.inr rfl)]
  rw [if_neg (by omega)]
  rw [Int.toNat_ofNat]
  rw [if_neg (by
    rw [List.length_append]
    omega)]
  rw [List.drop_left]
  rw [if_pos rfl]
  rw [if_neg (by
    rw [List.length_append]
    omega)]
  rw [List.take_left, List.drop_left]

end Osm

namespace Osm

/-- Processing an encoded LENGTH field at the head of the buffer runs the
visitor once on it and continues on the suffix. -/
theorem foldFields_field_cons {σ : Type} (visit : σ → Field → Vres σ) (s : σ)
    (num : Nat) (payload rest : List Nat)
    (hnum : num * 8 + 2 < 2 ^ 64) (hlen : payload.length < 2 ^ 64) :
    foldFields visit s (fieldBytes num payload ++ rest) =
      match visit s ⟨num, 2, payload⟩ with
      | .cont s₁ => foldFields visit s₁ rest
      | .err s₁ e => .err s₁ e
      | .panic => .panic := by
  have hrd := readField_fieldBytes num payload rest hnum hlen
  unfold foldFields
  simp only [foldFieldsF, hrd]
  cases hv : visit s ⟨num, 2, payload⟩ with
  | cont s₁ =>
    simp only [hv]
    exact foldFieldsF_canon _ rest s₁ (by
      have := readField_length_lt hrd
      omega)
  | err s₁ e => simp only [hv]
  | panic => simp only [hv]

/-- The field fold over an exhausted buffer succeeds with the state. -/
theorem foldFields_nil {σ : Type} (visit : σ → Field → Vres σ) (s : σ) :
    foldFields visit s [] = .ok s := rfl

end Osm

namespace Osm

/-- The way-keys inner fold over reference-encoded keys appends exactly
the (key, 0) pairs. -/
theorem wayKeys_fold_enc :
    ∀ (ks : List Nat) (b : Block), (∀ k ∈ ks, k < 2 ^ 64) →
    foldPacked uvarint
      (fun (b : Block) x => Vres.cont { b with wayStrings := b.wayStrings ++ [x % 2 ^ 32, 0] })
      b (encPacked ks) =
      .ok { b with wayStrings := b.wayStrings ++ interleaveKV ks [] } := by
  intro ks
  induction ks with
  | nil =>
    intro b hk
    rw [show interleaveKV [] [] = ([] : List Nat) from rfl, List.append_nil]
    rfl
  | cons k ks ih =>
    intro b hk
    have hkk : k < 2 ^ 64 := hk k (by simp)
    have henc : encPacked (k :: ks) = encUvarint k ++ encPacked ks := by
      simp [encPacked]
    rw [henc]
    rw [foldPacked_enc_cons _ b k (encUvarint k) (encPacked ks) (encUvarint_ne_nil k)
      (uvarint_enc (encPacked ks) hkk)]
    dsimp only
    rw [ih _ (fun x hx => hk x (by simp [hx]))]
    have harr : ({ b with wayStrings := b.wayStrings ++ [k % 2 ^ 32, 0] } : Block).wayStrings ++
        interleaveKV ks [] = b.wayStrings ++ interleaveKV (k :: ks) [] := by
      show (b.wayStrings ++ [k % 2 ^ 32, 0]) ++ interleaveKV ks [] = _
      rw [List.append_assoc]
      rfl
    rw [harr]

end Osm

namespace Osm

/-- Setting the element right after a prefix replaces the head of the
suffix. -/
theorem set_append_len {α : Type} (l₁ l₂ : List α) (a x : α) :
    (l₁ ++ a :: l₂).set l₁.length x = l₁ ++ x :: l₂ := by
  induction l₁ with
  | nil => rfl
  | cons c cs ih =>
    show c :: (cs ++ a :: l₂).set cs.length x = c :: (cs ++ x :: l₂)
    rw [ih]

/-- The way-vals inner fold over reference-encoded vals fills every
second reserved slot, walking the cursor by two. -/
theorem wayVals_fold_enc :
    ∀ (vs ks w0 : List Nat) (b : Block),
      vs.length ≤ ks.length → (∀ v ∈ vs, v < 2 ^ 64) →
      b.wayStrings = w0 ++ interleaveKV ks [] →
      foldPacked uvarint
        (fun (p : Block × Nat) x =>
          if p.2 < p.1.wayStrings.length then
            Vres.cont ({ p.1 with wayStrings := p.1.wayStrings.set p.2 (x % 2 ^ 32) }, p.2 + 2)
          else Vres.panic)
        (b, w0.length + 1) (encPacked vs) =
        .ok ({ b with wayStrings := w0 ++ interleaveKV ks vs },
          w0.length + 1 + 2 * vs.length) := by
  intro vs
  induction vs with
  | nil =>
    intro ks w0 b hle hv hb
    rw [← hb]
    rfl
  | cons v vs ih =>
    intro ks w0 b hle hv hb
    cases ks with
    | nil => simp at hle
    | cons k ks =>
      have hvv : v < 2 ^ 64 := hv v (by simp)
      have henc : encPacked (v :: vs) = encUvarint v ++ encPacked vs := by
        simp [encPacked]
      rw [henc]
      rw [foldPacked_enc_cons _ (b, w0.length + 1) v (encUvarint v) (encPacked vs)
        (encUvarint_ne_nil v) (uvarint_enc (encPacked vs) hvv)]
      dsimp only
      rw [if_pos (by
        rw [hb]
        show w0.length + 1 < (w0 ++ (k % 2 ^ 32 :: 0 :: interleaveKV ks [])).length
        rw [List.length_append]
        simp only [List.length_cons]
        omega)]
      have hset : b.wayStrings.set (w0.length + 1) (v % 2 ^ 32) =
          w0 ++ (k % 2 ^ 32 :: v % 2 ^ 32 :: interleaveKV ks []) := by
        rw [hb]
        show (w0 ++ (k % 2 ^ 32 :: 0 :: interleaveKV ks [])).set (w0.length + 1) (v % 2 ^ 32) = _
        rw [List.append_cons w0 (k % 2 ^ 32) (0 :: interleaveKV ks [])]
        rw [show w0.length + 1 = (w0 ++ [k % 2 ^ 32]).length from by simp]
        rw [set_append_len (w0 ++ [k % 2 ^ 32]) (interleaveKV ks []) 0 (v % 2 ^ 32)]
        rw [List.append_assoc]
        rfl
      rw [hset]
      have hcur : w0.length + 1 + 2 = (w0 ++ [k % 2 ^ 32, v % 2 ^ 32]).length + 1 := by
        simp
      rw [hcur]
      have hb₂ : ({ b with wayStrings := w0 ++ (k % 2 ^ 32 :: v % 2 ^ 32 :: interleaveKV ks []) } :
          Block).wayStrings = (w0 ++ [k % 2 ^ 32, v % 2 ^ 32]) ++ interleaveKV ks [] := by
        show w0 ++ (k % 2 ^ 32 :: v % 2 ^ 32 :: interleaveKV ks []) = _
        rw [List.append_assoc]
        rfl
      have hih := ih ks (w0 ++ [k % 2 ^ 32, v % 2 ^ 32])
        { b with wayStrings := w0 ++ (k % 2 ^ 32 :: v % 2 ^ 32 :: interleaveKV ks []) }
        (by simpa using hle) (fun x hx => hv x (by simp [hx])) hb₂
      have harr : (w0 ++ [k % 2 ^ 32, v % 2 ^ 32]) ++ interleaveKV ks vs =
          w0 ++ interleaveKV (k :: ks) (v :: vs) := by
        rw [List.append_assoc]
        rfl
      have hlen2 : (w0 ++ [k % 2 ^ 32, v % 2 ^ 32]).length + 1 + 2 * vs.length =
          w0.length + 1 + 2 * (v :: vs).length := by
        simp only [List.length_append, List.length_cons, List.length_nil]
        omega
      exact hih.trans (by rw [harr, hlen2])

end Osm

namespace Osm

/-- The reference encoder emits at most fuel+1 bytes. -/
theorem encUvarintF_length_le : ∀ (fuel x : Nat), (encUvarintF fuel x).length ≤ fuel + 1 := by
  intro fuel
  induction fuel with
  | zero => intro x; simp [encUvarintF]
  | succ fuel ih =>
    intro x
    unfold encUvarintF
    split
    · simp
    · simp only [List.length_cons]
      have := ih (x / 128)
      omega

/-- The packed encoding of a list is at most 11 bytes per element. -/
theorem encPacked_length_le : ∀ (xs : List Nat), (encPacked xs).length ≤ 11 * xs.length := by
  intro xs
  induction xs with
  | nil => simp [encPacked]
  | cons x xs ih =>
    have henc : encPacked (x :: xs) = encUvarint x ++ encPacked xs := by
      simp [encPacked]
    rw [henc, List.length_append]
    have h1 : (encUvarint x).length ≤ 11 := encUvarintF_length_le 10 x
    simp only [List.length_cons]
    omega

end Osm

namespace Osm

/-- C5 (amended, completion side): with at least as many keys as vals the
way decoder completes, and the stored way strings interleave each key
with its val, the unfilled trailing slots staying zero. -/
theorem c5_keys_ge_vals_zero_fill (ks vs : List Nat) (b : Block)
    (hlen : vs.length ≤ ks.length) (hnk : ks.length < 2 ^ 32)
    (hks : ∀ k ∈ ks, k < 2 ^ 64) (hvs : ∀ v ∈ vs, v < 2 ^ 64) :
    ∃ b₁, procWay What.everything (wayMsgBytes ks vs) b = .ok b₁ ∧
      b₁.wayStrings = b.wayStrings ++ interleaveKV ks vs := by
  have hP : (encPacked ks).length < 2 ^ 64 := by
    have := encPacked_length_le ks
    omega
  have hQ : (encPacked vs).length < 2 ^ 64 := by
    have := encPacked_length_le vs
    omega
  have hkeys := wayKeys_fold_enc ks b hks
  have hvals := wayVals_fold_enc vs ks b.wayStrings
    { b with wayStrings := b.wayStrings ++ interleaveKV ks [] } hlen hvs rfl
  have hstep1 : procWayVisit
      { block := b,
        way := { sset := b.wayStrings.length % 2 ^ 32, rset := b.wayRefs.length % 2 ^ 32 },
        strValIdx := b.wayStrings.length + 1 }
      ⟨2, 2, encPacked ks⟩ =
      .cont { block := { b with wayStrings := b.wayStrings ++ interleaveKV ks [] },
              way := { sset := b.wayStrings.length % 2 ^ 32,
                       rset := b.wayRefs.length % 2 ^ 32 },
              strValIdx := b.wayStrings.length + 1 } := by
    show ((match foldPacked uvarint
        (fun (b : Block) x => Vres.cont { b with wayStrings := b.wayStrings ++ [x % 2 ^ 32, 0] })
        b (encPacked ks) with
      | Fres.ok bb => Vres.cont
          { block := bb,
            way := { sset := b.wayStrings.length % 2 ^ 32,
                     rset := b.wayRefs.length % 2 ^ 32 },
            strValIdx := b.wayStrings.length + 1 }
      | Fres.err bb e => Vres.err
          { block := bb,
            way := { sset := b.wayStrings.length % 2 ^ 32,
                     rset := b.wayRefs.length % 2 ^ 32 },
            strValIdx := b.wayStrings.length + 1 } e
      | Fres.panic => Vres.panic : Vres WayS)) = _
    rw [hkeys]
  have hstep2 : procWayVisit
      { block := { b with wayStrings := b.wayStrings ++ interleaveKV ks [] },
        way := { sset := b.wayStrings.length % 2 ^ 32, rset := b.wayRefs.length % 2 ^ 32 },
        strValIdx := b.wayStrings.length + 1 }
      ⟨3, 2, encPacked vs⟩ =
      .cont { block := { { b with wayStrings := b.wayStrings ++ interleaveKV ks [] } with
                         wayStrings := b.wayStrings ++ interleaveKV ks vs },
              way := { sset := b.wayStrings.length % 2 ^ 32,
                       rset := b.wayRefs.length % 2 ^ 32 },
              strValIdx := b.wayStrings.length + 1 + 2 * vs.length } := by
    show ((match foldPacked uvarint
        (fun (p : Block × Nat) x =>
          if p.2 < p.1.wayStrings.length then
            Vres.cont ({ p.1 with wayStrings := p.1.wayStrings.set p.2 (x % 2 ^ 32) }, p.2 + 2)
          else Vres.panic)
        ({ b with wayStrings := b.wayStrings ++ interleaveKV ks [] },
          b.wayStrings.length + 1) (encPacked vs) with
      | Fres.ok p => Vres.cont
          { block := p.1,
            way := { sset := b.wayStrings.length % 2 ^ 32,
                     rset := b.wayRefs.length % 2 ^ 32 },
            strValIdx := p.2 }
      | Fres.err p e => Vres.err
          { block := p.1,
            way := { sset := b.wayStrings.length % 2 ^ 32,
                     rset := b.wayRefs.length % 2 ^ 32 },
            strValIdx := p.2 } e
      | Fres.panic => Vres.panic : Vres WayS)) = _
    rw [hvals]
  have hFF : foldFields procWayVisit
      { block := b,
        way := { sset := b.wayStrings.length % 2 ^ 32, rset := b.wayRefs.length % 2 ^ 32 },
        strValIdx := b.wayStrings.length + 1 }
      (fieldBytes 2 (encPacked ks) ++ fieldBytes 3 (encPacked vs)) =
      .ok { block := { { b with wayStrings := b.wayStrings ++ interleaveKV ks [] } with
                       wayStrings := b.wayStrings ++ interleaveKV ks vs },
            way := { sset := b.wayStrings.length % 2 ^ 32,
                     rset := b.wayRefs.length % 2 ^ 32 },
            strValIdx := b.wayStrings.length + 1 + 2 * vs.length } := by
    rw [foldFields_field_cons procWayVisit _ 2 (encPacked ks) (fieldBytes 3 (encPacked vs))
      (by norm_num) hP]
    rw [hstep1]
    dsimp only
    rw [show fieldBytes 3 (encPacked vs) = fieldBytes 3 (encPacked vs) ++ [] from
      (List.append_nil _).symm]
    rw [foldFields_field_cons procWayVisit _ 3 (encPacked vs) [] (by norm_num) hQ]
    rw [hstep2]
    dsimp only
    exact foldFields_nil _ _
  refine ⟨({ b with
              wayStrings := b.wayStrings ++ interleaveKV ks vs,
              ways := b.ways ++ [{
                id := 0,
                sset := b.wayStrings.length % 2 ^ 32,
                send := (b.wayStrings ++ interleaveKV ks vs).length % 2 ^ 32,
                rset := b.wayRefs.length % 2 ^ 32,
                rend := b.wayRefs.length % 2 ^ 32 }] } : Block), ?_, ?_⟩
  · show ((match foldFields procWayVisit
        { block := b,
          way := { sset := b.wayStrings.length % 2 ^ 32, rset := b.wayRefs.length % 2 ^ 32 },
          strValIdx := b.wayStrings.length + 1 }
        (fieldBytes 2 (encPacked ks) ++ fieldBytes 3 (encPacked vs)) with
      | Fres.ok st => Fres.ok { st.block with
          ways := st.block.ways ++
            [{ st.way with send := st.block.wayStrings.length % 2 ^ 32,
                           rend := st.block.wayRefs.length % 2 ^ 32 }] }
      | Fres.err st e => Fres.err st.block e
      | Fres.panic => Fres.panic : Fres Block)) = _
    rw [hFF]
  · rfl

end Osm

namespace Osm

/-- C5 witness: two keys and one val decode fine, filling the first
reserved slot and leaving the second zero. -/
theorem c5_keys_ge_vals_zero_fill_witness :
    (∃ b₁, procWay What.everything (wayMsgBytes [5, 6] [7]) initBlock = .ok b₁ ∧
      b₁.wayStrings = initBlock.wayStrings ++ interleaveKV [5, 6] [7]) ∧
    interleaveKV [5, 6] [7] = [5, 7, 6, 0] :=
  ⟨c5_keys_ge_vals_zero_fill [5, 6] [7] initBlock (by decide) (by decide) (by decide)
    (by decide), by decide⟩

end Osm

namespace Osm

/-- strings.Split never returns an empty list of parts. -/
theorem splitOnCh_ne_nil (sep : Char) (l : List Char) : splitOnCh sep l ≠ [] := by
  induction l with
  | nil => simp [splitOnCh]
  | cons a rest ih =>
    unfold splitOnCh
    split
    · simp
    · split <;> simp

/-- Splitting a separator-free string yields the single part. -/
theorem splitOnCh_sepFree (sep : Char) (l : List Char) (h : ∀ c ∈ l, c ≠ sep) :
    splitOnCh sep l = [l] := by
  induction l with
  | nil => rfl
  | cons a rest ih =>
    have ha : a ≠ sep := h a (by simp)
    have hrest := ih (fun c hc => h c (by simp [hc]))
    unfold splitOnCh
    rw [hrest]
    dsimp only
    rw [if_neg ha]

/-- Splitting past a separator-free prefix peels it off. -/
theorem splitOnCh_sep_append (sep : Char) (l₁ l₂ : List Char) (h : ∀ c ∈ l₁, c ≠ sep) :
    splitOnCh sep (l₁ ++ sep :: l₂) = l₁ :: splitOnCh sep l₂ := by
  induction l₁ with
  | nil =>
    show splitOnCh sep (sep :: l₂) = [] :: splitOnCh sep l₂
    rcases hsp : splitOnCh sep l₂ with - | ⟨h₂, t₂⟩
    · exact absurd hsp (splitOnCh_ne_nil sep l₂)
    · have hstep : splitOnCh sep (sep :: l₂) =
          match splitOnCh sep l₂ with
          | [] => [[sep]]
          | h :: t => if sep = sep then [] :: h :: t else (sep :: h) :: t := rfl
      rw [hstep, hsp]
      dsimp only
      rw [if_pos rfl]
  | cons a l₁ ih =>
    have ha : a ≠ sep := h a (by simp)
    have h' := ih (fun c hc => h c (by simp [hc]))
    show splitOnCh sep (a :: (l₁ ++ sep :: l₂)) = (a :: l₁) :: splitOnCh sep l₂
    have hstep : splitOnCh sep (a :: (l₁ ++ sep :: l₂)) =
        match splitOnCh sep (l₁ ++ sep :: l₂) with
        | [] => [[a]]
        | h :: t => if a = sep then [] :: h :: t else (a :: h) :: t := rfl
    rw [hstep, h']
    dsimp only
    rw [if_neg ha]

/-- A decimal digit is none of the separators or signs. -/
theorem isDigitCh_ne (c : Char) (h : isDigitCh c = true) : c ≠ '.' ∧ c ≠ '-' ∧ c ≠ '+' := by
  refine ⟨?_, ?_, ?_⟩ <;> rintro rfl <;> revert h <;> decide

/-- Atoi accepts any nonempty all-digit string. -/
theorem atoiOK_digits (ds : List Char) (hne : ds ≠ []) (hall : ds.all isDigitCh = true) :
    atoiOK ds = true := by
  cases ds with
  | nil => exact absurd rfl hne
  | cons c rest =>
    simp only [List.all_cons, Bool.and_eq_true] at hall
    have hd := isDigitCh_ne c hall.1
    unfold atoiOK
    dsimp only
    rw [if_neg (not_or.mpr ⟨hd.2.2, hd.2.1⟩)]
    simp [hall.1, hall.2]

end Osm

namespace Osm

/-- validBaseName accepts planet- followed by any six digits and the
.osm.pbf extension. -/
theorem validBaseName_digits (ds : List Char) (hall : ds.all isDigitCh = true)
    (hlen : ds.length = 6) :
    validBaseName ("planet-".toList ++ (ds ++ ".osm.pbf".toList)) = true := by
  have hdall : ∀ c ∈ ds, isDigitCh c = true := by
    intro c hc
    exact List.all_eq_true.mp hall c hc
  have hdot : ∀ c ∈ ("planet-".toList ++ ds), c ≠ '.' := by
    intro c hc
    rcases List.mem_append.mp hc with hc | hc
    · have hp : ∀ c ∈ "planet-".toList, c ≠ '.' := by decide
      exact hp c hc
    · exact (isDigitCh_ne c (hdall c hc)).1
  have hdash : ∀ c ∈ "planet".toList, c ≠ '-' := by decide
  have hdashds : ∀ c ∈ ds, c ≠ '-' := fun c hc => (isDigitCh_ne c (hdall c hc)).2.1
  have hshape : "planet-".toList ++ (ds ++ ".osm.pbf".toList) =
      ("planet-".toList ++ ds) ++ '.' :: ("osm".toList ++ '.' :: "pbf".toList) := by
    have hA : ".osm.pbf".toList = '.' :: ("osm".toList ++ '.' :: "pbf".toList) := by decide
    rw [hA, List.append_assoc]
  have hsplit1 : splitOnCh '.' ("planet-".toList ++ (ds ++ ".osm.pbf".toList)) =
      [("planet-".toList ++ ds), "osm".toList, "pbf".toList] := by
    rw [hshape]
    rw [splitOnCh_sep_append '.' _ _ hdot]
    rw [splitOnCh_sep_append '.' ("osm".toList) ("pbf".toList) (by decide)]
    rw [splitOnCh_sepFree '.' ("pbf".toList) (by decide)]
  have hshape2 : "planet-".toList ++ ds = "planet".toList ++ '-' :: ds := by
    rw [show "planet-".toList = "planet".toList ++ ['-'] from by decide]
    rw [List.append_assoc]
    rfl
  have hsplit2 : splitOnCh '-' ("planet-".toList ++ ds) = ["planet".toList, ds] := by
    rw [hshape2]
    rw [splitOnCh_sep_append '-' _ _ hdash]
    rw [splitOnCh_sepFree '-' ds hdashds]
  have hne : ds ≠ [] := by
    intro hh
    rw [hh] at hlen
    simp at hlen
  unfold validBaseName
  split
  · rfl
  · dsimp only
    rw [hsplit1]
    rw [if_neg (by simp [List.getD])]
    rw [show (["planet-".toList ++ ds, "osm".toList, "pbf".toList] : List (List Char)).getD 0 []
      = "planet-".toList ++ ds from rfl]
    rw [hsplit2]
    rw [show ((["planet".toList, ds] : List (List Char)).getD 1 []) = ds from rfl]
    rw [if_neg (by simp)]
    rw [atoiOK_digits ds hne hall]
    simp [hlen]

end Osm

namespace Osm

/-- C9 (amended): validBaseName accepts every name of the planet grammar
(the latest literal or planet- with six digits and .osm.pbf), but not
only those: the prefix before the dash is never compared with planet and
the six-character field may carry a leading sign, so x-123456.osm.pbf
and planet-+12345.osm.pbf are also accepted. -/
theorem c9_grammar_sound_but_not_exact :
    (∀ s, planetNameGrammar s = true → validBaseName s = true) ∧
    (validBaseName c9name1 = true ∧ planetNameGrammar c9name1 = false) ∧
    (validBaseName c9name2 = true ∧ planetNameGrammar c9name2 = false) := by
  refine ⟨?_, by decide, by decide⟩
  intro s hg
  unfold planetNameGrammar at hg
  simp only [Bool.or_eq_true, Bool.and_eq_true, decide_eq_true_eq] at hg
  rcases hg with hlit | ⟨⟨⟨hlen, htake⟩, hdig⟩, hdrop⟩
  · unfold validBaseName
    rw [if_pos hlit]
  · have hds_len : ((s.drop 7).take 6).length = 6 := by
      simp [List.length_take, List.length_drop, hlen]
    have hs : s = "planet-".toList ++ (((s.drop 7).take 6) ++ ".osm.pbf".toList) := by
      conv_lhs => rw [← List.take_append_drop 7 s]
      rw [htake]
      congr 1
      conv_lhs => rw [← List.take_append_drop 6 (s.drop 7)]
      congr 1
      rw [List.drop_drop]
      norm_num
      exact hdrop
    rw [hs]
    exact validBaseName_digits _ hdig hds_len

end Osm

namespace Osm

/-- C9 witness: a grammar name, accepted by validBaseName through the
soundness direction of the claim theorem. -/
theorem c9_grammar_sound_but_not_exact_witness :
    planetNameGrammar ("planet-123456.osm.pbf".toList) = true ∧
    validBaseName ("planet-123456.osm.pbf".toList) = true :=
  ⟨by decide, c9_grammar_sound_but_not_exact.1 _ (by decide)⟩

end Osm
